import Mathlib

/-!
# GlobalGet bytecode and the Lua test driver of luajit-remake

A shallow embedding of `src/annotated/bytecodes/global_get.cpp` (`GlobalGetImpl`,
`GlobalGetMetamethodCallContinuation`) and of `ParseLuaScriptOrFail` from
`src/test_lua_programs.cpp`.

Conventions of the embedding
* heap pointers are natural numbers, `0` being the null pointer;
* the runtime helpers that `GlobalGetImpl` calls but whose bodies live in headers outside
  `src/` (`TableObject::PrepareGetById`, `TableObject::GetMetatable`,
  `GetMetamethodFromMetatable`, `GetMetamethodForValue`, the storage of a table) are the
  fields of the record `Runtime`: every theorem holds for every implementation of them;
* `goto check_metatable` / `goto handle_metamethod` become a step function on the type
  `Label`; the loop is iterated with a step budget (`fuel`), and an unfinished run has
  outcome `none`;
* every helper call made by the bytecode is logged, in program order, in a list of `Event`s.
-/

namespace LuaJitRemake

/-! ## Values -/

/-- Pointer `HeapPtr<TableObject>`; `0` is the null pointer. -/
abbrev TableRef := Nat

/-- Pointer `HeapPtr<FunctionObject>`. -/
abbrev FunctionRef := Nat

/-- Pointer `HeapPtr<HeapString>`: strings are interned, so equality of the contents is pointer
equality. -/
abbrev HeapString := String

/-- The boxed value `TValue`, with the type tests the bytecode uses (`tNil`, `tString`,
`tTable`, `tFunction`, `tHeapEntity`). The payload of a double is its bit pattern. -/
inductive TValue where
  | Nil
  | Boolean (b : Bool)
  | Double (bits : Nat)
  | String (s : HeapString)
  | Table (t : TableRef)
  | Function (f : FunctionRef)
  | Thread (c : Nat)
  deriving DecidableEq, Repr

/-- The `HeapEntityType` of the heap entities a value can point to. -/
inductive HeapEntityType where
  | String
  | Table
  | Function
  | Thread
  deriving DecidableEq, Repr

/-- The test `tv.Is<tNil>()`. -/
def TValue.IsNil : TValue → Bool
  | .Nil => true
  | _ => false

/-- The test `tv.Is<tString>()`. -/
def TValue.IsString : TValue → Bool
  | .String _ => true
  | _ => false

/-- The test `tv.Is<tHeapEntity>()`: the value is a pointer to a heap object. -/
def TValue.IsHeapEntity : TValue → Bool
  | .String _ => true
  | .Table _ => true
  | .Function _ => true
  | .Thread _ => true
  | _ => false

/-- The accessor `tv.GetHeapEntityType()`, defined when `tv.Is<tHeapEntity>()`. -/
def TValue.GetHeapEntityType : TValue → Option HeapEntityType
  | .String _ => some .String
  | .Table _ => some .Table
  | .Function _ => some .Function
  | .Thread _ => some .Thread
  | _ => none

/-- The enumeration `LuaMetamethodKind`; `GlobalGetImpl` only asks for `Index`. -/
inductive LuaMetamethodKind where
  | Index
  | NewIndex
  | Call
  | Eq
  | Lt
  | Le
  | Concat
  | Len
  | Unm
  deriving DecidableEq, Repr

/-! ## Raw table access -/

/-- The enumeration `GetByIdICInfo::ICKind`, the three kinds `GlobalGetImpl` distinguishes. -/
inductive ICKind where
  | InlinedStorage
  | OutlinedStorage
  | MustBeNilButUncacheable
  deriving DecidableEq, Repr

/-- The record `GetByIdICInfo`, the out-parameter of `TableObject::PrepareGetById`. -/
structure GetByIdICInfo where
  m_icKind : ICKind
  m_slot : Int
  m_mayHaveMetatable : Bool
  deriving DecidableEq, Repr

/-- The runtime helpers called by `GlobalGetImpl` whose bodies are outside `src/`, taken as
parameters.
* `GetFEnvGlobalObject` : the global table of the running function;
* `m_hiddenClass base` : `base->m_hiddenClass.m_value`, the identity of the structure;
* `PrepareGetById base index` : the `GetByIdICInfo` written by `TableObject::PrepareGetById`;
* `m_inlineStorage base slot` : `TCGet(base->m_inlineStorage[slot])`;
* `GetNamedProperty base slot` : `base->m_butterfly->GetNamedProperty(slot)`;
* `GetMetatable base` : `TableObject::GetMetatable(base).m_result.m_value`, `0` when the table
  has no metatable and the address of the metatable otherwise;
* `GetMetamethodFromMetatable`, `GetMetamethodForValue` : the metamethod lookups. -/
structure Runtime where
  GetFEnvGlobalObject : TableRef
  m_hiddenClass : TableRef → Nat
  PrepareGetById : TableRef → HeapString → GetByIdICInfo
  m_inlineStorage : TableRef → Int → TValue
  GetNamedProperty : TableRef → Int → TValue
  GetMetatable : TableRef → Nat
  GetMetamethodFromMetatable : TableRef → LuaMetamethodKind → TValue
  GetMetamethodForValue : TValue → LuaMetamethodKind → TValue

/-- Modelled from the spec: `TableObject::GetById(base, index, icInfo)`, whose body is not
under `src/`. Section 4.2 step 1 resolves the key to an inline slot, an outlined slot or
"absent"; the value is then read from that place, an absent key reading as nil. These are
the same three reads as in the IC body of `GlobalGetImpl` (lines 25-45). -/
def GetById (rt : Runtime) (base : TableRef) (_index : HeapString) (icInfo : GetByIdICInfo) :
    TValue :=
  match icInfo.m_icKind with
  | .InlinedStorage => rt.m_inlineStorage base icInfo.m_slot
  | .OutlinedStorage => rt.GetNamedProperty base icInfo.m_slot
  | .MustBeNilButUncacheable => TValue.Nil

/-- The raw lookup of `index` in `base`: `PrepareGetById` followed by the read it describes,
paired with the `mayHaveMetatable` bit the probe reports. No metatable is consulted. -/
def rawLookup (rt : Runtime) (base : TableRef) (index : HeapString) : TValue × Bool :=
  let icInfo := rt.PrepareGetById base index
  (GetById rt base index icInfo, icInfo.m_mayHaveMetatable)

/-! ## Inline cache of a GlobalGet site -/

/-- Which of the two `ic->Effect` lambdas of `GlobalGetImpl` an effect is (line 28 or
line 36). -/
inductive ICEffectKind where
  | InlinedStorage
  | OutlinedStorage
  deriving DecidableEq, Repr

/-- An effect closure with its captured constants `c_slot` and `c_mayHaveMt`. -/
structure ICEffect where
  kind : ICEffectKind
  c_slot : Int
  c_mayHaveMt : Bool
  deriving DecidableEq, Repr

/-- One recorded entry of a site: the key given to `AddKey` and the effect. -/
structure ICEntry where
  key : Nat
  effect : ICEffect
  deriving DecidableEq, Repr

/-- The state of one IC site (`ICHandler`): the ordered entries and the capacity bound. -/
structure ICHandler where
  entries : List ICEntry
  capacity : Nat
  deriving DecidableEq, Repr

/-- Running an effect lambda on `base` (lines 28-31 and 36-39): the value is read from the
table at the captured slot, the bit is the captured one.
`IcSpecializeValueFullCoverage` only guides specialisation and has no effect on the result. -/
def ICEffect.run (rt : Runtime) (base : TableRef) (e : ICEffect) : TValue × Bool :=
  match e.kind with
  | .InlinedStorage => (rt.m_inlineStorage base e.c_slot, e.c_mayHaveMt)
  | .OutlinedStorage => (rt.GetNamedProperty base e.c_slot, e.c_mayHaveMt)

/-- Modelled from the spec: the dispatch of `ICHandler` (`api_inline_cache.h` is not under
`src/`). Section 4.3: "the site dispatches on structure identity"; the first entry whose key
is the given key is the hit. -/
def ICHandler.find (ic : ICHandler) (key : Nat) : Option ICEffect :=
  match ic.entries.find? (fun e => e.key == key) with
  | some e => some e.effect
  | none => none

/-- Modelled from the spec: `ic->Effect(...)` executed in the body on a miss
(`api_inline_cache.h` is not under `src/`). Section 4.3: "a miss either extends the IC (up to
the capacity bound) or demotes the site to the generic slow path": the entry is appended
while there is room, and a full site records nothing. -/
def ICHandler.Effect (ic : ICHandler) (key : Nat) (e : ICEffect) : ICHandler :=
  if ic.entries.length < ic.capacity then
    { ic with entries := ic.entries ++ [{ key := key, effect := e }] }
  else ic

/-! ## Outcomes and events -/

/-- The return continuations a call can be given; `GlobalGetImpl` has one. -/
inductive ReturnContinuation where
  | GlobalGetMetamethodCallContinuation
  deriving DecidableEq, Repr

/-- How an execution of the bytecode ends: `Return(v)`, `MakeCall(callee, args...,
continuation)`, `ThrowError(msg)`, or the failure of the entry `assert`. -/
inductive Outcome where
  | Return (v : TValue)
  | MakeCall (callee : FunctionRef) (args : List TValue) (continuation : ReturnContinuation)
  | ThrowError (msg : String)
  | AssertionFailure
  deriving DecidableEq, Repr

/-- The helper calls of `GlobalGetImpl`, logged in program order. `ICHit`: the site is
served by a recorded effect; `ICBody`: the body lambda runs; `ICInstall`: the body calls
`ic->Effect`; the others are the calls of the same name. -/
inductive Event where
  | ICHit (key : Nat) (e : ICEffect)
  | ICBody (base : TableRef) (index : HeapString)
  | ICInstall (key : Nat) (e : ICEffect)
  | PrepareGetById (base : TableRef) (index : HeapString)
  | GetMetatable (base : TableRef)
  | GetMetamethodFromMetatable (metatable : TableRef) (kind : LuaMetamethodKind)
  | GetMetamethodForValue (v : TValue) (kind : LuaMetamethodKind)
  deriving DecidableEq, Repr

/-- An event that consults a metatable. -/
def Event.consultsMetatable : Event → Bool
  | .GetMetatable _ => true
  | .GetMetamethodFromMetatable _ _ => true
  | .GetMetamethodForValue _ _ => true
  | _ => false

/-- An event that runs the IC body, that is the full `PrepareGetById` probe of line 23. -/
def Event.isICBody : Event → Bool
  | .ICBody _ _ => true
  | _ => false

/-- An event that serves the site from a recorded effect. -/
def Event.isICHit : Event → Bool
  | .ICHit _ _ => true
  | _ => false

/-- What one execution of the bytecode leaves behind: the outcome (`none` when the step
budget ran out before the slow path finished), the IC site after it, and the log. -/
structure Result where
  outcome : Option Outcome
  ic : ICHandler
  trace : List Event
  deriving DecidableEq, Repr

/-! ## `GlobalGetMetamethodCallContinuation` -/

/-- Modelled from the spec: `GetReturnValue(ord)` of `deegen_api.h` (not under `src/`).
Section 4.5: returned values are padded with nil, so a missing return value reads as nil. -/
def GetReturnValue (returnValues : List TValue) (ord : Nat) : TValue :=
  returnValues.getD ord TValue.Nil

/-- The function `GlobalGetMetamethodCallContinuation` (lines 7-10): `Return(GetReturnValue(0))`. -/
def GlobalGetMetamethodCallContinuation (_tvIndex : TValue) (returnValues : List TValue) :
    Outcome :=
  Outcome.Return (GetReturnValue returnValues 0)

/-- Resuming a return continuation with the values the callee returned. -/
def ReturnContinuation.resume (c : ReturnContinuation) (tvIndex : TValue)
    (returnValues : List TValue) : Outcome :=
  match c with
  | .GlobalGetMetamethodCallContinuation =>
      LuaJitRemake.GlobalGetMetamethodCallContinuation tvIndex returnValues

/-! ## `GlobalGetImpl` -/

/-- The result of `ic->Body(...)` at a site (lines 19-46): the pair `(result, mayHaveMt)`,
the site afterwards, and the log.
On a hit the recorded effect runs on `base` and the body is skipped. On a miss the body
lambda runs: `PrepareGetById`, then one of the two effects is installed and run, or, for
`MustBeNilButUncacheable`, `(nil, c_mayHaveMt)` is returned with nothing installed. -/
def GlobalGetIC (rt : Runtime) (ic : ICHandler) (base : TableRef) (index : HeapString) :
    (TValue × Bool) × ICHandler × List Event :=
  let key := rt.m_hiddenClass base
  match ic.find key with
  | some e => (e.run rt base, ic, [Event.ICHit key e])
  | none =>
    let c_info := rt.PrepareGetById base index
    let c_mayHaveMt := c_info.m_mayHaveMetatable
    match c_info.m_icKind with
    | .InlinedStorage =>
      let e : ICEffect := { kind := .InlinedStorage, c_slot := c_info.m_slot,
                            c_mayHaveMt := c_mayHaveMt }
      (e.run rt base, ic.Effect key e,
        [Event.ICBody base index, Event.PrepareGetById base index, Event.ICInstall key e])
    | .OutlinedStorage =>
      let e : ICEffect := { kind := .OutlinedStorage, c_slot := c_info.m_slot,
                            c_mayHaveMt := c_mayHaveMt }
      (e.run rt base, ic.Effect key e,
        [Event.ICBody base index, Event.PrepareGetById base index, Event.ICInstall key e])
    | .MustBeNilButUncacheable =>
      ((TValue.Nil, c_mayHaveMt), ic,
        [Event.ICBody base index, Event.PrepareGetById base index])

/-- The program points of the slow path lambda (lines 54-109) with the live variables:
`check_metatable` needs `base`; `handle_metamethod` needs `base`, `metamethodBase` and
`metamethod`. -/
inductive Label where
  | check_metatable (base : TableRef)
  | handle_metamethod (base : TableRef) (metamethodBase : TValue) (metamethod : TValue)
  deriving DecidableEq, Repr

/-- One pass from a label to the next `goto` or to the end of the bytecode.

`check_metatable` (lines 55-70): with a metatable whose `Index` metamethod is not nil, go to
`handle_metamethod` with `metamethodBase` the table; otherwise `Return(nil)`.

`handle_metamethod` (lines 72-108): a function is called with `(metamethodBase, index)`; a
table becomes the new `base`, is looked up afresh, and either returns the result or goes
back to `check_metatable`; any other value becomes `metamethodBase` and its own `Index`
metamethod is fetched, nil raising the error. -/
def slowPathStep (rt : Runtime) (index : HeapString) : Label → List Event × (Label ⊕ Outcome)
  | .check_metatable base =>
    let gmr := rt.GetMetatable base
    if gmr ≠ 0 then
      let metatable : TableRef := gmr
      let metamethod := rt.GetMetamethodFromMetatable metatable LuaMetamethodKind.Index
      if ¬ metamethod.IsNil then
        ([Event.GetMetatable base, Event.GetMetamethodFromMetatable metatable .Index],
          Sum.inl (Label.handle_metamethod base (TValue.Table base) metamethod))
      else
        ([Event.GetMetatable base, Event.GetMetamethodFromMetatable metatable .Index],
          Sum.inr (Outcome.Return TValue.Nil))
    else
      ([Event.GetMetatable base], Sum.inr (Outcome.Return TValue.Nil))
  | .handle_metamethod base metamethodBase metamethod =>
    match metamethod with
    | .Function f =>
      ([], Sum.inr (Outcome.MakeCall f [metamethodBase, TValue.String index]
            ReturnContinuation.GlobalGetMetamethodCallContinuation))
    | .Table t =>
      let base := t
      let icInfo := rt.PrepareGetById base index
      let result := GetById rt base index icInfo
      if ¬ icInfo.m_mayHaveMetatable ∨ ¬ result.IsNil then
        ([Event.PrepareGetById base index], Sum.inr (Outcome.Return result))
      else
        ([Event.PrepareGetById base index], Sum.inl (Label.check_metatable base))
    | other =>
      let metamethodBase := other
      let metamethod := rt.GetMetamethodForValue other LuaMetamethodKind.Index
      if metamethod.IsNil then
        ([Event.GetMetamethodForValue other .Index],
          Sum.inr (Outcome.ThrowError "bad type for GlobalGet"))
      else
        ([Event.GetMetamethodForValue other .Index],
          Sum.inl (Label.handle_metamethod base metamethodBase metamethod))

/-- The slow path lambda run from a label for at most `fuel` passes: the outcome (`none`
when the budget ran out) and the log. -/
def slowPathRun (rt : Runtime) (index : HeapString) : Nat → Label → Option Outcome × List Event
  | 0, _ => (none, [])
  | fuel + 1, l =>
    match slowPathStep rt index l with
    | (ev, Sum.inr out) => (some out, ev)
    | (ev, Sum.inl l') =>
      let r := slowPathRun rt index fuel l'
      (r.1, ev ++ r.2)

/-- The function `GlobalGetImpl` (lines 12-110) at a site with IC state `ic`, the slow path being given
`fuel` passes. -/
def GlobalGetImpl (rt : Runtime) (ic : ICHandler) (tvIndex : TValue) (fuel : Nat) : Result :=
  match tvIndex with
  | .String index =>
    let base := rt.GetFEnvGlobalObject
    match GlobalGetIC rt ic base index with
    | ((result, mayHaveMt), ic', ev) =>
      if ¬ mayHaveMt ∨ ¬ result.IsNil then
        { outcome := some (Outcome.Return result), ic := ic', trace := ev }
      else
        let r := slowPathRun rt index fuel (Label.check_metatable base)
        { outcome := r.1, ic := ic', trace := ev ++ r.2 }
  | _ => { outcome := some Outcome.AssertionFailure, ic := ic, trace := [] }

/-- The bytecode `GlobalGet` under its only variant (lines 112-122): the operand `index` is
a string constant. -/
def GlobalGet (rt : Runtime) (ic : ICHandler) (k : HeapString) (fuel : Nat) : Result :=
  GlobalGetImpl rt ic (TValue.String k) fuel

/-! ## Invariants of heap states and of IC sites -/

/-- Modelled from the spec: the `mayHaveMetatable` bit of a structure (maintained by code
outside `src/`). Section 4.1: setting a metatable moves the table to a structure with
`mayHaveMetatable = true`; hence a table that has a metatable is never probed with the bit
clear. -/
def MetatableBitSound (rt : Runtime) (index : HeapString) : Prop :=
  ∀ base : TableRef, rt.GetMetatable base ≠ 0 →
    (rt.PrepareGetById base index).m_mayHaveMetatable = true

/-- Modelled from the spec: the soundness of the entries recorded at a site. Section 4.3:
"an effect is sound only against tables whose structure is exactly one of the recorded
keys": on every table whose structure is a recorded key, the effect delivers the pair a
full probe delivers. -/
def ICSound (rt : Runtime) (index : HeapString) (ic : ICHandler) : Prop :=
  ∀ e ∈ ic.entries, ∀ base : TableRef, rt.m_hiddenClass base = e.key →
    e.effect.run rt base = rawLookup rt base index

/-- The `Index` metamethod of a table: that of its metatable, nil without a metatable
(lines 59-64). -/
def tableIndexMetamethod (rt : Runtime) (base : TableRef) : TValue :=
  if rt.GetMetatable base ≠ 0 then
    rt.GetMetamethodFromMetatable (rt.GetMetatable base) LuaMetamethodKind.Index
  else TValue.Nil

/-- The label reached after `n` passes of the slow path from `l`, `none` once the bytecode
has ended. -/
def labelAfter (rt : Runtime) (index : HeapString) : Nat → Label → Option Label
  | 0, l => some l
  | n + 1, l =>
    match slowPathStep rt index l with
    | (_, Sum.inl l') => labelAfter rt index n l'
    | (_, Sum.inr _) => none

/-- The execution of `GlobalGet(index)` enters the slow path: the site delivers nil with the
`mayHaveMetatable` bit set (the test of line 48 fails). -/
def entersSlowPath (rt : Runtime) (ic : ICHandler) (index : HeapString) : Bool :=
  let r := (GlobalGetIC rt ic rt.GetFEnvGlobalObject index).1
  r.2 && r.1.IsNil

/-- The `Index` chain walked by `GlobalGet(index)` reaches the label `l`. -/
def ChainReaches (rt : Runtime) (ic : ICHandler) (index : HeapString) (l : Label) : Prop :=
  entersSlowPath rt ic index = true ∧
    ∃ n, labelAfter rt index n (Label.check_metatable rt.GetFEnvGlobalObject) = some l

/-- The object whose `Index` metamethod the next pass from a label consults: the table at
`check_metatable`, the metamethod value at `handle_metamethod`. -/
def Label.object : Label → TValue
  | .check_metatable base => TValue.Table base
  | .handle_metamethod _ _ metamethod => metamethod

/-- One link of the `Index` chain: the value consulted after `v`, if any. From a table
whose raw lookup of `index` is nil with the bit set, the link goes to the table's `Index`
metamethod; from a value that is neither a table nor a function, to that value's own `Index`
metamethod. Functions, tables answering the raw lookup and nil metamethods end the chain. -/
def chainNext (rt : Runtime) (index : HeapString) : TValue → Option TValue
  | .Table t =>
    let r := rawLookup rt t index
    if r.2 = true ∧ r.1.IsNil = true then
      let h := tableIndexMetamethod rt t
      if h.IsNil then none else some h
    else none
  | .Function _ => none
  | v =>
    let h := rt.GetMetamethodForValue v LuaMetamethodKind.Index
    if h.IsNil then none else some h

/-- The value reached after `n` links of the `Index` chain from `v`, `none` once the chain
has ended. -/
def chainAt (rt : Runtime) (index : HeapString) : Nat → TValue → Option TValue
  | 0, v => some v
  | n + 1, v =>
    match chainNext rt index v with
    | some w => chainAt rt index n w
    | none => none

/-- The `Index` chain starting at the global table is finite: it ends after some number of
links. A heap in which an `Index` metamethod leads back to a value already visited has an
endless chain. -/
def ChainFinite (rt : Runtime) (index : HeapString) : Prop :=
  ∃ n, chainAt rt index n (TValue.Table rt.GetFEnvGlobalObject) = none

/-- The ways the bytecode ends: it returns a value (possibly nil), calls a function
metamethod, or raises the error. -/
def Outcome.endsBytecode (out : Outcome) : Prop :=
  (∃ v, out = Outcome.Return v) ∨
    (∃ f args c, out = Outcome.MakeCall f args c) ∨
    out = Outcome.ThrowError "bad type for GlobalGet"

/-! ## The Lua 5.1 reference definition of indexing -/

/-- The first argument of the reference definition: `rawget(o, k)`. -/
def rawget (rt : Runtime) (o : TableRef) (k : HeapString) : TValue :=
  (rawLookup rt o k).1

/-- The reference's `metatable(o).__index`, nil when `o` has no metatable. -/
def metatableIndex (rt : Runtime) : TValue → TValue
  | .Table t => tableIndexMetamethod rt t
  | v => rt.GetMetamethodForValue v LuaMetamethodKind.Index

/-- What the reference definition observes of an indexing: a returned value, the call of a
function metamethod with its arguments (whose first result is the value), or an error.
The text of the error is not part of the observation. -/
inductive LuaResult where
  | value (v : TValue)
  | call (f : FunctionRef) (args : List TValue)
  | error
  deriving DecidableEq, Repr

/-- The observation made of an outcome of the bytecode. A call is observed with its callee
and arguments; its continuation `GlobalGetMetamethodCallContinuation` returns the first
result of the call. -/
def Outcome.toLuaResult : Outcome → Option LuaResult
  | .Return v => some (LuaResult.value v)
  | .MakeCall f args _ => some (LuaResult.call f args)
  | .ThrowError _ => some LuaResult.error
  | .AssertionFailure => none

/-- The last sentence of the reference definition, for a metamethod `h` that is not nil:
"if `h` is a function return the first result of `h(o, k)`, otherwise return
`index(h, k)`"; `indexRec` is the recursive call. -/
def luaIndexVia (indexRec : TValue → Option LuaResult) (k : HeapString) (o h : TValue) :
    Option LuaResult :=
  match h with
  | .Function f => some (LuaResult.call f [o, TValue.String k])
  | h => indexRec h

/-- The reference definition `index(o, k)` of Lua 5.1, following the words of the
specification, with a recursion budget:
if `o` is a table, let `v = rawget(o, k)`; if `v` is not nil return `v`; let
`h = metatable(o).__index`; if `h` is nil return nil. If `o` is not a table, let
`h = metatable(o).__index`; if `h` is nil raise an error. Then, if `h` is a function return
the first result of `h(o, k)`, otherwise return `index(h, k)`. -/
def luaIndex (rt : Runtime) (k : HeapString) : Nat → TValue → Option LuaResult
  | 0, _ => none
  | fuel + 1, o =>
    let h := metatableIndex rt o
    match o with
    | .Table t =>
      let v := rawget rt t k
      if ¬ v.IsNil then some (LuaResult.value v)
      else if h.IsNil then some (LuaResult.value TValue.Nil)
      else luaIndexVia (luaIndex rt k fuel) k o h
    | _ =>
      if h.IsNil then some LuaResult.error
      else luaIndexVia (luaIndex rt k fuel) k o h

/-! ## Example heaps -/

/-- A table of an example heap: the identity of its structure, the bit of the structure,
the inline capacity, the named properties in slot order, and the address of its metatable
(`0` for none). -/
structure ExampleTable where
  m_hiddenClass : Nat
  mayHaveMetatable : Bool
  inlineCapacity : Nat
  properties : List (HeapString × TValue)
  metatable : Nat

/-- An example heap: the address of the global table, the tables by address, and the
address of the metatable shared by all strings (`0` for none). -/
structure ExampleHeap where
  globalObject : TableRef
  tables : List (TableRef × ExampleTable)
  stringMetatable : Nat

/-- The table at an address. -/
def ExampleHeap.tableAt (h : ExampleHeap) (t : TableRef) : Option ExampleTable :=
  match h.tables.find? (fun p => p.1 == t) with
  | some p => some p.2
  | none => none

/-- The slot ordinal of a key among the named properties. -/
def slotOrdinal (k : HeapString) : List (HeapString × TValue) → Option Nat
  | [] => none
  | p :: ps => if p.1 = k then some 0 else (slotOrdinal k ps).map (· + 1)

/-- Modelled from the spec: `TableObject::PrepareGetById` on an example heap (its body is not
under `src/`). Section 4.2 step 1: the key resolves through the structure to an inline slot
(ordinal below the inline capacity), an outlined slot, or "absent"; the bit is that of the
structure. -/
def ExampleHeap.PrepareGetById (h : ExampleHeap) (t : TableRef) (k : HeapString) :
    GetByIdICInfo :=
  match h.tableAt t with
  | none => { m_icKind := .MustBeNilButUncacheable, m_slot := 0, m_mayHaveMetatable := false }
  | some tb =>
    match slotOrdinal k tb.properties with
    | none =>
      { m_icKind := .MustBeNilButUncacheable, m_slot := 0,
        m_mayHaveMetatable := tb.mayHaveMetatable }
    | some i =>
      if i < tb.inlineCapacity then
        { m_icKind := .InlinedStorage, m_slot := i, m_mayHaveMetatable := tb.mayHaveMetatable }
      else
        { m_icKind := .OutlinedStorage, m_slot := i - tb.inlineCapacity,
          m_mayHaveMetatable := tb.mayHaveMetatable }

/-- The value stored at a slot ordinal of an example table. -/
def ExampleTable.valueAt (tb : ExampleTable) (i : Nat) : TValue :=
  match tb.properties.get? i with
  | some p => p.2
  | none => TValue.Nil

/-- Modelled from the spec: the metamethod lookups on an example heap (their bodies are not
under `src/`). Section 4.4: the metamethod is the field of the metatable named after the
kind; only `__index` is given a name here, every other kind reads as nil. -/
def ExampleHeap.GetMetamethodFromMetatable (h : ExampleHeap) (mt : TableRef)
    (kind : LuaMetamethodKind) : TValue :=
  match kind, h.tableAt mt with
  | .Index, some tb =>
    match slotOrdinal "__index" tb.properties with
    | some i => tb.valueAt i
    | none => TValue.Nil
  | _, _ => TValue.Nil

/-- The metatable of a value of an example heap: that of the table, the shared one of
strings, none for other values. -/
def ExampleHeap.metatableOf (h : ExampleHeap) : TValue → Nat
  | .Table t =>
    match h.tableAt t with
    | some tb => tb.metatable
    | none => 0
  | .String _ => h.stringMetatable
  | _ => 0

/-- The runtime helpers of an example heap. -/
def ExampleHeap.toRuntime (h : ExampleHeap) : Runtime where
  GetFEnvGlobalObject := h.globalObject
  m_hiddenClass := fun t =>
    match h.tableAt t with
    | some tb => tb.m_hiddenClass
    | none => 0
  PrepareGetById := h.PrepareGetById
  m_inlineStorage := fun t slot =>
    match h.tableAt t with
    | some tb => tb.valueAt slot.toNat
    | none => TValue.Nil
  GetNamedProperty := fun t slot =>
    match h.tableAt t with
    | some tb => tb.valueAt (tb.inlineCapacity + slot.toNat)
    | none => TValue.Nil
  GetMetatable := fun t => h.metatableOf (TValue.Table t)
  GetMetamethodFromMetatable := h.GetMetamethodFromMetatable
  GetMetamethodForValue := fun v kind =>
    if h.metatableOf v ≠ 0 then h.GetMetamethodFromMetatable (h.metatableOf v) kind
    else TValue.Nil

/-- A site that has recorded nothing yet, with room for four entries. -/
def emptyIC : ICHandler := { entries := [], capacity := 4 }

/-- The heap of `luatests/globalget_metatable.lua` as the specification describes it: the
global table (address 1) has no `x`; its metatable (address 2) has `__index` set to the
table at address 3, which is `{x = 42}`. -/
def heapIndexTable : ExampleHeap where
  globalObject := 1
  tables :=
    [(1, { m_hiddenClass := 101, mayHaveMetatable := true, inlineCapacity := 4,
           properties := [("print", TValue.Function 7)], metatable := 2 }),
     (2, { m_hiddenClass := 102, mayHaveMetatable := false, inlineCapacity := 4,
           properties := [("__index", TValue.Table 3)], metatable := 0 }),
     (3, { m_hiddenClass := 103, mayHaveMetatable := false, inlineCapacity := 4,
           properties := [("x", TValue.Double 42)], metatable := 0 })]
  stringMetatable := 0

/-- As `heapIndexTable`, with `__index` a function (address 9). -/
def heapIndexFunction : ExampleHeap where
  globalObject := 1
  tables :=
    [(1, { m_hiddenClass := 101, mayHaveMetatable := true, inlineCapacity := 4,
           properties := [("print", TValue.Function 7)], metatable := 2 }),
     (2, { m_hiddenClass := 102, mayHaveMetatable := false, inlineCapacity := 4,
           properties := [("__index", TValue.Function 9)], metatable := 0 })]
  stringMetatable := 0

/-- As `heapIndexTable`, with `__index` the number 5, a value without metatable. -/
def heapIndexNumber : ExampleHeap where
  globalObject := 1
  tables :=
    [(1, { m_hiddenClass := 101, mayHaveMetatable := true, inlineCapacity := 4,
           properties := [("print", TValue.Function 7)], metatable := 2 }),
     (2, { m_hiddenClass := 102, mayHaveMetatable := false, inlineCapacity := 4,
           properties := [("__index", TValue.Double 5)], metatable := 0 })]
  stringMetatable := 0

/-- The heap after `setmetatable(_G, {__index = _G})`: the `__index` of the global table's
metatable is the global table itself. -/
def heapIndexCycle : ExampleHeap where
  globalObject := 1
  tables :=
    [(1, { m_hiddenClass := 101, mayHaveMetatable := true, inlineCapacity := 4,
           properties := [("print", TValue.Function 7)], metatable := 2 }),
     (2, { m_hiddenClass := 102, mayHaveMetatable := false, inlineCapacity := 4,
           properties := [("__index", TValue.Table 1)], metatable := 0 })]
  stringMetatable := 0

/-- A heap whose global table holds `x = 42` in an inline slot and has no metatable. -/
def heapGlobalPresent : ExampleHeap where
  globalObject := 1
  tables :=
    [(1, { m_hiddenClass := 101, mayHaveMetatable := false, inlineCapacity := 4,
           properties := [("print", TValue.Function 7), ("x", TValue.Double 42)],
           metatable := 0 })]
  stringMetatable := 0

/-- A heap whose global table has a metatable without `__index`: the bit of the global
table is set, its metatable (address 2) only defines `__newindex`. -/
def heapNoIndex : ExampleHeap where
  globalObject := 1
  tables :=
    [(1, { m_hiddenClass := 101, mayHaveMetatable := true, inlineCapacity := 4,
           properties := [("print", TValue.Function 7)], metatable := 2 }),
     (2, { m_hiddenClass := 102, mayHaveMetatable := false, inlineCapacity := 4,
           properties := [("__newindex", TValue.Function 8)], metatable := 0 })]
  stringMetatable := 0

/-- A heap with a chain of two links: the `__index` of the global table's metatable is the
table at address 3, which has no `x` and whose own metatable (address 4) has `__index` set
to the function at address 9. -/
def heapIndexTableFunction : ExampleHeap where
  globalObject := 1
  tables :=
    [(1, { m_hiddenClass := 101, mayHaveMetatable := true, inlineCapacity := 4,
           properties := [("print", TValue.Function 7)], metatable := 2 }),
     (2, { m_hiddenClass := 102, mayHaveMetatable := false, inlineCapacity := 4,
           properties := [("__index", TValue.Table 3)], metatable := 0 }),
     (3, { m_hiddenClass := 103, mayHaveMetatable := true, inlineCapacity := 4,
           properties := [("y", TValue.Double 1)], metatable := 4 }),
     (4, { m_hiddenClass := 104, mayHaveMetatable := false, inlineCapacity := 4,
           properties := [("__index", TValue.Function 9)], metatable := 0 })]
  stringMetatable := 0

/-! ## Recorded effects and probes -/

/-- The effect the IC body installs for the outcome of a probe (lines 25-45): one of the two
effect lambdas with the slot and the bit of the probe, none for
`MustBeNilButUncacheable`. -/
def effectOfInfo (info : GetByIdICInfo) : Option ICEffect :=
  match info.m_icKind with
  | .InlinedStorage =>
    some { kind := .InlinedStorage, c_slot := info.m_slot,
           c_mayHaveMt := info.m_mayHaveMetatable }
  | .OutlinedStorage =>
    some { kind := .OutlinedStorage, c_slot := info.m_slot,
           c_mayHaveMt := info.m_mayHaveMetatable }
  | .MustBeNilButUncacheable => none

/-- The outcome of `PrepareGetById` for the key `index` depends only on the structure of
the table: on every table it is `probe` of the identity of the structure. -/
def ObeysProbe (rt : Runtime) (index : HeapString) (probe : Nat → GetByIdICInfo) : Prop :=
  ∀ base : TableRef, rt.PrepareGetById base index = probe (rt.m_hiddenClass base)

/-- Every entry of the site was recorded by the IC body: its effect is the one the body
installs for the probe of the structure that is its key. -/
def ICRecordedFrom (probe : Nat → GetByIdICInfo) (ic : ICHandler) : Prop :=
  ∀ e ∈ ic.entries, effectOfInfo (probe e.key) = some e.effect

/-- The site after `n` executions of `GlobalGet(k)`, each with `fuel` passes, on an
unchanged heap. -/
def siteAfter (rt : Runtime) (k : HeapString) (fuel : Nat) : Nat → ICHandler → ICHandler
  | 0, ic => ic
  | n + 1, ic => siteAfter rt k fuel n (GlobalGet rt ic k fuel).ic

/-- The probes of `heapGlobalPresent` for the key `x`, by structure: the structure of the
global table (identity 101) holds `x` in inline slot 1; no other structure has the key. -/
def heapGlobalPresentProbe (hiddenClass : Nat) : GetByIdICInfo :=
  if hiddenClass = 101 then
    { m_icKind := .InlinedStorage, m_slot := 1, m_mayHaveMetatable := false }
  else
    { m_icKind := .MustBeNilButUncacheable, m_slot := 0, m_mayHaveMetatable := false }

/-- The entry the first execution of `GlobalGet("x")` records on `heapGlobalPresent`. -/
def heapGlobalPresentEntry : ICEntry :=
  { key := 101, effect := { kind := .InlinedStorage, c_slot := 1, c_mayHaveMt := false } }

/-! ## `ParseLuaScriptOrFail` (test driver) -/

/-- The enumeration `LuaTestOption` (lines 34-43). -/
inductive LuaTestOption where
  | ForceInterpreter
  | ForceBaselineJit
  deriving DecidableEq, Repr

/-- The class `BaselineCodeBlock`, of which the driver reads the entry address of the native code. -/
structure BaselineCodeBlock where
  m_jitCodeEntry : Nat
  deriving DecidableEq, Repr

/-- The class `ExecutableCode`, together with the field of its subclass `CodeBlock` that the driver
reads: `isBytecodeFunction` is `IsBytecodeFunction()`, and `m_baselineCodeBlock` is `none`
for the null pointer. -/
structure ExecutableCode where
  isBytecodeFunction : Bool
  m_bestEntryPoint : Nat
  m_baselineCodeBlock : Option BaselineCodeBlock
  deriving DecidableEq, Repr

/-- Pointer `CodeBlock*`, the address of an `ExecutableCode` that is a bytecode function. -/
abbrev CodeBlockRef := Nat

/-- Pointer `UnlinkedCodeBlock*`. -/
abbrev UnlinkedCodeBlockRef := Nat

/-- The class `ScriptModule`, with the fields the driver reads. -/
structure ScriptModule where
  m_unlinkedCodeBlocks : List UnlinkedCodeBlockRef
  m_defaultGlobalObject : TableRef
  m_defaultEntryPoint : FunctionRef
  deriving DecidableEq, Repr

/-- The `ParseResult` of the parser. -/
structure ParseResult where
  m_scriptModule : Option ScriptModule
  errMsg : TValue
  deriving DecidableEq, Repr

/-- The part of the VM heap the driver touches: the executables by address and the
`m_executable` field of the function objects. -/
structure VMHeap where
  executables : CodeBlockRef → ExecutableCode
  m_executable : FunctionRef → CodeBlockRef

/-- The collaborators of the driver whose bodies are outside `src/`, taken as parameters:
`LoadFile` (`none` when the stream is not good), `ParseLuaScript` (the parser, which may
allocate), `UnlinkedCodeBlock::GetCodeBlock`, and the address at which the baseline code
generator places the code of a code block. -/
structure DriverEnv where
  LoadFile : String → Option String
  ParseLuaScript : VMHeap → String → ParseResult × VMHeap
  GetCodeBlock : UnlinkedCodeBlockRef → TableRef → CodeBlockRef
  jitCodeEntry : VMHeap → CodeBlockRef → Nat

/-- How the driver can stop before returning: a failed `ReleaseAssert` or `abort()`. -/
inductive DriverFailure where
  | ReleaseAssert
  | Abort
  deriving DecidableEq, Repr

/-- Writing the executable at one address. -/
def VMHeap.setExecutable (heap : VMHeap) (cb : CodeBlockRef) (ec : ExecutableCode) : VMHeap :=
  { heap with executables := fun a => if a = cb then ec else heap.executables a }

/-- Modelled from the spec: `deegen_baseline_jit_do_codegen(cb)` of
`drt/baseline_jit_codegen_helper.h` (not under `src/`). Section 3: "a `BaselineCodeBlock`,
created on tier-up, owns a slab of native code": the call creates the baseline code block of
`cb`, links it from `cb->m_baselineCodeBlock` (the field the sanity check of lines 72-79
reads) and returns it. -/
def deegen_baseline_jit_do_codegen (env : DriverEnv) (heap : VMHeap) (cb : CodeBlockRef) :
    VMHeap × BaselineCodeBlock :=
  let bcb : BaselineCodeBlock := { m_jitCodeEntry := env.jitCodeEntry heap cb }
  (heap.setExecutable cb { heap.executables cb with m_baselineCodeBlock := some bcb }, bcb)

/-- The body of the loop of lines 64-69 for one unlinked code block. -/
def compileToBaseline (env : DriverEnv) (module : ScriptModule) (heap : VMHeap)
    (ucb : UnlinkedCodeBlockRef) : VMHeap :=
  let cb := env.GetCodeBlock ucb module.m_defaultGlobalObject
  let r := deegen_baseline_jit_do_codegen env heap cb
  r.1.setExecutable cb { r.1.executables cb with m_bestEntryPoint := r.2.m_jitCodeEntry }

/-- The test `filename.ends_with(".lua")`. -/
def endsWithLua (filename : String) : Bool :=
  decide (".lua".data <:+ filename.data)

/-- The function `ParseLuaScriptOrFail` (lines 45-82): the module and the heap on return, or the way the
driver stopped. -/
def ParseLuaScriptOrFail (env : DriverEnv) (heap : VMHeap) (filename : String)
    (testOption : LuaTestOption) : Except DriverFailure (ScriptModule × VMHeap) :=
  if ¬ endsWithLua filename then Except.error DriverFailure.ReleaseAssert
  else
    match env.LoadFile filename with
    | none => Except.error DriverFailure.ReleaseAssert
    | some content =>
      match env.ParseLuaScript heap content with
      | (res, heap) =>
        match res.m_scriptModule with
        | none => Except.error DriverFailure.Abort
        | some module =>
          if testOption = LuaTestOption.ForceBaselineJit then
            let heap := module.m_unlinkedCodeBlocks.foldl (compileToBaseline env module) heap
            let ec := heap.executables (heap.m_executable module.m_defaultEntryPoint)
            if ¬ ec.isBytecodeFunction then Except.error DriverFailure.ReleaseAssert
            else
              match ec.m_baselineCodeBlock with
              | none => Except.error DriverFailure.ReleaseAssert
              | some bcb =>
                if ec.m_bestEntryPoint = bcb.m_jitCodeEntry then Except.ok (module, heap)
                else Except.error DriverFailure.ReleaseAssert
          else Except.ok (module, heap)

/-- The code blocks of a module: those its unlinked code blocks yield against its default
global object. -/
def ScriptModule.codeBlocks (env : DriverEnv) (module : ScriptModule) : List CodeBlockRef :=
  module.m_unlinkedCodeBlocks.map (fun ucb => env.GetCodeBlock ucb module.m_defaultGlobalObject)

/-- The best entry point of a code block is the entry of its baseline code block. -/
def entersBaselineCode (heap : VMHeap) (cb : CodeBlockRef) : Prop :=
  ∃ bcb, (heap.executables cb).m_baselineCodeBlock = some bcb ∧
    (heap.executables cb).m_bestEntryPoint = bcb.m_jitCodeEntry

/-- An example driver environment: one file, `luatests/fib.lua`, whose module has the two
unlinked code blocks 0 and 1, linked to the code blocks at addresses 10 and 11; the entry
function (address 5) runs code block 10; native code for code block `cb` is placed at
`1000 + cb`. -/
def exampleEnv : DriverEnv where
  LoadFile := fun f => if f = "luatests/fib.lua" then some "print(1)" else none
  ParseLuaScript := fun heap _ =>
    ({ m_scriptModule := some { m_unlinkedCodeBlocks := [0, 1], m_defaultGlobalObject := 1,
                                m_defaultEntryPoint := 5 },
       errMsg := TValue.Nil }, heap)
  GetCodeBlock := fun ucb _ => 10 + ucb
  jitCodeEntry := fun _ cb => 1000 + cb

/-- An example heap of executables: every executable is a bytecode function entered through
the interpreter (entry address 1) and not yet compiled; every function runs code block 10. -/
def exampleVMHeap : VMHeap where
  executables := fun _ =>
    { isBytecodeFunction := true, m_bestEntryPoint := 1, m_baselineCodeBlock := none }
  m_executable := fun _ => 10

end LuaJitRemake

namespace LuaJitRemake

/-! ## Options of Deegen (`deegen_options.h`) -/

/-- The option `x_allow_interpreter_tier_up_to_baseline_jit` (line 17). -/
def x_allow_interpreter_tier_up_to_baseline_jit : Bool := true

/-- The option `x_interpreter_tier_up_threshold_bytecode_length_multiplier` (line 36). -/
def x_interpreter_tier_up_threshold_bytecode_length_multiplier : Nat := 20

/-- The rent-to-buy ratio of the comment of lines 29-30: "the cost of JIT'ing 1 bytecode is
approximately 20x the cost of interpreting 1 bytecode". -/
def x_rentToBuyRatio : Nat := 20

/-- The constant `C` of the comment of lines 32-35: "for now we simply choose C = 1". -/
def x_tierUpConstantC : Nat := 1

/-- Modelled from the spec: the tier-up test of the interpreter, whose code is not under
`src/`. Section 4.5: "when the counter exceeds `bytecodeLen × multiplier` ... the interpreter
invokes the baseline generator"; the comment of line 22 of `deegen_options.h` says the same:
"after more than `multipler * bytecodeLen` bytes of bytecodes have been executed, the
function will tier up". -/
def tiersUp (bytecodeLen executedBytes : Nat) : Bool :=
  decide (x_interpreter_tier_up_threshold_bytecode_length_multiplier * bytecodeLen <
    executedBytes)

/-! ## Stencils (`deegen_stencil_creator.h`) -/

/-- The value `static_cast<size_t>(-1)`, the largest `size_t`. -/
def x_sizeMax : Nat := 2 ^ 64 - 1

/-- The enumeration `Element::Kind` (lines 16-25). -/
inductive ElementKind where
  | ByteConstant
  | PointerWithAddend
  deriving DecidableEq, Repr

/-- The record `StencilSharedConstantDataObject::Element` (lines 14-38); the pointer and
the section reference are addresses. -/
structure Element where
  m_kind : ElementKind
  m_byteValue : Nat
  m_ptrValue : Nat
  m_sectionRef : Nat
  m_addend : Int
  deriving DecidableEq, Repr

/-- The record `StencilSharedConstantDataObject` (lines 12-92); `m_uniqueLabel` and
`m_alignment` are of type `size_t`. -/
structure StencilSharedConstantDataObject where
  m_uniqueLabel : Nat
  m_alignment : Nat
  m_shouldForwardDeclare : Bool
  m_valueDefs : List Element
  deriving DecidableEq, Repr

/-- The constructor of lines 40-44: label and alignment unset (`static_cast<size_t>(-1)`),
no forward declaration, no element. -/
def StencilSharedConstantDataObject.new : StencilSharedConstantDataObject :=
  { m_uniqueLabel := x_sizeMax, m_alignment := x_sizeMax, m_shouldForwardDeclare := false,
    m_valueDefs := [] }

/-- The body of the loop of lines 52-59 for one element: `res += 1` or `res += 8`, in
`size_t` arithmetic. -/
def addElementSize (res : Nat) (e : Element) : Nat :=
  match e.m_kind with
  | .ByteConstant => (res + 1) % 2 ^ 64
  | .PointerWithAddend => (res + 8) % 2 ^ 64

/-- The method `ComputeTrueSizeWithoutPadding` (lines 49-61). -/
def StencilSharedConstantDataObject.ComputeTrueSizeWithoutPadding
    (obj : StencilSharedConstantDataObject) : Nat :=
  obj.m_valueDefs.foldl addElementSize 0

/-- The number of elements of a kind in an element list. -/
def countKind (kind : ElementKind) (es : List Element) : Nat :=
  es.countP (fun e => e.m_kind = kind)

/-- A byte element. -/
def byteElement (b : Nat) : Element :=
  { m_kind := .ByteConstant, m_byteValue := b, m_ptrValue := 0, m_sectionRef := 0,
    m_addend := 0 }

/-- A pointer element referring to the object at `ptr`. -/
def pointerElement (ptr : Nat) (addend : Int) : Element :=
  { m_kind := .PointerWithAddend, m_byteValue := 0, m_ptrValue := ptr, m_sectionRef := 0,
    m_addend := addend }

/-- The name constants of `DeegenStencilCodegenResult` (lines 205-208). -/
def x_fastPathCodegenFuncName : String := "deegen_do_codegen_fastpath"

/-- See `x_fastPathCodegenFuncName`. -/
def x_slowPathCodegenFuncName : String := "deegen_do_codegen_slowpath"

/-- See `x_fastPathCodegenFuncName`. -/
def x_icPathCodegenFuncName : String := "deegen_do_codegen_icpath"

/-- See `x_fastPathCodegenFuncName`. -/
def x_dataSecCodegenFuncName : String := "deegen_do_codegen_datasec"

/-- The names of the codegen helpers of a variant, in the order of the declarations. -/
def codegenFuncNames : List String :=
  [x_fastPathCodegenFuncName, x_slowPathCodegenFuncName, x_icPathCodegenFuncName,
    x_dataSecCodegenFuncName]

/-! ## Alignment and padding of a shared constant data object -/

/-- How a method of the stencil classes can stop before returning: a failed `ReleaseAssert`,
a division by zero, or the dereference of an end iterator. -/
inductive StencilFailure where
  | ReleaseAssert
  | DivisionByZero
  | InvalidIterator
  deriving DecidableEq, Repr

/-- Addition of two `size_t`. -/
def sizeAdd (x y : Nat) : Nat := (x + y) % 2 ^ 64

/-- Subtraction of two `size_t`, which wraps around below zero. -/
def sizeSub (x y : Nat) : Nat := (x + (2 ^ 64 - y % 2 ^ 64)) % 2 ^ 64

/-- Multiplication of two `size_t`. -/
def sizeMul (x y : Nat) : Nat := (x * y) % 2 ^ 64

/-- Division of two `size_t`; a zero divisor is undefined behaviour. -/
def sizeDiv (x y : Nat) : Except StencilFailure Nat :=
  if y = 0 then Except.error StencilFailure.DivisionByZero else Except.ok (x / y)

/-- The method `GetAlignment` (line 46):
`ReleaseAssert(m_alignment != static_cast<size_t>(-1) && m_alignment > 0)`, then
`return m_alignment`. -/
def StencilSharedConstantDataObject.GetAlignment (obj : StencilSharedConstantDataObject) :
    Except StencilFailure Nat :=
  if obj.m_alignment ≠ x_sizeMax ∧ obj.m_alignment > 0 then Except.ok obj.m_alignment
  else Except.error StencilFailure.ReleaseAssert

/-- The method `GetUniqueLabel` (line 47):
`ReleaseAssert(m_uniqueLabel != static_cast<size_t>(-1))`, then `return m_uniqueLabel`. -/
def StencilSharedConstantDataObject.GetUniqueLabel (obj : StencilSharedConstantDataObject) :
    Except StencilFailure Nat :=
  if obj.m_uniqueLabel ≠ x_sizeMax then Except.ok obj.m_uniqueLabel
  else Except.error StencilFailure.ReleaseAssert

/-- The method `ComputeSizeWithPadding` (lines 63-68):
`res = (res + GetAlignment() - 1) / GetAlignment() * GetAlignment()` in `size_t`
arithmetic, each of the three calls of `GetAlignment` making its assertion. -/
def StencilSharedConstantDataObject.ComputeSizeWithPadding
    (obj : StencilSharedConstantDataObject) : Except StencilFailure Nat :=
  let res := obj.ComputeTrueSizeWithoutPadding
  match obj.GetAlignment with
  | Except.error err => Except.error err
  | Except.ok a1 =>
    match obj.GetAlignment with
    | Except.error err => Except.error err
    | Except.ok a2 =>
      match obj.GetAlignment with
      | Except.error err => Except.error err
      | Except.ok a3 =>
        match sizeDiv (sizeSub (sizeAdd res a1) 1) a2 with
        | Except.error err => Except.error err
        | Except.ok q => Except.ok (sizeMul q a3)

/-- The method `ComputeNumPaddingBytes` (line 70):
`ComputeSizeWithPadding() - ComputeTrueSizeWithoutPadding()` in `size_t` arithmetic. -/
def StencilSharedConstantDataObject.ComputeNumPaddingBytes
    (obj : StencilSharedConstantDataObject) : Except StencilFailure Nat :=
  match obj.ComputeSizeWithPadding with
  | Except.error err => Except.error err
  | Except.ok r => Except.ok (sizeSub r obj.ComputeTrueSizeWithoutPadding)

/-- The subtraction of `ComputeNumPaddingBytes` wraps around: the padded size is below the
true size. -/
def StencilSharedConstantDataObject.paddingWraps (obj : StencilSharedConstantDataObject) :
    Prop :=
  ∃ r, obj.ComputeSizeWithPadding = Except.ok r ∧ r < obj.ComputeTrueSizeWithoutPadding

/-- An object of `n` byte elements with the given alignment and label 0. -/
def bytesObject (n : Nat) (alignment : Nat) : StencilSharedConstantDataObject :=
  { m_uniqueLabel := 0, m_alignment := alignment, m_shouldForwardDeclare := false,
    m_valueDefs := List.replicate n (byteElement 0) }

/-! ## Label distances of a stencil -/

/-- The class `DeegenStencil` (lines 225-291) with the fields the accessor of lines 280-284
can see that are plain data: the code bytes and the map `m_labelDistanceComputations`, an
`unordered_map` from names to `uint64_t`, kept as the list of its entries. -/
structure DeegenStencil where
  m_fastPathCode : List Nat
  m_slowPathCode : List Nat
  m_icPathCode : List Nat
  m_labelDistanceComputations : List (String × Nat)
  m_isForIcLogicExtraction : Bool
  deriving DecidableEq, Repr

/-- The member `count` of the map: 1 when the name is a key, 0 otherwise. -/
def labelCount (m : List (String × Nat)) (varName : String) : Nat :=
  if (m.lookup varName).isSome then 1 else 0

/-- The method `RetrieveLabelDistanceComputationResult` (lines 280-284):
`ReleaseAssert(m_labelDistanceComputations.count(varName))`, then
`return m_labelDistanceComputations.find(varName)->second`. The stencil after the call is
returned with the result. -/
def DeegenStencil.RetrieveLabelDistanceComputationResult (self : DeegenStencil)
    (varName : String) : Except StencilFailure Nat × DeegenStencil :=
  if labelCount self.m_labelDistanceComputations varName ≠ 0 then
    match self.m_labelDistanceComputations.lookup varName with
    | some second => (Except.ok second, self)
    | none => (Except.error StencilFailure.InvalidIterator, self)
  else (Except.error StencilFailure.ReleaseAssert, self)

/-- An example of a stencil with two label distances. -/
def exampleStencil : DeegenStencil :=
  { m_fastPathCode := [72, 137], m_slowPathCode := [], m_icPathCode := [],
    m_labelDistanceComputations := [("fast_path_len", 2), ("slow_path_len", 0)],
    m_isForIcLogicExtraction := false }

/-! ## Structures and table literals -/

/-- Modelled from the spec: the structure (hidden class) of a table, declared outside
`src/`. Section 3: a structure has an "ordered list of property keys" and a "capacity for
inline-stored slots". -/
structure Structure where
  keys : List HeapString
  m_inlineNamedStorageCapacity : Nat
  deriving DecidableEq, Repr

/-- Modelled from the spec: the initial structure of an inline-capacity class, declared
outside `src/`. Section 4.1: "the initial (empty) structure per inline-capacity class is a
process-wide singleton". -/
def Structure.initial (inlineCapacity : Nat) : Structure :=
  { keys := [], m_inlineNamedStorageCapacity := inlineCapacity }

/-- Modelled from the spec: the transition of a structure on adding a property, declared
outside `src/`. Section 4.1: "if `k` already in this structure ... no transition"; otherwise
the child is made by "copy key list + append `k`, inherit inline capacity". -/
def Structure.addProperty (s : Structure) (k : HeapString) : Structure :=
  if k ∈ s.keys then s
  else { keys := s.keys ++ [k], m_inlineNamedStorageCapacity := s.m_inlineNamedStorageCapacity }

/-- Modelled from the spec: the structure of the table created from a table literal with
the named fields `fields`; the bytecodes and the parser doing it are not under `src/`, and
the array `x_optimalInlineCapacityArray` is a parameter. Section 3: "tables are created
empty from a seed structure (possibly hinted by a size hint at the allocation site),
mutated by property ... assignment (which may transition the structure)"; section 4.1: "a
per-allocation-site optimal-inline-capacity array is used". The seed is the initial
structure whose capacity is the entry of the array for the number of named fields; there is
none when that number is outside the array. -/
def tableLiteralStructure (x_optimalInlineCapacityArray : List Nat)
    (fields : List (HeapString × TValue)) : Option Structure :=
  match x_optimalInlineCapacityArray.get? fields.length with
  | none => none
  | some capacity =>
    some (fields.foldl (fun s f => s.addProperty f.1) (Structure.initial capacity))

/-- An example of the array, the smallest power of two not below `k` for `k` up to 8, as
section 4.1 describes the capacity classes. -/
def exampleOptimalInlineCapacityArray : List Nat := [0, 1, 2, 4, 4, 8, 8, 8, 8]

/-! ## Call frames -/

/-- Modelled from the spec: the prototype of a function, declared outside `src/`.
Section 6: each function has "the number of fixed parameters, a variadic flag, and a maximum
stack-frame size". -/
structure FunctionProto where
  numFixedParams : Nat
  isVariadic : Bool
  maxStackFrameSize : Nat
  deriving DecidableEq, Repr

/-- Modelled from the spec: a call frame, declared outside `src/`. Section 4.5: "each call
frame is a contiguous window on the coroutine's value stack": the first slot of the window
and the number of its slots. -/
structure CallFrame where
  frameStart : Nat
  numSlots : Nat
  deriving DecidableEq, Repr

/-- Modelled from the spec: the slots an activation of `f` called with `numArgs` arguments
occupies: its declared maximum stack-frame size (section 6) and, for a variadic function,
the arguments beyond the fixed parameters, which it must keep. -/
def FunctionProto.slotsNeeded (f : FunctionProto) (numArgs : Nat) : Nat :=
  (if f.isVariadic then numArgs - f.numFixedParams else 0) + f.maxStackFrameSize

/-- Modelled from the spec: the value stack of a coroutine, declared outside `src/`.
Section 5: "each coroutine's value stack is a contiguous buffer"; the frames of the
activations, innermost first. -/
structure CoroutineStack where
  stackSize : Nat
  frames : List CallFrame
  deriving DecidableEq, Repr

/-- The control transfers of the calling convention of section 4.5: a call (the callee is
placed at slot `calleeSlot` of the caller's frame), a tail call, a return. -/
inductive CallOp where
  | Call (callee : FunctionProto) (numArgs : Nat) (calleeSlot : Nat)
  | TailCall (callee : FunctionProto) (numArgs : Nat)
  | Return
  deriving DecidableEq, Repr

/-- The errors of a control transfer: `StackOverflow` (section 7), or no frame to act on. -/
inductive CallError where
  | StackOverflow
  | NoFrame
  deriving DecidableEq, Repr

/-- Modelled from the spec: the entry of a function, whose code is not under `src/`.
Section 5: "the interpreter checks stack room at function entry based on the callee's
declared `maxStackFrameSize`"; "overflow raises a typed error". -/
def enterFunction (stackSize : Nat) (frameStart : Nat) (callee : FunctionProto)
    (numArgs : Nat) : Except CallError CallFrame :=
  if frameStart + callee.slotsNeeded numArgs ≤ stackSize then
    Except.ok { frameStart := frameStart, numSlots := callee.slotsNeeded numArgs }
  else Except.error CallError.StackOverflow

/-- Modelled from the spec: one control transfer, whose code is not under `src/`.
Section 4.5: "a call instruction places the callee and arguments in contiguous slots ... and
transfers control": the new frame starts at the callee's slot, above which the caller's
frame stays in use. "Tail calls reuse the current frame": the new frame starts where the
current one does and replaces it. A return drops the current frame. -/
def CoroutineStack.transfer (s : CoroutineStack) : CallOp → Except CallError CoroutineStack
  | .Call callee numArgs calleeSlot =>
    match s.frames with
    | [] => Except.error CallError.NoFrame
    | cur :: rest =>
      match enterFunction s.stackSize (cur.frameStart + calleeSlot) callee numArgs with
      | Except.ok frame => Except.ok { s with frames := frame :: cur :: rest }
      | Except.error err => Except.error err
  | .TailCall callee numArgs =>
    match s.frames with
    | [] => Except.error CallError.NoFrame
    | cur :: rest =>
      match enterFunction s.stackSize cur.frameStart callee numArgs with
      | Except.ok frame => Except.ok { s with frames := frame :: rest }
      | Except.error err => Except.error err
  | .Return =>
    match s.frames with
    | [] => Except.error CallError.NoFrame
    | _ :: rest => Except.ok { s with frames := rest }

/-- A sequence of control transfers, stopping at the first error. -/
def CoroutineStack.run (s : CoroutineStack) : List CallOp → Except CallError CoroutineStack
  | [] => Except.ok s
  | op :: ops =>
    match s.transfer op with
    | Except.ok s' => s'.run ops
    | Except.error err => Except.error err

/-- A chain of `n` nested ordinary calls of `callee`, placed at slot `calleeSlot`. -/
def callChain (callee : FunctionProto) (numArgs calleeSlot : Nat) (n : Nat) : List CallOp :=
  List.replicate n (CallOp.Call callee numArgs calleeSlot)

/-- The stack of the tests `TailCall` and `VariadicTailCall_1..3` (lines 253-335): 200
slots, and the frame of the entry function `entry` at the bottom. -/
def testStack (entry : FunctionProto) : CoroutineStack :=
  { stackSize := 200, frames := [{ frameStart := 0, numSlots := entry.slotsNeeded 0 }] }

/-- An example of a fixed-arity function: two parameters, frame of 10 slots. -/
def exampleFixedProto : FunctionProto :=
  { numFixedParams := 2, isVariadic := false, maxStackFrameSize := 10 }

/-- The type predicates an operand specialisation can name; `GlobalGet` uses `tString`. -/
inductive TypeMask where
  | tNil
  | tBool
  | tDouble
  | tString
  | tTable
  | tFunction
  | tThread
  deriving DecidableEq, Repr

/-- The test `tv.Is<T>()`. -/
def TValue.Is (tv : TValue) : TypeMask → Bool
  | .tNil => tv.IsNil
  | .tBool => match tv with
    | .Boolean _ => true
    | _ => false
  | .tDouble => match tv with
    | .Double _ => true
    | _ => false
  | .tString => tv.IsString
  | .tTable => match tv with
    | .Table _ => true
    | _ => false
  | .tFunction => match tv with
    | .Function _ => true
    | _ => false
  | .tThread => match tv with
    | .Thread _ => true
    | _ => false

/-- An operand declared by `Operands(...)`: `Constant("index")` is a constant operand named
`index`. -/
structure OperandDecl where
  name : String
  isConstantOperand : Bool
  deriving DecidableEq, Repr

/-- A specialisation `Op(name).IsConstant<T>()` inside `Variant(...)`. -/
structure OperandSpecialization where
  operand : String
  constantType : TypeMask
  deriving DecidableEq, Repr

/-- A bytecode definition: the `Operands`, whether `Result(BytecodeValue)` is declared, and
one list of operand specialisations for each `Variant(...)`. -/
structure BytecodeDefinition where
  operands : List OperandDecl
  hasValueResult : Bool
  variants : List (List OperandSpecialization)
  deriving DecidableEq, Repr

/-- The definition `DEEGEN_DEFINE_BYTECODE(GlobalGet)` (lines 112-122): one constant operand
`index`, a value result, and the single variant `Op("index").IsConstant<tString>()`. -/
def GlobalGetDefinition : BytecodeDefinition :=
  { operands := [{ name := "index", isConstantOperand := true }],
    hasValueResult := true,
    variants := [[{ operand := "index", constantType := TypeMask.tString }]] }

/-- Modelled from the spec: what a variant means for the value an operand has when the
implementation runs. Glossary, "Variant": a bytecode specialized on operand-kind predicates
(e.g., operand is constant string); so under a variant every specialisation of the operand
holds of its value. The value `tv` of operand `name` is admitted by a definition when one of
its variants has all its specialisations of `name` hold of `tv`. -/
def BytecodeDefinition.admits (d : BytecodeDefinition) (name : String) (tv : TValue) : Bool :=
  d.variants.any (fun v => v.all (fun s => s.operand ≠ name ∨ tv.Is s.constantType))

/-- An event is consistent with key `k` when, if it is a call that takes a key (`ICBody`,
`PrepareGetById`), the key it takes is `k`. -/
def Event.usesKey (k : HeapString) : Event → Bool
  | .ICBody _ index => index = k
  | .PrepareGetById _ index => index = k
  | _ => true

/-! ## `CheckForPairsThreeTestOutput` -/

/-- The set `expectedAnswerForTest1` of `CheckForPairsThreeTestOutput` (lines 362-368), as
the list of the strings inserted; a `std::set` is modelled by a list, `count` by membership,
`erase(find(line))` by `List.erase` and `size() == 0` by emptiness. -/
def expectedAnswerForTest1 : List String :=
  ["1\t1", "2\t3", "a\t1", "3\t5.6", "c\t1.23", "b\tx"]

/-- The set `expectedAnswerForTest2` (lines 370-379). -/
def expectedAnswerForTest2 : List String :=
  ["1\t1", "2\t3", "3\t5.6", "4\t7", "0\tz", "c\t1.23", "b\tx", "2.5\t234", "a\t1"]

/-- The set `expectedAnswerForTest3` (lines 381-407). -/
def expectedAnswerForTest3 : List String :=
  ["1\t1", "2\t3", "3\t5.6", "4\t7", "5\t105", "6\t106", "7\t107", "8\t108", "9\t109",
   "10\t110", "11\t111", "12\t112", "13\t113", "14\t114", "15\t115", "16\t116", "17\t117",
   "18\t118", "19\t119", "20\t120", "a\t1", "1000000\t8.9", "2.5\t234", "b\tx", "0\tz",
   "c\t1.23"]

/-- The loops of lines 409-419 and 421-431, on the lines still to be read and the set of
lines still expected: `none` when a release assertion fails (no line left, or a line that
is neither the terminator nor in the set), otherwise the lines after the terminator and the
set that remains at the `break`. -/
def checkSectionLoop (terminator : String) : List String → List String →
    Option (List String × List String)
  | [], _ => none
  | line :: rest, expected =>
    if line = terminator then some (rest, expected)
    else if line ∈ expected then checkSectionLoop terminator rest (expected.erase line)
    else none

/-- The loop of lines 433-437, which runs until no line is left: `none` when the release
assertion fails, otherwise the set that remains. -/
def checkLastLoop : List String → List String → Option (List String)
  | [], expected => some expected
  | line :: rest, expected =>
    if line ∈ expected then checkLastLoop rest (expected.erase line) else none

/-- The function `CheckForPairsThreeTestOutput` (lines 355-438) on the lines `std::getline`
reads from the stream: `true` when it returns, `false` when a release assertion fails. -/
def CheckForPairsThreeTestOutput (ss : List String) : Bool :=
  match ss with
  | [] => false
  | line :: rest =>
    if line ≠ "-- test 1 --" then false
    else
      match checkSectionLoop "-- test 2 --" rest expectedAnswerForTest1 with
      | none => false
      | some (rest1, remaining1) =>
        if remaining1.length ≠ 0 then false
        else
          match checkSectionLoop "-- test 3 --" rest1 expectedAnswerForTest2 with
          | none => false
          | some (rest2, remaining2) =>
            if remaining2.length ≠ 0 then false
            else
              match checkLastLoop rest2 expectedAnswerForTest3 with
              | none => false
              | some remaining3 => remaining3.length == 0

/-- An output the test accepts: each section in the order of insertion. -/
def exampleForPairsOutput : List String :=
  "-- test 1 --" :: (expectedAnswerForTest1 ++
    "-- test 2 --" :: (expectedAnswerForTest2 ++ "-- test 3 --" :: expectedAnswerForTest3))

/-! ## Lemmas on the IC site -/

theorem find_some_mem {ic : ICHandler} {key : Nat} {e : ICEffect} (h : ic.find key = some e) :
    ∃ x ∈ ic.entries, x.key = key ∧ x.effect = e := by
  unfold ICHandler.find at h
  split at h
  · rename_i x hx
    have hp := List.find?_some hx
    have hm := List.mem_of_find?_eq_some hx
    simp only [beq_iff_eq] at hp
    simp only [Option.some.injEq] at h
    exact ⟨x, hm, hp, h⟩
  · simp at h

theorem find_none_not_mem {ic : ICHandler} {key : Nat} (h : ic.find key = none) :
    ∀ x ∈ ic.entries, x.key ≠ key := by
  unfold ICHandler.find at h
  split at h
  · simp at h
  · rename_i hx
    intro x hm hk
    have := List.find?_eq_none.mp hx x hm
    simp [hk] at this

/-- On a miss the body delivers the raw lookup. -/
theorem GlobalGetIC_miss_result (rt : Runtime) (ic : ICHandler) (base : TableRef)
    (index : HeapString) (h : ic.find (rt.m_hiddenClass base) = none) :
    (GlobalGetIC rt ic base index).1 = rawLookup rt base index := by
  unfold GlobalGetIC
  simp only [h]
  cases hk : (rt.PrepareGetById base index).m_icKind <;>
    simp [rawLookup, GetById, ICEffect.run, hk]

/-- At a sound site the pair delivered by `ic->Body` is the raw lookup, hit or miss. -/
theorem GlobalGetIC_result_of_sound (rt : Runtime) (ic : ICHandler) (base : TableRef)
    (index : HeapString) (hic : ICSound rt index ic) :
    (GlobalGetIC rt ic base index).1 = rawLookup rt base index := by
  cases h : ic.find (rt.m_hiddenClass base) with
  | none => exact GlobalGetIC_miss_result rt ic base index h
  | some e =>
    obtain ⟨x, hm, hk, he⟩ := find_some_mem h
    unfold GlobalGetIC
    simp only [h]
    rw [← he]
    exact hic x hm base hk.symm

/-- On a hit the recorded effect runs, the site is unchanged and the body is skipped. -/
theorem GlobalGetIC_hit (rt : Runtime) (ic : ICHandler) (base : TableRef)
    (index : HeapString) (e : ICEffect) (h : ic.find (rt.m_hiddenClass base) = some e) :
    GlobalGetIC rt ic base index =
      (e.run rt base, ic, [Event.ICHit (rt.m_hiddenClass base) e]) := by
  unfold GlobalGetIC
  simp only [h]

/-- On a miss with an absent key the body delivers nil and installs nothing. -/
theorem GlobalGetIC_miss_uncacheable (rt : Runtime) (ic : ICHandler) (base : TableRef)
    (index : HeapString) (h : ic.find (rt.m_hiddenClass base) = none)
    (hk : (rt.PrepareGetById base index).m_icKind = ICKind.MustBeNilButUncacheable) :
    GlobalGetIC rt ic base index =
      ((TValue.Nil, (rt.PrepareGetById base index).m_mayHaveMetatable), ic,
        [Event.ICBody base index, Event.PrepareGetById base index]) := by
  unfold GlobalGetIC
  simp only [h, hk]

/-- The log of `ic->Body` consults no metatable. -/
theorem GlobalGetIC_trace_no_metatable (rt : Runtime) (ic : ICHandler) (base : TableRef)
    (index : HeapString) :
    ∀ e ∈ (GlobalGetIC rt ic base index).2.2, e.consultsMetatable = false := by
  cases h : ic.find (rt.m_hiddenClass base) with
  | some e =>
    rw [GlobalGetIC_hit rt ic base index e h]
    simp [Event.consultsMetatable]
  | none =>
    unfold GlobalGetIC
    cases hk : (rt.PrepareGetById base index).m_icKind <;>
      simp [h, hk, Event.consultsMetatable]

/-! ## Lemmas on the slow path -/

theorem slowPathRun_zero (rt : Runtime) (index : HeapString) (l : Label) :
    slowPathRun rt index 0 l = (none, []) := rfl

theorem slowPathRun_succ_end (rt : Runtime) (index : HeapString) (fuel : Nat) (l : Label)
    (ev : List Event) (out : Outcome) (h : slowPathStep rt index l = (ev, Sum.inr out)) :
    slowPathRun rt index (fuel + 1) l = (some out, ev) := by
  simp [slowPathRun, h]

theorem slowPathRun_succ_goto (rt : Runtime) (index : HeapString) (fuel : Nat) (l l' : Label)
    (ev : List Event) (h : slowPathStep rt index l = (ev, Sum.inl l')) :
    slowPathRun rt index (fuel + 1) l =
      ((slowPathRun rt index fuel l').1, ev ++ (slowPathRun rt index fuel l').2) := by
  simp [slowPathRun, h]

/-- A finished run of the slow path is not changed by a larger budget. -/
theorem slowPathRun_mono (rt : Runtime) (index : HeapString) :
    ∀ (fuel : Nat) (l : Label) (out : Outcome), (slowPathRun rt index fuel l).1 = some out →
      ∀ fuel', fuel ≤ fuel' → slowPathRun rt index fuel' l = slowPathRun rt index fuel l := by
  intro fuel
  induction fuel with
  | zero => intro l out h; simp [slowPathRun] at h
  | succ n ih =>
    intro l out h fuel' hle
    obtain ⟨m, rfl⟩ : ∃ m, fuel' = m + 1 := ⟨fuel' - 1, by omega⟩
    rcases hs : slowPathStep rt index l with ⟨ev, l' | o⟩
    · rw [slowPathRun_succ_goto rt index n l l' ev hs] at h ⊢
      rw [slowPathRun_succ_goto rt index m l l' ev hs]
      rw [ih l' out h m (by omega)]
    · rw [slowPathRun_succ_end rt index n l ev o hs, slowPathRun_succ_end rt index m l ev o hs]

/-- The pass from `check_metatable` with a metatable whose `Index` metamethod is not nil. -/
theorem step_check_metatable_goto (rt : Runtime) (index : HeapString) (base : TableRef)
    (h : (tableIndexMetamethod rt base).IsNil = false) :
    slowPathStep rt index (Label.check_metatable base) =
      ([Event.GetMetatable base,
        Event.GetMetamethodFromMetatable (rt.GetMetatable base) LuaMetamethodKind.Index],
       Sum.inl (Label.handle_metamethod base (TValue.Table base)
         (tableIndexMetamethod rt base))) := by
  unfold tableIndexMetamethod at h ⊢
  by_cases hm : rt.GetMetatable base = 0
  · simp [hm, TValue.IsNil] at h
  · simp only [hm, ne_eq, not_false_eq_true, if_true] at h ⊢
    simp [slowPathStep, hm, h]

/-- The pass from `check_metatable` without an `Index` metamethod returns nil. -/
theorem step_check_metatable_nil (rt : Runtime) (index : HeapString) (base : TableRef)
    (h : (tableIndexMetamethod rt base).IsNil = true) :
    (slowPathStep rt index (Label.check_metatable base)).2 =
      Sum.inr (Outcome.Return TValue.Nil) := by
  unfold tableIndexMetamethod at h
  by_cases hm : rt.GetMetatable base = 0
  · simp [slowPathStep, hm]
  · simp only [hm, ne_eq, not_false_eq_true, if_true] at h
    simp [slowPathStep, hm, h]

end LuaJitRemake

namespace LuaJitRemake

/-! ## The two exits of `GlobalGetImpl` -/

/-- The test of line 48 succeeds: the bytecode returns the delivered value. -/
theorem GlobalGet_fast (rt : Runtime) (ic : ICHandler) (k : HeapString) (fuel : Nat)
    (h : (GlobalGetIC rt ic rt.GetFEnvGlobalObject k).1.2 = false ∨
      (GlobalGetIC rt ic rt.GetFEnvGlobalObject k).1.1.IsNil = false) :
    GlobalGet rt ic k fuel =
      { outcome := some (Outcome.Return (GlobalGetIC rt ic rt.GetFEnvGlobalObject k).1.1),
        ic := (GlobalGetIC rt ic rt.GetFEnvGlobalObject k).2.1,
        trace := (GlobalGetIC rt ic rt.GetFEnvGlobalObject k).2.2 } := by
  unfold GlobalGet GlobalGetImpl
  rcases h with h | h <;> simp [h]

/-- The test of line 48 fails: the bytecode enters the slow path at `check_metatable`. -/
theorem GlobalGet_slow (rt : Runtime) (ic : ICHandler) (k : HeapString) (fuel : Nat)
    (h1 : (GlobalGetIC rt ic rt.GetFEnvGlobalObject k).1.2 = true)
    (h2 : (GlobalGetIC rt ic rt.GetFEnvGlobalObject k).1.1.IsNil = true) :
    GlobalGet rt ic k fuel =
      { outcome := (slowPathRun rt k fuel (Label.check_metatable rt.GetFEnvGlobalObject)).1,
        ic := (GlobalGetIC rt ic rt.GetFEnvGlobalObject k).2.1,
        trace := (GlobalGetIC rt ic rt.GetFEnvGlobalObject k).2.2 ++
          (slowPathRun rt k fuel (Label.check_metatable rt.GetFEnvGlobalObject)).2 } := by
  unfold GlobalGet GlobalGetImpl
  simp [h1, h2]

/-- A pass from `check_metatable` first asks for the metatable of `base`. -/
theorem check_metatable_consults (rt : Runtime) (index : HeapString) (fuel : Nat)
    (base : TableRef) :
    Event.GetMetatable base ∈
      (slowPathRun rt index (fuel + 1) (Label.check_metatable base)).2 := by
  rcases hs : slowPathStep rt index (Label.check_metatable base) with ⟨ev, l' | o⟩
  · have hev : Event.GetMetatable base ∈ ev := by
      have : ev = (slowPathStep rt index (Label.check_metatable base)).1 := by rw [hs]
      rw [this]
      simp only [slowPathStep]
      split_ifs <;> simp
    rw [slowPathRun_succ_goto rt index fuel _ l' ev hs]
    exact List.mem_append_left _ hev
  · have hev : Event.GetMetatable base ∈ ev := by
      have : ev = (slowPathStep rt index (Label.check_metatable base)).1 := by rw [hs]
      rw [this]
      simp only [slowPathStep]
      split_ifs <;> simp
    rw [slowPathRun_succ_end rt index fuel _ ev o hs]
    exact hev

/-- C1 (lines 48-54): at a sound site, `GlobalGet(k)` returns the value of the raw lookup of
`k` in the global table with no metatable consulted if and only if that value is not nil or
the lookup reports `mayHaveMetatable = false`. In particular an absent key with the bit
clear yields nil; and a nil value with the bit set, whether the slot is present or absent,
sends the bytecode to `check_metatable`, whose first act is to ask for the metatable of the
global table. -/
theorem globalGet_returns_raw_lookup_iff (rt : Runtime) (ic : ICHandler) (k : HeapString)
    (fuel : Nat) (hic : ICSound rt k ic) :
    (((GlobalGet rt ic k fuel).outcome =
          some (Outcome.Return (rawLookup rt rt.GetFEnvGlobalObject k).1) ∧
        ∀ e ∈ (GlobalGet rt ic k fuel).trace, e.consultsMetatable = false) ↔
      ((rawLookup rt rt.GetFEnvGlobalObject k).1.IsNil = false ∨
        (rawLookup rt rt.GetFEnvGlobalObject k).2 = false)) ∧
    ((rt.PrepareGetById rt.GetFEnvGlobalObject k).m_icKind = ICKind.MustBeNilButUncacheable →
      (rt.PrepareGetById rt.GetFEnvGlobalObject k).m_mayHaveMetatable = false →
      (GlobalGet rt ic k fuel).outcome = some (Outcome.Return TValue.Nil)) ∧
    ((rawLookup rt rt.GetFEnvGlobalObject k).1.IsNil = true →
      (rawLookup rt rt.GetFEnvGlobalObject k).2 = true →
      (GlobalGet rt ic k fuel).outcome =
          (slowPathRun rt k fuel (Label.check_metatable rt.GetFEnvGlobalObject)).1 ∧
        (0 < fuel → Event.GetMetatable rt.GetFEnvGlobalObject ∈
          (GlobalGet rt ic k fuel).trace)) := by
  have hraw := GlobalGetIC_result_of_sound rt ic rt.GetFEnvGlobalObject k hic
  have hslow : (rawLookup rt rt.GetFEnvGlobalObject k).1.IsNil = true →
      (rawLookup rt rt.GetFEnvGlobalObject k).2 = true →
      (GlobalGet rt ic k fuel).outcome =
          (slowPathRun rt k fuel (Label.check_metatable rt.GetFEnvGlobalObject)).1 ∧
        (0 < fuel → Event.GetMetatable rt.GetFEnvGlobalObject ∈
          (GlobalGet rt ic k fuel).trace) := by
    intro hnil hbit
    rw [GlobalGet_slow rt ic k fuel (by rw [hraw]; exact hbit) (by rw [hraw]; exact hnil)]
    refine ⟨rfl, fun hpos => ?_⟩
    obtain ⟨n, rfl⟩ : ∃ n, fuel = n + 1 := ⟨fuel - 1, by omega⟩
    exact List.mem_append_right _ (check_metatable_consults rt k n _)
  refine ⟨⟨?_, ?_⟩, ?_, hslow⟩
  · rintro ⟨hout, htr⟩
    by_contra hcon
    have hnil : (rawLookup rt rt.GetFEnvGlobalObject k).1.IsNil = true := by
      cases h : (rawLookup rt rt.GetFEnvGlobalObject k).1.IsNil <;> simp_all
    have hbit : (rawLookup rt rt.GetFEnvGlobalObject k).2 = true := by
      cases h : (rawLookup rt rt.GetFEnvGlobalObject k).2 <;> simp_all
    obtain ⟨ho, hm⟩ := hslow hnil hbit
    cases fuel with
    | zero =>
      rw [ho, slowPathRun_zero] at hout
      simp at hout
    | succ n =>
      have := htr _ (hm (Nat.succ_pos n))
      simp [Event.consultsMetatable] at this
  · intro h
    have h' : (GlobalGetIC rt ic rt.GetFEnvGlobalObject k).1.2 = false ∨
        (GlobalGetIC rt ic rt.GetFEnvGlobalObject k).1.1.IsNil = false := by
      rw [hraw]; exact h.symm
    rw [GlobalGet_fast rt ic k fuel h', hraw]
    exact ⟨rfl, GlobalGetIC_trace_no_metatable rt ic _ k⟩
  · intro hk hb
    have h' : (GlobalGetIC rt ic rt.GetFEnvGlobalObject k).1.2 = false ∨
        (GlobalGetIC rt ic rt.GetFEnvGlobalObject k).1.1.IsNil = false := by
      rw [hraw]; left; simp [rawLookup, hb]
    rw [GlobalGet_fast rt ic k fuel h', hraw]
    simp [rawLookup, GetById, hk]

/-- The empty site is sound. -/
theorem emptyIC_sound (rt : Runtime) (k : HeapString) : ICSound rt k emptyIC := by
  intro e he
  simp [emptyIC] at he

/-- C1, witness: on the heap of `globalget_metatable.lua`, at a fresh site and a budget of 5
passes. -/
theorem globalGet_returns_raw_lookup_iff_witness :
    ICSound heapIndexTable.toRuntime "x" emptyIC ∧
    ((((GlobalGet heapIndexTable.toRuntime emptyIC "x" 5).outcome =
          some (Outcome.Return (rawLookup heapIndexTable.toRuntime
            heapIndexTable.toRuntime.GetFEnvGlobalObject "x").1) ∧
        ∀ e ∈ (GlobalGet heapIndexTable.toRuntime emptyIC "x" 5).trace,
          e.consultsMetatable = false) ↔
      ((rawLookup heapIndexTable.toRuntime
          heapIndexTable.toRuntime.GetFEnvGlobalObject "x").1.IsNil = false ∨
        (rawLookup heapIndexTable.toRuntime
          heapIndexTable.toRuntime.GetFEnvGlobalObject "x").2 = false))) :=
  ⟨emptyIC_sound _ _,
    (globalGet_returns_raw_lookup_iff heapIndexTable.toRuntime emptyIC "x" 5
      (emptyIC_sound _ _)).1⟩

end LuaJitRemake

namespace LuaJitRemake

/-! ## The passes from `handle_metamethod` -/

theorem step_handle_function (rt : Runtime) (index : HeapString) (base : TableRef)
    (metamethodBase : TValue) (f : FunctionRef) :
    slowPathStep rt index (Label.handle_metamethod base metamethodBase (TValue.Function f)) =
      ([], Sum.inr (Outcome.MakeCall f [metamethodBase, TValue.String index]
        ReturnContinuation.GlobalGetMetamethodCallContinuation)) := rfl

theorem step_handle_table_return (rt : Runtime) (index : HeapString) (base : TableRef)
    (metamethodBase : TValue) (t : TableRef)
    (h : (rawLookup rt t index).2 = false ∨ (rawLookup rt t index).1.IsNil = false) :
    slowPathStep rt index (Label.handle_metamethod base metamethodBase (TValue.Table t)) =
      ([Event.PrepareGetById t index], Sum.inr (Outcome.Return (rawLookup rt t index).1)) := by
  simp only [rawLookup] at h
  rcases h with h | h <;> simp [slowPathStep, rawLookup, h]

theorem step_handle_table_goto (rt : Runtime) (index : HeapString) (base : TableRef)
    (metamethodBase : TValue) (t : TableRef)
    (h1 : (rawLookup rt t index).2 = true) (h2 : (rawLookup rt t index).1.IsNil = true) :
    slowPathStep rt index (Label.handle_metamethod base metamethodBase (TValue.Table t)) =
      ([Event.PrepareGetById t index], Sum.inl (Label.check_metatable t)) := by
  simp only [rawLookup] at h1 h2
  simp [slowPathStep, h1, h2]

theorem step_handle_other_error (rt : Runtime) (index : HeapString) (base : TableRef)
    (metamethodBase m : TValue) (hf : ∀ f, m ≠ TValue.Function f) (ht : ∀ t, m ≠ TValue.Table t)
    (h : (rt.GetMetamethodForValue m LuaMetamethodKind.Index).IsNil = true) :
    slowPathStep rt index (Label.handle_metamethod base metamethodBase m) =
      ([Event.GetMetamethodForValue m LuaMetamethodKind.Index],
        Sum.inr (Outcome.ThrowError "bad type for GlobalGet")) := by
  cases m <;> first | exact absurd rfl (hf _) | exact absurd rfl (ht _) | simp [slowPathStep, h]

theorem step_handle_other_goto (rt : Runtime) (index : HeapString) (base : TableRef)
    (metamethodBase m : TValue) (hf : ∀ f, m ≠ TValue.Function f) (ht : ∀ t, m ≠ TValue.Table t)
    (h : (rt.GetMetamethodForValue m LuaMetamethodKind.Index).IsNil = false) :
    slowPathStep rt index (Label.handle_metamethod base metamethodBase m) =
      ([Event.GetMetamethodForValue m LuaMetamethodKind.Index],
        Sum.inl (Label.handle_metamethod base m
          (rt.GetMetamethodForValue m LuaMetamethodKind.Index))) := by
  cases m <;> first | exact absurd rfl (hf _) | exact absurd rfl (ht _) | simp [slowPathStep, h]

/-- A table with a metatable has the `Index` field of the metatable as its `Index`
metamethod. -/
theorem tableIndexMetamethod_of_metatable (rt : Runtime) (base : TableRef)
    (h : rt.GetMetatable base ≠ 0) :
    tableIndexMetamethod rt base =
      rt.GetMetamethodFromMetatable (rt.GetMetatable base) LuaMetamethodKind.Index := by
  simp [tableIndexMetamethod, h]

/-- The outcome of the slow path from `check_metatable` when the `Index` metamethod of the
table is not nil: that of `handle_metamethod`, one pass later. -/
theorem slowPathRun_check_goto (rt : Runtime) (index : HeapString) (fuel : Nat)
    (base : TableRef) (h : (tableIndexMetamethod rt base).IsNil = false) :
    (slowPathRun rt index (fuel + 1) (Label.check_metatable base)).1 =
      (slowPathRun rt index fuel (Label.handle_metamethod base (TValue.Table base)
        (tableIndexMetamethod rt base))).1 := by
  rw [slowPathRun_succ_goto rt index fuel _ _ _ (step_check_metatable_goto rt index base h)]

/-- An example heap in which every table with a metatable has the bit of its structure set
keeps the bit sound. -/
theorem exampleHeap_bit_sound (h : ExampleHeap) (k : HeapString)
    (hall : ∀ p ∈ h.tables, p.2.metatable ≠ 0 → p.2.mayHaveMetatable = true) :
    MetatableBitSound h.toRuntime k := by
  intro base hb
  simp only [ExampleHeap.toRuntime, ExampleHeap.metatableOf] at hb ⊢
  unfold ExampleHeap.PrepareGetById
  cases ht : h.tableAt base with
  | none => simp [ht] at hb
  | some tb =>
    simp only [ht] at hb ⊢
    have hmem : ∃ p ∈ h.tables, p.2 = tb := by
      unfold ExampleHeap.tableAt at ht
      split at ht
      · rename_i p hp
        exact ⟨p, List.mem_of_find?_eq_some hp, by simpa using ht⟩
      · simp at ht
    obtain ⟨p, hp, rfl⟩ := hmem
    have := hall p hp hb
    cases hs : slotOrdinal k p.2.properties with
    | none => simp [this]
    | some i => by_cases hi : i < p.2.inlineCapacity <;> simp [hi, this]

/-- C2 (lines 83-94, test `globalget_metatable`): when the global table has no non-nil raw
value for `k` and the `Index` field of its metatable is a table `T` whose raw value for `k`
is `v`, not nil, `GlobalGet(k)` returns `v` (two passes of the slow path suffice). The site
is sound and the heap keeps the bit of a table with a metatable set. -/
theorem globalGet_index_table_value (rt : Runtime) (ic : ICHandler) (k : HeapString)
    (T : TableRef) (v : TValue) (fuel : Nat)
    (hic : ICSound rt k ic) (hbit : MetatableBitSound rt k)
    (hG : (rawLookup rt rt.GetFEnvGlobalObject k).1.IsNil = true)
    (hmt : rt.GetMetatable rt.GetFEnvGlobalObject ≠ 0)
    (hidx : rt.GetMetamethodFromMetatable (rt.GetMetatable rt.GetFEnvGlobalObject)
      LuaMetamethodKind.Index = TValue.Table T)
    (hT : (rawLookup rt T k).1 = v) (hv : v.IsNil = false) (hfuel : 2 ≤ fuel) :
    (GlobalGet rt ic k fuel).outcome = some (Outcome.Return v) := by
  have hraw := GlobalGetIC_result_of_sound rt ic rt.GetFEnvGlobalObject k hic
  have hb : (rawLookup rt rt.GetFEnvGlobalObject k).2 = true := hbit _ hmt
  obtain ⟨n, rfl⟩ : ∃ n, fuel = n + 2 := ⟨fuel - 2, by omega⟩
  rw [GlobalGet_slow rt ic k _ (by rw [hraw]; exact hb) (by rw [hraw]; exact hG)]
  have hmm := tableIndexMetamethod_of_metatable rt _ hmt
  rw [hidx] at hmm
  simp only
  rw [slowPathRun_check_goto rt k (n + 1) _ (by rw [hmm]; rfl), hmm]
  rw [slowPathRun_succ_end rt k n _ _ _
    (step_handle_table_return rt k _ _ T (Or.inr (by rw [hT]; exact hv))), hT]

/-- C2, witness: the heap of `globalget_metatable.lua`, where the global table has no `x` and
`__index = {x = 42}`. -/
theorem globalGet_index_table_value_witness :
    (GlobalGet heapIndexTable.toRuntime emptyIC "x" 2).outcome =
      some (Outcome.Return (TValue.Double 42)) :=
  globalGet_index_table_value heapIndexTable.toRuntime emptyIC "x" 3 (TValue.Double 42) 2
    (emptyIC_sound _ _)
    (exampleHeap_bit_sound heapIndexTable "x" (by decide))
    (by decide) (by decide) (by decide) (by decide) (by decide) (by decide)

/-- C3 (lines 76-82 and 7-10): when the raw lookup of `k` in the global table yields nil with
`mayHaveMetatable` set and the `Index` field of its metatable is a function `f`,
`GlobalGet(k)` calls `f` with exactly the two arguments `(table, k)`, and the continuation
of the call returns return value 0, whatever further values the call returned. -/
theorem globalGet_index_function_call (rt : Runtime) (ic : ICHandler) (k : HeapString)
    (f : FunctionRef) (fuel : Nat) (hic : ICSound rt k ic)
    (hnil : (rawLookup rt rt.GetFEnvGlobalObject k).1.IsNil = true)
    (hb : (rawLookup rt rt.GetFEnvGlobalObject k).2 = true)
    (hmt : rt.GetMetatable rt.GetFEnvGlobalObject ≠ 0)
    (hidx : rt.GetMetamethodFromMetatable (rt.GetMetatable rt.GetFEnvGlobalObject)
      LuaMetamethodKind.Index = TValue.Function f)
    (hfuel : 2 ≤ fuel) :
    (GlobalGet rt ic k fuel).outcome =
        some (Outcome.MakeCall f [TValue.Table rt.GetFEnvGlobalObject, TValue.String k]
          ReturnContinuation.GlobalGetMetamethodCallContinuation) ∧
      (∀ (tvIndex r : TValue) (rest : List TValue),
        ReturnContinuation.GlobalGetMetamethodCallContinuation.resume tvIndex (r :: rest) =
          Outcome.Return r) ∧
      (∀ tvIndex : TValue,
        ReturnContinuation.GlobalGetMetamethodCallContinuation.resume tvIndex [] =
          Outcome.Return TValue.Nil) := by
  refine ⟨?_, fun _ _ _ => rfl, fun _ => rfl⟩
  have hraw := GlobalGetIC_result_of_sound rt ic rt.GetFEnvGlobalObject k hic
  obtain ⟨n, rfl⟩ : ∃ n, fuel = n + 2 := ⟨fuel - 2, by omega⟩
  rw [GlobalGet_slow rt ic k _ (by rw [hraw]; exact hb) (by rw [hraw]; exact hnil)]
  have hmm := tableIndexMetamethod_of_metatable rt _ hmt
  rw [hidx] at hmm
  simp only
  rw [slowPathRun_check_goto rt k (n + 1) _ (by rw [hmm]; rfl), hmm]
  rw [slowPathRun_succ_end rt k n _ _ _ (step_handle_function rt k _ _ f)]

/-- C3, witness: the global table has no `x` and `__index` is the function at address 9. -/
theorem globalGet_index_function_call_witness :
    (GlobalGet heapIndexFunction.toRuntime emptyIC "x" 2).outcome =
      some (Outcome.MakeCall 9 [TValue.Table 1, TValue.String "x"]
        ReturnContinuation.GlobalGetMetamethodCallContinuation) :=
  (globalGet_index_function_call heapIndexFunction.toRuntime emptyIC "x" 9 2
    (emptyIC_sound _ _) (by decide) (by decide) (by decide) (by decide) (by decide)).1

end LuaJitRemake

namespace LuaJitRemake

/-! ## Reaching a label -/

/-- Running from a label reached after `n` passes: the first `n` passes are spent on the
way. -/
theorem slowPathRun_labelAfter (rt : Runtime) (index : HeapString) :
    ∀ (n : Nat) (l0 l : Label), labelAfter rt index n l0 = some l →
      ∀ m, (slowPathRun rt index (n + m) l0).1 = (slowPathRun rt index m l).1 := by
  intro n
  induction n with
  | zero =>
    intro l0 l h m
    simp only [labelAfter, Option.some.injEq] at h
    subst h
    simp
  | succ n ih =>
    intro l0 l h m
    rcases hs : slowPathStep rt index l0 with ⟨ev, l' | o⟩
    · simp only [labelAfter, hs] at h
      have : n + 1 + m = (n + m) + 1 := by omega
      rw [this, slowPathRun_succ_goto rt index (n + m) l0 l' ev hs]
      exact ih l' l h m
    · simp [labelAfter, hs] at h

/-- The outcome of `GlobalGet` once finished is not changed by a larger budget. -/
theorem GlobalGet_outcome_mono (rt : Runtime) (ic : ICHandler) (k : HeapString)
    (fuel fuel' : Nat) (out : Outcome) (h : (GlobalGet rt ic k fuel).outcome = some out)
    (hle : fuel ≤ fuel') : (GlobalGet rt ic k fuel').outcome = some out := by
  by_cases hf : (GlobalGetIC rt ic rt.GetFEnvGlobalObject k).1.2 = false ∨
      (GlobalGetIC rt ic rt.GetFEnvGlobalObject k).1.1.IsNil = false
  · rw [GlobalGet_fast rt ic k fuel hf] at h
    rw [GlobalGet_fast rt ic k fuel' hf]
    exact h
  · have h1 : (GlobalGetIC rt ic rt.GetFEnvGlobalObject k).1.2 = true := by
      cases hb : (GlobalGetIC rt ic rt.GetFEnvGlobalObject k).1.2 <;> simp_all
    have h2 : (GlobalGetIC rt ic rt.GetFEnvGlobalObject k).1.1.IsNil = true := by
      cases hb : (GlobalGetIC rt ic rt.GetFEnvGlobalObject k).1.1.IsNil <;> simp_all
    rw [GlobalGet_slow rt ic k fuel h1 h2] at h
    rw [GlobalGet_slow rt ic k fuel' h1 h2]
    simp only at h ⊢
    rw [slowPathRun_mono rt k fuel _ out h fuel' hle]
    exact h

/-- The outcome of `GlobalGet` when the chain reaches a label: that of the slow path run from
that label. -/
theorem GlobalGet_outcome_of_reaches (rt : Runtime) (ic : ICHandler) (k : HeapString)
    (l : Label) (n m : Nat) (hs : entersSlowPath rt ic k = true)
    (hn : labelAfter rt k n (Label.check_metatable rt.GetFEnvGlobalObject) = some l) :
    (GlobalGet rt ic k (n + m)).outcome = (slowPathRun rt k m l).1 := by
  simp only [entersSlowPath, Bool.and_eq_true] at hs
  rw [GlobalGet_slow rt ic k _ hs.1 hs.2]
  exact slowPathRun_labelAfter rt k n _ l hn m

/-- C4 as amended (lines 55-70 and 97-108): let the chain walked by `GlobalGet(k)` reach an
object that has no `Index` metamethod. If the object is a table whose raw lookup of `k` is
nil (the global table or a table reached through `__index`), the lookup ends with nil. If
the object is neither a table nor a function, the lookup ends with the error
"bad type for GlobalGet". -/
theorem chain_end_without_index (rt : Runtime) (ic : ICHandler) (k : HeapString) (l : Label)
    (hreach : ChainReaches rt ic k l)
    (hno : (metatableIndex rt l.object).IsNil = true) :
    (∀ base, l = Label.check_metatable base →
      ∃ N, ∀ fuel, N ≤ fuel →
        (GlobalGet rt ic k fuel).outcome = some (Outcome.Return TValue.Nil)) ∧
    (∀ base metamethodBase t, l = Label.handle_metamethod base metamethodBase (TValue.Table t) →
      (rawLookup rt t k).1.IsNil = true →
      ∃ N, ∀ fuel, N ≤ fuel →
        (GlobalGet rt ic k fuel).outcome = some (Outcome.Return TValue.Nil)) ∧
    (∀ base metamethodBase v, l = Label.handle_metamethod base metamethodBase v →
      (∀ t, v ≠ TValue.Table t) → (∀ f, v ≠ TValue.Function f) →
      ∃ N, ∀ fuel, N ≤ fuel →
        (GlobalGet rt ic k fuel).outcome =
          some (Outcome.ThrowError "bad type for GlobalGet")) := by
  obtain ⟨hs, n, hn⟩ := hreach
  have hnilv : ∀ v : TValue, v.IsNil = true → v = TValue.Nil := by
    intro v hv; cases v <;> simp_all [TValue.IsNil]
  refine ⟨?_, ?_, ?_⟩
  · rintro base rfl
    simp only [Label.object, metatableIndex] at hno
    refine ⟨n + 1, fun fuel hle => ?_⟩
    apply GlobalGet_outcome_mono rt ic k (n + 1) fuel _ _ hle
    rw [GlobalGet_outcome_of_reaches rt ic k _ n 1 hs hn]
    rcases hst : slowPathStep rt k (Label.check_metatable base) with ⟨ev, l' | o⟩
    · have := step_check_metatable_nil rt k base hno
      rw [hst] at this
      simp at this
    · have := step_check_metatable_nil rt k base hno
      rw [hst] at this
      simp only [Sum.inr.injEq] at this
      subst this
      rw [slowPathRun_succ_end rt k 0 _ ev _ hst]
  · rintro base mb t rfl hraw
    simp only [Label.object, metatableIndex] at hno
    refine ⟨n + 2, fun fuel hle => ?_⟩
    apply GlobalGet_outcome_mono rt ic k (n + 2) fuel _ _ hle
    rw [GlobalGet_outcome_of_reaches rt ic k _ n 2 hs hn]
    by_cases hb : (rawLookup rt t k).2 = true
    · rw [slowPathRun_succ_goto rt k 1 _ _ _ (step_handle_table_goto rt k base mb t hb hraw)]
      simp only
      rcases hst : slowPathStep rt k (Label.check_metatable t) with ⟨ev, l' | o⟩
      · have := step_check_metatable_nil rt k t hno
        rw [hst] at this
        simp at this
      · have := step_check_metatable_nil rt k t hno
        rw [hst] at this
        simp only [Sum.inr.injEq] at this
        subst this
        rw [slowPathRun_succ_end rt k 0 _ ev _ hst]
    · have hb' : (rawLookup rt t k).2 = false := by
        cases h : (rawLookup rt t k).2 <;> simp_all
      rw [slowPathRun_succ_end rt k 1 _ _ _
        (step_handle_table_return rt k base mb t (Or.inl hb')), hnilv _ hraw]
  · rintro base mb v rfl hnt hnf
    have hno' : (rt.GetMetamethodForValue v LuaMetamethodKind.Index).IsNil = true := by
      cases v <;> first | exact absurd rfl (hnt _) | exact absurd rfl (hnf _) | exact hno
    refine ⟨n + 1, fun fuel hle => ?_⟩
    apply GlobalGet_outcome_mono rt ic k (n + 1) fuel _ _ hle
    rw [GlobalGet_outcome_of_reaches rt ic k _ n 1 hs hn]
    rw [slowPathRun_succ_end rt k 0 _ _ _ (step_handle_other_error rt k base mb v hnf hnt hno')]

/-- C4 as amended, witness: with `__index = 5` the chain reaches the number 5, which has no
`Index` metamethod, and the lookup ends with the error. -/
theorem chain_end_without_index_witness :
    ∃ N, ∀ fuel, N ≤ fuel →
      (GlobalGet heapIndexNumber.toRuntime emptyIC "x" fuel).outcome =
        some (Outcome.ThrowError "bad type for GlobalGet") :=
  (chain_end_without_index heapIndexNumber.toRuntime emptyIC "x"
    (Label.handle_metamethod 1 (TValue.Table 1) (TValue.Double 5))
    ⟨by decide, 1, by decide⟩ (by decide)).2.2 1 (TValue.Table 1) (TValue.Double 5) rfl
    (fun _ h => by cases h) (fun _ h => by cases h)

/-- C4, counterexample: with `setmetatable(_G, {__index = 5})` the chain walked by
`GlobalGet("x")` reaches the number 5, an object without `Index` metamethod, and the lookup
ends with the error "bad type for GlobalGet", never with nil. -/
theorem chain_end_without_index_counterexample :
    ChainReaches heapIndexNumber.toRuntime emptyIC "x"
        (Label.handle_metamethod 1 (TValue.Table 1) (TValue.Double 5)) ∧
      metatableIndex heapIndexNumber.toRuntime (TValue.Double 5) = TValue.Nil ∧
      (GlobalGet heapIndexNumber.toRuntime emptyIC "x" 2).outcome =
        some (Outcome.ThrowError "bad type for GlobalGet") ∧
      ¬ ∃ fuel, (GlobalGet heapIndexNumber.toRuntime emptyIC "x" fuel).outcome =
        some (Outcome.Return TValue.Nil) := by
  refine ⟨⟨by decide, 1, by decide⟩, by decide, by decide, ?_⟩
  rintro ⟨fuel, h⟩
  have h2 : (GlobalGet heapIndexNumber.toRuntime emptyIC "x" 2).outcome =
      some (Outcome.ThrowError "bad type for GlobalGet") := by decide
  rcases Nat.le_total fuel 2 with hle | hle
  · have := GlobalGet_outcome_mono _ _ _ fuel 2 _ h hle
    rw [h2] at this
    cases this
  · have := GlobalGet_outcome_mono _ _ _ 2 fuel _ h2 hle
    rw [h] at this
    cases this

end LuaJitRemake

namespace LuaJitRemake

/-! ## Errors of the slow path -/

theorem isNil_iff (v : TValue) : v.IsNil = true ↔ v = TValue.Nil := by
  cases v <;> simp [TValue.IsNil]

/-- A pass from `check_metatable` that ends the bytecode returns nil. -/
theorem step_check_metatable_end (rt : Runtime) (index : HeapString) (base : TableRef)
    (ev : List Event) (o : Outcome)
    (hs : slowPathStep rt index (Label.check_metatable base) = (ev, Sum.inr o)) :
    o = Outcome.Return TValue.Nil := by
  simp only [slowPathStep] at hs
  split_ifs at hs <;> simp_all

/-- A pass from `handle_metamethod` that raises an error: the metamethod is neither a
function nor a table, it has no `Index` metamethod, and the text is
"bad type for GlobalGet". -/
theorem step_handle_error (rt : Runtime) (index : HeapString) (base : TableRef)
    (metamethodBase m : TValue) (ev : List Event) (msg : String)
    (hs : slowPathStep rt index (Label.handle_metamethod base metamethodBase m) =
      (ev, Sum.inr (Outcome.ThrowError msg))) :
    msg = "bad type for GlobalGet" ∧ (∀ f, m ≠ TValue.Function f) ∧
      (∀ t, m ≠ TValue.Table t) ∧
      rt.GetMetamethodForValue m LuaMetamethodKind.Index = TValue.Nil := by
  cases m <;> simp only [slowPathStep] at hs <;> (try split_ifs at hs with h) <;>
    simp at hs <;>
    exact ⟨hs.2.symm, (fun _ hc => by cases hc), (fun _ hc => by cases hc), (isNil_iff _).mp h⟩

/-- An error of the slow path is "bad type for GlobalGet", raised at a label
`handle_metamethod` whose metamethod is neither a function nor a table and has no `Index`
metamethod of its own. -/
theorem slowPathRun_error (rt : Runtime) (index : HeapString) :
    ∀ (fuel : Nat) (l : Label) (msg : String),
      (slowPathRun rt index fuel l).1 = some (Outcome.ThrowError msg) →
      msg = "bad type for GlobalGet" ∧
        ∃ n base metamethodBase v,
          labelAfter rt index n l = some (Label.handle_metamethod base metamethodBase v) ∧
          (∀ f, v ≠ TValue.Function f) ∧ (∀ t, v ≠ TValue.Table t) ∧
          rt.GetMetamethodForValue v LuaMetamethodKind.Index = TValue.Nil := by
  intro fuel
  induction fuel with
  | zero => intro l msg h; simp [slowPathRun] at h
  | succ n ih =>
    intro l msg h
    rcases hs : slowPathStep rt index l with ⟨ev, l' | o⟩
    · rw [slowPathRun_succ_goto rt index n l l' ev hs] at h
      obtain ⟨hmsg, m, base, mb, v, hl, hv⟩ := ih l' msg h
      refine ⟨hmsg, m + 1, base, mb, v, ?_, hv⟩
      simp [labelAfter, hs, hl]
    · rw [slowPathRun_succ_end rt index n l ev o hs] at h
      simp only [Option.some.injEq] at h
      subst h
      cases l with
      | check_metatable base =>
        have := step_check_metatable_end rt index base ev _ hs
        cases this
      | handle_metamethod base mb m =>
        obtain ⟨hmsg, hv⟩ := step_handle_error rt index base mb m ev msg hs
        exact ⟨hmsg, 0, base, mb, m, rfl, hv⟩

/-- The error in terms of the labels walked (lines 97-108): `GlobalGet(k)` raises an error
if and only if the slow path reaches `handle_metamethod` with a metamethod that is neither a
function nor a table and has no `Index` metamethod of its own. The error is then
"bad type for GlobalGet", it is raised for every sufficient budget, and no value is
returned. -/
theorem error_iff_reaches_label (rt : Runtime) (ic : ICHandler) (k : HeapString) :
    ((∃ fuel msg, (GlobalGet rt ic k fuel).outcome = some (Outcome.ThrowError msg)) ↔
      ∃ base metamethodBase v,
        ChainReaches rt ic k (Label.handle_metamethod base metamethodBase v) ∧
        (∀ f, v ≠ TValue.Function f) ∧ (∀ t, v ≠ TValue.Table t) ∧
        rt.GetMetamethodForValue v LuaMetamethodKind.Index = TValue.Nil) ∧
    (∀ fuel msg, (GlobalGet rt ic k fuel).outcome = some (Outcome.ThrowError msg) →
      msg = "bad type for GlobalGet") ∧
    ((∃ base metamethodBase v,
        ChainReaches rt ic k (Label.handle_metamethod base metamethodBase v) ∧
        (∀ f, v ≠ TValue.Function f) ∧ (∀ t, v ≠ TValue.Table t) ∧
        rt.GetMetamethodForValue v LuaMetamethodKind.Index = TValue.Nil) →
      (∃ N, ∀ fuel, N ≤ fuel → (GlobalGet rt ic k fuel).outcome =
        some (Outcome.ThrowError "bad type for GlobalGet")) ∧
      ∀ fuel val, (GlobalGet rt ic k fuel).outcome ≠ some (Outcome.Return val)) := by
  have hfwd : ∀ fuel msg, (GlobalGet rt ic k fuel).outcome = some (Outcome.ThrowError msg) →
      msg = "bad type for GlobalGet" ∧
      ∃ base metamethodBase v,
        ChainReaches rt ic k (Label.handle_metamethod base metamethodBase v) ∧
        (∀ f, v ≠ TValue.Function f) ∧ (∀ t, v ≠ TValue.Table t) ∧
        rt.GetMetamethodForValue v LuaMetamethodKind.Index = TValue.Nil := by
    intro fuel msg h
    by_cases hf : (GlobalGetIC rt ic rt.GetFEnvGlobalObject k).1.2 = false ∨
        (GlobalGetIC rt ic rt.GetFEnvGlobalObject k).1.1.IsNil = false
    · rw [GlobalGet_fast rt ic k fuel hf] at h
      simp at h
    · have h1 : (GlobalGetIC rt ic rt.GetFEnvGlobalObject k).1.2 = true := by
        cases hb : (GlobalGetIC rt ic rt.GetFEnvGlobalObject k).1.2 <;> simp_all
      have h2 : (GlobalGetIC rt ic rt.GetFEnvGlobalObject k).1.1.IsNil = true := by
        cases hb : (GlobalGetIC rt ic rt.GetFEnvGlobalObject k).1.1.IsNil <;> simp_all
      rw [GlobalGet_slow rt ic k fuel h1 h2] at h
      obtain ⟨hmsg, n, base, mb, v, hl, hv⟩ := slowPathRun_error rt k fuel _ msg h
      exact ⟨hmsg, base, mb, v, ⟨by simp [entersSlowPath, h1, h2], n, hl⟩, hv⟩
  have hbwd : (∃ base metamethodBase v,
        ChainReaches rt ic k (Label.handle_metamethod base metamethodBase v) ∧
        (∀ f, v ≠ TValue.Function f) ∧ (∀ t, v ≠ TValue.Table t) ∧
        rt.GetMetamethodForValue v LuaMetamethodKind.Index = TValue.Nil) →
      ∃ N, ∀ fuel, N ≤ fuel → (GlobalGet rt ic k fuel).outcome =
        some (Outcome.ThrowError "bad type for GlobalGet") := by
    rintro ⟨base, mb, v, ⟨hs, n, hn⟩, hf, ht, hnil⟩
    refine ⟨n + 1, fun fuel hle => ?_⟩
    apply GlobalGet_outcome_mono rt ic k (n + 1) fuel _ _ hle
    rw [GlobalGet_outcome_of_reaches rt ic k _ n 1 hs hn]
    rw [slowPathRun_succ_end rt k 0 _ _ _
      (step_handle_other_error rt k base mb v hf ht ((isNil_iff _).mpr hnil))]
  refine ⟨⟨fun ⟨fuel, msg, h⟩ => (hfwd fuel msg h).2, fun h => ?_⟩,
    fun fuel msg h => (hfwd fuel msg h).1, fun h => ⟨hbwd h, ?_⟩⟩
  · obtain ⟨N, hN⟩ := hbwd h
    exact ⟨N, _, hN N le_rfl⟩
  · obtain ⟨N, hN⟩ := hbwd h
    intro fuel val hval
    rcases Nat.le_total fuel N with hle | hle
    · have := GlobalGet_outcome_mono rt ic k fuel N _ hval hle
      rw [hN N le_rfl] at this
      cases this
    · rw [hN fuel hle] at hval
      cases hval

end LuaJitRemake

namespace LuaJitRemake

/-! ## Termination of the slow path -/

/-- From `check_metatable` without an `Index` metamethod one pass returns nil. -/
theorem slowPathRun_check_nil (rt : Runtime) (index : HeapString) (fuel : Nat)
    (base : TableRef) (h : (tableIndexMetamethod rt base).IsNil = true) :
    (slowPathRun rt index (fuel + 1) (Label.check_metatable base)).1 =
      some (Outcome.Return TValue.Nil) := by
  have hn := step_check_metatable_nil rt index base h
  rcases hst : slowPathStep rt index (Label.check_metatable base) with ⟨ev, l' | o⟩
  · rw [hst] at hn
    simp at hn
  · rw [hst] at hn
    simp only [Sum.inr.injEq] at hn
    subst hn
    rw [slowPathRun_succ_end rt index fuel _ ev _ hst]

/-- The link of the chain from a table whose raw lookup is nil with the bit set. -/
theorem chainNext_table (rt : Runtime) (index : HeapString) (t : TableRef)
    (h1 : (rawLookup rt t index).2 = true) (h2 : (rawLookup rt t index).1.IsNil = true)
    (h3 : (tableIndexMetamethod rt t).IsNil = false) :
    chainNext rt index (TValue.Table t) = some (tableIndexMetamethod rt t) := by
  simp [chainNext, h1, h2, h3]

/-- The link of the chain from a value that is neither a table nor a function. -/
theorem chainNext_other (rt : Runtime) (index : HeapString) (v : TValue)
    (hf : ∀ f, v ≠ TValue.Function f) (ht : ∀ t, v ≠ TValue.Table t)
    (h : (rt.GetMetamethodForValue v LuaMetamethodKind.Index).IsNil = false) :
    chainNext rt index v = some (rt.GetMetamethodForValue v LuaMetamethodKind.Index) := by
  cases v <;> first | exact absurd rfl (hf _) | exact absurd rfl (ht _) | simp [chainNext, h]

/-- The chain from `w` ends one link earlier than the chain from `v` when `w` follows `v`. -/
theorem chainAt_succ_none (rt : Runtime) (index : HeapString) (n : Nat) (v w : TValue)
    (hn : chainNext rt index v = some w) (h : chainAt rt index (n + 1) v = none) :
    chainAt rt index n w = none := by
  simpa [chainAt, hn] using h

/-- When the chain from `v` ends within `n` links, the slow path run from
`handle_metamethod` with metamethod `v` ends within `2 * n` passes. -/
theorem handle_metamethod_terminates (rt : Runtime) (index : HeapString) :
    ∀ (n : Nat) (v : TValue), chainAt rt index n v = none →
      ∀ (base : TableRef) (metamethodBase : TValue),
        ∃ out, (slowPathRun rt index (2 * n)
            (Label.handle_metamethod base metamethodBase v)).1 = some out ∧
          out.endsBytecode := by
  intro n
  induction n with
  | zero => intro v h; simp [chainAt] at h
  | succ n ih =>
    intro v h base mb
    have e2 : 2 * (n + 1) = (2 * n + 1) + 1 := by omega
    rw [e2]
    by_cases hf : ∃ f, v = TValue.Function f
    · obtain ⟨f, rfl⟩ := hf
      rw [slowPathRun_succ_end rt index _ _ _ _ (step_handle_function rt index base mb f)]
      exact ⟨_, rfl, Or.inr (Or.inl ⟨_, _, _, rfl⟩)⟩
    by_cases ht : ∃ t, v = TValue.Table t
    · obtain ⟨t, rfl⟩ := ht
      by_cases hc : (rawLookup rt t index).2 = false ∨ (rawLookup rt t index).1.IsNil = false
      · rw [slowPathRun_succ_end rt index _ _ _ _
          (step_handle_table_return rt index base mb t hc)]
        exact ⟨_, rfl, Or.inl ⟨_, rfl⟩⟩
      · have h1 : (rawLookup rt t index).2 = true := by
          cases hb : (rawLookup rt t index).2 <;> simp_all
        have h2 : (rawLookup rt t index).1.IsNil = true := by
          cases hb : (rawLookup rt t index).1.IsNil <;> simp_all
        rw [slowPathRun_succ_goto rt index _ _ _ _
          (step_handle_table_goto rt index base mb t h1 h2)]
        simp only
        cases h3 : (tableIndexMetamethod rt t).IsNil with
        | true =>
          rw [slowPathRun_check_nil rt index (2 * n) t h3]
          exact ⟨_, rfl, Or.inl ⟨_, rfl⟩⟩
        | false =>
          rw [slowPathRun_check_goto rt index (2 * n) t h3]
          exact ih _ (chainAt_succ_none rt index n _ _
            (chainNext_table rt index t h1 h2 h3) h) t (TValue.Table t)
    · have hf' : ∀ f, v ≠ TValue.Function f := fun f hv => hf ⟨f, hv⟩
      have ht' : ∀ t, v ≠ TValue.Table t := fun t hv => ht ⟨t, hv⟩
      cases h3 : (rt.GetMetamethodForValue v LuaMetamethodKind.Index).IsNil with
      | true =>
        rw [slowPathRun_succ_end rt index _ _ _ _
          (step_handle_other_error rt index base mb v hf' ht' h3)]
        exact ⟨_, rfl, Or.inr (Or.inr rfl)⟩
      | false =>
        rw [slowPathRun_succ_goto rt index _ _ _ _
          (step_handle_other_goto rt index base mb v hf' ht' h3)]
        simp only
        obtain ⟨out, ho, hk⟩ := ih _ (chainAt_succ_none rt index n _ _
          (chainNext_other rt index v hf' ht' h3) h) base v
        refine ⟨out, ?_, hk⟩
        rw [slowPathRun_mono rt index (2 * n) _ out ho (2 * n + 1) (by omega)]
        exact ho

/-- When the chain from a table whose raw lookup is nil with the bit set ends within `n`
links, the slow path run from `check_metatable` ends within `2 * n + 1` passes. -/
theorem check_metatable_terminates (rt : Runtime) (index : HeapString) (t : TableRef)
    (n : Nat) (h1 : (rawLookup rt t index).2 = true)
    (h2 : (rawLookup rt t index).1.IsNil = true)
    (hn : chainAt rt index n (TValue.Table t) = none) :
    ∃ out, (slowPathRun rt index (2 * n + 1) (Label.check_metatable t)).1 = some out ∧
      out.endsBytecode := by
  cases h3 : (tableIndexMetamethod rt t).IsNil with
  | true =>
    rw [slowPathRun_check_nil rt index (2 * n) _ h3]
    exact ⟨_, rfl, Or.inl ⟨_, rfl⟩⟩
  | false =>
    rw [slowPathRun_check_goto rt index (2 * n) _ h3]
    cases n with
    | zero => simp [chainAt] at hn
    | succ m =>
      obtain ⟨out, ho, hk⟩ := handle_metamethod_terminates rt index m _
        (chainAt_succ_none rt index m _ _ (chainNext_table rt index _ h1 h2 h3) hn)
        t (TValue.Table t)
      refine ⟨out, ?_, hk⟩
      rw [slowPathRun_mono rt index (2 * m) _ out ho (2 * (m + 1)) (by omega)]
      exact ho

/-- C6 as amended (lines 54-109): for every heap state in which the `Index` chain starting
at the global table is finite, every sound site and every string key `k`, the
`check_metatable` / `handle_metamethod` loop performs finitely many passes before the
bytecode returns a value, returns nil, calls a function metamethod or raises the error. -/
theorem globalGet_terminates_of_finite_chain (rt : Runtime) (ic : ICHandler)
    (k : HeapString) (hic : ICSound rt k ic) (hfin : ChainFinite rt k) :
    ∃ N, ∀ fuel, N ≤ fuel →
      ∃ out, (GlobalGet rt ic k fuel).outcome = some out ∧ out.endsBytecode := by
  obtain ⟨n, hn⟩ := hfin
  refine ⟨2 * n + 1, fun fuel hle => ?_⟩
  suffices hs : ∃ out, (GlobalGet rt ic k (2 * n + 1)).outcome = some out ∧
      out.endsBytecode by
    obtain ⟨out, ho, hk⟩ := hs
    exact ⟨out, GlobalGet_outcome_mono rt ic k _ fuel out ho hle, hk⟩
  have hraw := GlobalGetIC_result_of_sound rt ic rt.GetFEnvGlobalObject k hic
  by_cases hf : (GlobalGetIC rt ic rt.GetFEnvGlobalObject k).1.2 = false ∨
      (GlobalGetIC rt ic rt.GetFEnvGlobalObject k).1.1.IsNil = false
  · rw [GlobalGet_fast rt ic k _ hf]
    exact ⟨_, rfl, Or.inl ⟨_, rfl⟩⟩
  · have h1 : (GlobalGetIC rt ic rt.GetFEnvGlobalObject k).1.2 = true := by
      cases hb : (GlobalGetIC rt ic rt.GetFEnvGlobalObject k).1.2 <;> simp_all
    have h2 : (GlobalGetIC rt ic rt.GetFEnvGlobalObject k).1.1.IsNil = true := by
      cases hb : (GlobalGetIC rt ic rt.GetFEnvGlobalObject k).1.1.IsNil <;> simp_all
    rw [GlobalGet_slow rt ic k _ h1 h2]
    rw [hraw] at h1 h2
    exact check_metatable_terminates rt k _ n h1 h2 hn

/-- C6 as amended, witness: on the heap of `globalget_metatable.lua` the chain from the
global table ends after two links, and the bytecode ends for every budget of at least five
passes. -/
theorem globalGet_terminates_of_finite_chain_witness :
    ∃ N, ∀ fuel, N ≤ fuel →
      ∃ out, (GlobalGet heapIndexTable.toRuntime emptyIC "x" fuel).outcome = some out ∧
        out.endsBytecode :=
  globalGet_terminates_of_finite_chain heapIndexTable.toRuntime emptyIC "x"
    (emptyIC_sound _ _) ⟨2, by decide⟩

/-- The loop on the heap of `setmetatable(_G, {__index = _G})` never leaves its two
labels. -/
theorem cycle_never_ends :
    ∀ fuel : Nat,
      (slowPathRun heapIndexCycle.toRuntime "x" fuel (Label.check_metatable 1)).1 = none ∧
      (slowPathRun heapIndexCycle.toRuntime "x" fuel
        (Label.handle_metamethod 1 (TValue.Table 1) (TValue.Table 1))).1 = none := by
  intro fuel
  induction fuel with
  | zero => exact ⟨rfl, rfl⟩
  | succ n ih =>
    constructor
    · rw [slowPathRun_succ_goto heapIndexCycle.toRuntime "x" n (Label.check_metatable 1)
        (Label.handle_metamethod 1 (TValue.Table 1) (TValue.Table 1))
        [Event.GetMetatable 1, Event.GetMetamethodFromMetatable 2 LuaMetamethodKind.Index]
        (by decide)]
      exact ih.2
    · rw [slowPathRun_succ_goto heapIndexCycle.toRuntime "x" n
        (Label.handle_metamethod 1 (TValue.Table 1) (TValue.Table 1))
        (Label.check_metatable 1) [Event.PrepareGetById 1 "x"] (by decide)]
      exact ih.1

/-- C6, counterexample: after `setmetatable(_G, {__index = _G})` the `Index` metamethod of
the global table leads back to the global table; for a key absent from it the loop of
`GlobalGet("x")` alternates between `check_metatable` and `handle_metamethod` for ever: no
number of passes ends the bytecode. The site is sound and the bit of the global table is
set, as on a real heap. -/
theorem globalGet_cycle_counterexample :
    ICSound heapIndexCycle.toRuntime "x" emptyIC ∧
      MetatableBitSound heapIndexCycle.toRuntime "x" ∧
      ¬ ∃ fuel out, (GlobalGet heapIndexCycle.toRuntime emptyIC "x" fuel).outcome = some out := by
  refine ⟨emptyIC_sound _ _, exampleHeap_bit_sound heapIndexCycle "x" (by decide), ?_⟩
  rintro ⟨fuel, out, h⟩
  rw [GlobalGet_slow heapIndexCycle.toRuntime emptyIC "x" fuel (by decide) (by decide)] at h
  have hn : (slowPathRun heapIndexCycle.toRuntime "x" fuel
      (Label.check_metatable heapIndexCycle.toRuntime.GetFEnvGlobalObject)).1 = none :=
    (cycle_never_ends fuel).1
  simp only at h
  rw [hn] at h
  cases h

end LuaJitRemake

namespace LuaJitRemake

/-! ## Refinement of the Lua 5.1 reference definition -/

theorem luaIndex_table (rt : Runtime) (k : HeapString) (fuel : Nat) (t : TableRef) :
    luaIndex rt k (fuel + 1) (TValue.Table t) =
      if ¬ (rawget rt t k).IsNil then some (LuaResult.value (rawget rt t k))
      else if (tableIndexMetamethod rt t).IsNil then some (LuaResult.value TValue.Nil)
      else luaIndexVia (luaIndex rt k fuel) k (TValue.Table t) (tableIndexMetamethod rt t) :=
  rfl

theorem luaIndex_other (rt : Runtime) (k : HeapString) (fuel : Nat) (v : TValue)
    (ht : ∀ t, v ≠ TValue.Table t) :
    luaIndex rt k (fuel + 1) v =
      if (rt.GetMetamethodForValue v LuaMetamethodKind.Index).IsNil then some LuaResult.error
      else luaIndexVia (luaIndex rt k fuel) k v
        (rt.GetMetamethodForValue v LuaMetamethodKind.Index) := by
  cases v <;> first | exact absurd rfl (ht _) | rfl

theorem luaIndexVia_function (indexRec : TValue → Option LuaResult) (k : HeapString)
    (o : TValue) (f : FunctionRef) :
    luaIndexVia indexRec k o (TValue.Function f) =
      some (LuaResult.call f [o, TValue.String k]) := rfl

theorem luaIndexVia_other (indexRec : TValue → Option LuaResult) (k : HeapString)
    (o h : TValue) (hf : ∀ f, h ≠ TValue.Function f) :
    luaIndexVia indexRec k o h = indexRec h := by
  cases h <;> first | exact absurd rfl (hf _) | rfl

theorem luaIndexVia_mono (rec1 rec2 : TValue → Option LuaResult) (k : HeapString)
    (o h : TValue) (r : LuaResult) (hrec : ∀ v r, rec1 v = some r → rec2 v = some r)
    (hv : luaIndexVia rec1 k o h = some r) : luaIndexVia rec2 k o h = some r := by
  cases h <;> first | exact hv | exact hrec _ _ hv

/-- A finished evaluation of the reference definition is not changed by a larger budget. -/
theorem luaIndex_mono (rt : Runtime) (k : HeapString) :
    ∀ (fuel : Nat) (v : TValue) (r : LuaResult), luaIndex rt k fuel v = some r →
      luaIndex rt k (fuel + 1) v = some r := by
  intro fuel
  induction fuel with
  | zero => intro v r h; simp [luaIndex] at h
  | succ n ih =>
    intro v r h
    by_cases ht : ∃ t, v = TValue.Table t
    · obtain ⟨t, rfl⟩ := ht
      rw [luaIndex_table] at h ⊢
      split_ifs at h ⊢ with h1 h2 <;>
        first | exact h | exact luaIndexVia_mono _ _ k _ _ r ih h
    · have ht' : ∀ t, v ≠ TValue.Table t := fun t hv => ht ⟨t, hv⟩
      rw [luaIndex_other rt k _ v ht'] at h ⊢
      split_ifs at h ⊢ with h1 <;>
        first | exact h | exact luaIndexVia_mono _ _ k _ _ r ih h

/-- With the bit sound, a table whose bit is clear has no `Index` metamethod. -/
theorem tableIndexMetamethod_of_bit_clear (rt : Runtime) (k : HeapString)
    (hbit : MetatableBitSound rt k) (t : TableRef) (h : (rawLookup rt t k).2 = false) :
    tableIndexMetamethod rt t = TValue.Nil := by
  unfold tableIndexMetamethod
  by_cases hm : rt.GetMetatable t = 0
  · simp [hm]
  · have := hbit t hm
    simp only [rawLookup] at h
    rw [h] at this
    cases this

/-- The reference definition on a table for which the test of the bytecode succeeds (bit
clear or value not nil): the raw value. -/
theorem luaIndex_table_return (rt : Runtime) (k : HeapString) (hbit : MetatableBitSound rt k)
    (fuel : Nat) (t : TableRef)
    (h : (rawLookup rt t k).2 = false ∨ (rawLookup rt t k).1.IsNil = false) :
    luaIndex rt k (fuel + 1) (TValue.Table t) = some (LuaResult.value (rawLookup rt t k).1) := by
  rw [luaIndex_table]
  simp only [rawget]
  cases hn : (rawLookup rt t k).1.IsNil with
  | false => simp
  | true =>
    have hb : (rawLookup rt t k).2 = false := by
      rcases h with h | h
      · exact h
      · rw [hn] at h; cases h
    simp [tableIndexMetamethod_of_bit_clear rt k hbit t hb, TValue.IsNil, (isNil_iff _).mp hn]

/-- The slow path refines the reference definition, pass for pass: an outcome reached from
`handle_metamethod` is the observation of "if `h` is a function ... otherwise
`index(h, k)`", and an outcome reached from `check_metatable` on a table whose raw value is
nil is the observation of `index` on that table. -/
theorem slowPath_refines (rt : Runtime) (k : HeapString) (hbit : MetatableBitSound rt k) :
    ∀ fuel : Nat,
      (∀ (base : TableRef) (mb h : TValue) (out : Outcome),
        (slowPathRun rt k fuel (Label.handle_metamethod base mb h)).1 = some out →
        ∃ r, out.toLuaResult = some r ∧ luaIndexVia (luaIndex rt k fuel) k mb h = some r) ∧
      (∀ (t : TableRef) (out : Outcome), (rawLookup rt t k).1.IsNil = true →
        (slowPathRun rt k fuel (Label.check_metatable t)).1 = some out →
        ∃ r, out.toLuaResult = some r ∧ luaIndex rt k fuel (TValue.Table t) = some r) := by
  intro fuel
  induction fuel with
  | zero =>
    exact ⟨fun _ _ _ _ h => by simp [slowPathRun] at h,
      fun _ _ _ h => by simp [slowPathRun] at h⟩
  | succ n ih =>
    obtain ⟨ihH, ihC⟩ := ih
    constructor
    · intro base mb h out hrun
      by_cases hf : ∃ f, h = TValue.Function f
      · obtain ⟨f, rfl⟩ := hf
        rw [slowPathRun_succ_end rt k _ _ _ _ (step_handle_function rt k base mb f)] at hrun
        simp only [Option.some.injEq] at hrun
        subst hrun
        exact ⟨_, rfl, rfl⟩
      have hf' : ∀ f, h ≠ TValue.Function f := fun f hv => hf ⟨f, hv⟩
      rw [luaIndexVia_other _ k mb h hf']
      by_cases ht : ∃ t, h = TValue.Table t
      · obtain ⟨t, rfl⟩ := ht
        by_cases hc : (rawLookup rt t k).2 = false ∨ (rawLookup rt t k).1.IsNil = false
        · rw [slowPathRun_succ_end rt k _ _ _ _
            (step_handle_table_return rt k base mb t hc)] at hrun
          simp only [Option.some.injEq] at hrun
          subst hrun
          exact ⟨_, rfl, luaIndex_table_return rt k hbit n t hc⟩
        · have h1 : (rawLookup rt t k).2 = true := by
            cases hb : (rawLookup rt t k).2 <;> simp_all
          have h2 : (rawLookup rt t k).1.IsNil = true := by
            cases hb : (rawLookup rt t k).1.IsNil <;> simp_all
          rw [slowPathRun_succ_goto rt k _ _ _ _
            (step_handle_table_goto rt k base mb t h1 h2)] at hrun
          obtain ⟨r, hr, hl⟩ := ihC t out h2 hrun
          exact ⟨r, hr, luaIndex_mono rt k n _ r hl⟩
      · have ht' : ∀ t, h ≠ TValue.Table t := fun t hv => ht ⟨t, hv⟩
        rw [luaIndex_other rt k n h ht']
        cases h3 : (rt.GetMetamethodForValue h LuaMetamethodKind.Index).IsNil with
        | true =>
          rw [slowPathRun_succ_end rt k _ _ _ _
            (step_handle_other_error rt k base mb h hf' ht' h3)] at hrun
          simp only [Option.some.injEq] at hrun
          subst hrun
          exact ⟨_, rfl, by simp⟩
        | false =>
          rw [slowPathRun_succ_goto rt k _ _ _ _
            (step_handle_other_goto rt k base mb h hf' ht' h3)] at hrun
          obtain ⟨r, hr, hl⟩ := ihH base h _ out hrun
          exact ⟨r, hr, by simpa using hl⟩
    · intro t out hnil hrun
      rw [luaIndex_table]
      simp only [rawget, hnil, not_true_eq_false, if_false]
      cases h3 : (tableIndexMetamethod rt t).IsNil with
      | true =>
        rw [slowPathRun_check_nil rt k n t h3] at hrun
        simp only [Option.some.injEq] at hrun
        subst hrun
        exact ⟨_, rfl, by simp⟩
      | false =>
        rw [slowPathRun_check_goto rt k n t h3] at hrun
        obtain ⟨r, hr, hl⟩ := ihH t (TValue.Table t) _ out hrun
        exact ⟨r, hr, by simpa using hl⟩

/-- C7 (lines 12-110): for every heap state in which the `Index` chain starting at the
global table `G` is finite (the site being sound and the bit of a table with a metatable
set), `GlobalGet(k)` has the outcome of the Lua 5.1 reference definition `index(G, k)`:
the same returned value, the same call of `f` with the same arguments, or an error. Both
are evaluated with the same budget, any budget from `N` on. -/
theorem globalGet_refines_lua_index (rt : Runtime) (ic : ICHandler) (k : HeapString)
    (hic : ICSound rt k ic) (hbit : MetatableBitSound rt k) (hfin : ChainFinite rt k) :
    ∃ N, ∀ fuel, N ≤ fuel →
      ∃ out r, (GlobalGet rt ic k fuel).outcome = some out ∧ out.toLuaResult = some r ∧
        luaIndex rt k fuel (TValue.Table rt.GetFEnvGlobalObject) = some r := by
  obtain ⟨n, hn⟩ := hfin
  refine ⟨2 * n + 1, fun fuel hle => ?_⟩
  have hraw := GlobalGetIC_result_of_sound rt ic rt.GetFEnvGlobalObject k hic
  by_cases hf : (GlobalGetIC rt ic rt.GetFEnvGlobalObject k).1.2 = false ∨
      (GlobalGetIC rt ic rt.GetFEnvGlobalObject k).1.1.IsNil = false
  · obtain ⟨m, rfl⟩ : ∃ m, fuel = m + 1 := ⟨fuel - 1, by omega⟩
    rw [GlobalGet_fast rt ic k _ hf]
    rw [hraw] at hf ⊢
    exact ⟨_, _, rfl, rfl, luaIndex_table_return rt k hbit m _ hf⟩
  · have h1 : (GlobalGetIC rt ic rt.GetFEnvGlobalObject k).1.2 = true := by
      cases hb : (GlobalGetIC rt ic rt.GetFEnvGlobalObject k).1.2 <;> simp_all
    have h2 : (GlobalGetIC rt ic rt.GetFEnvGlobalObject k).1.1.IsNil = true := by
      cases hb : (GlobalGetIC rt ic rt.GetFEnvGlobalObject k).1.1.IsNil <;> simp_all
    rw [GlobalGet_slow rt ic k _ h1 h2]
    simp only
    rw [hraw] at h1 h2
    obtain ⟨out, ho, -⟩ := check_metatable_terminates rt k _ n h1 h2 hn
    have ho' : (slowPathRun rt k fuel (Label.check_metatable rt.GetFEnvGlobalObject)).1 =
        some out := by
      rw [slowPathRun_mono rt k (2 * n + 1) _ out ho fuel hle]
      exact ho
    obtain ⟨r, hr, hl⟩ := (slowPath_refines rt k hbit fuel).2 _ out h2 ho'
    exact ⟨out, r, ho', hr, hl⟩

/-- C7, witness: the heap of `globalget_metatable.lua`, whose chain from the global table
ends after two links. -/
theorem globalGet_refines_lua_index_witness :
    ∃ N, ∀ fuel, N ≤ fuel →
      ∃ out r, (GlobalGet heapIndexTable.toRuntime emptyIC "x" fuel).outcome = some out ∧
        out.toLuaResult = some r ∧
        luaIndex heapIndexTable.toRuntime "x" fuel
          (TValue.Table heapIndexTable.toRuntime.GetFEnvGlobalObject) = some r :=
  globalGet_refines_lua_index heapIndexTable.toRuntime emptyIC "x" (emptyIC_sound _ _)
    (exampleHeap_bit_sound heapIndexTable "x" (by decide)) ⟨2, by decide⟩

end LuaJitRemake

namespace LuaJitRemake

/-! ## The IC site across two executions -/

/-- The events of one pass of the slow path are no IC events. -/
theorem slowPathStep_no_ic_event (rt : Runtime) (index : HeapString) (l : Label) :
    ∀ e ∈ (slowPathStep rt index l).1, e.isICHit = false ∧ e.isICBody = false := by
  cases l with
  | check_metatable base =>
    simp only [slowPathStep]
    split_ifs <;> simp [Event.isICHit, Event.isICBody]
  | handle_metamethod base mb m =>
    cases m <;> simp only [slowPathStep] <;> (try split_ifs) <;>
      simp [Event.isICHit, Event.isICBody]

/-- The log of the slow path holds no IC event. -/
theorem slowPathRun_no_ic_event (rt : Runtime) (index : HeapString) :
    ∀ (fuel : Nat) (l : Label), ∀ e ∈ (slowPathRun rt index fuel l).2,
      e.isICHit = false ∧ e.isICBody = false := by
  intro fuel
  induction fuel with
  | zero => intro l e he; simp [slowPathRun] at he
  | succ n ih =>
    intro l e he
    have hstep := slowPathStep_no_ic_event rt index l
    rcases hs : slowPathStep rt index l with ⟨ev, l' | o⟩
    · rw [slowPathRun_succ_goto rt index n l l' ev hs] at he
      rw [hs] at hstep
      rcases List.mem_append.mp he with h | h
      · exact hstep e h
      · exact ih l' e h
    · rw [slowPathRun_succ_end rt index n l ev o hs] at he
      rw [hs] at hstep
      exact hstep e he

/-- The site left by an execution is the one left by `ic->Body`. -/
theorem GlobalGet_ic (rt : Runtime) (ic : ICHandler) (k : HeapString) (fuel : Nat) :
    (GlobalGet rt ic k fuel).ic = (GlobalGetIC rt ic rt.GetFEnvGlobalObject k).2.1 := by
  by_cases hf : (GlobalGetIC rt ic rt.GetFEnvGlobalObject k).1.2 = false ∨
      (GlobalGetIC rt ic rt.GetFEnvGlobalObject k).1.1.IsNil = false
  · rw [GlobalGet_fast rt ic k fuel hf]
  · have h1 : (GlobalGetIC rt ic rt.GetFEnvGlobalObject k).1.2 = true := by
      cases hb : (GlobalGetIC rt ic rt.GetFEnvGlobalObject k).1.2 <;> simp_all
    have h2 : (GlobalGetIC rt ic rt.GetFEnvGlobalObject k).1.1.IsNil = true := by
      cases hb : (GlobalGetIC rt ic rt.GetFEnvGlobalObject k).1.1.IsNil <;> simp_all
    rw [GlobalGet_slow rt ic k fuel h1 h2]

/-- The log of an execution is the log of `ic->Body` followed by events of the slow path. -/
theorem GlobalGet_trace (rt : Runtime) (ic : ICHandler) (k : HeapString) (fuel : Nat) :
    ∃ tr, (GlobalGet rt ic k fuel).trace =
        (GlobalGetIC rt ic rt.GetFEnvGlobalObject k).2.2 ++ tr ∧
      ∀ e ∈ tr, e.isICHit = false ∧ e.isICBody = false := by
  by_cases hf : (GlobalGetIC rt ic rt.GetFEnvGlobalObject k).1.2 = false ∨
      (GlobalGetIC rt ic rt.GetFEnvGlobalObject k).1.1.IsNil = false
  · rw [GlobalGet_fast rt ic k fuel hf]
    exact ⟨[], by simp, by simp⟩
  · have h1 : (GlobalGetIC rt ic rt.GetFEnvGlobalObject k).1.2 = true := by
      cases hb : (GlobalGetIC rt ic rt.GetFEnvGlobalObject k).1.2 <;> simp_all
    have h2 : (GlobalGetIC rt ic rt.GetFEnvGlobalObject k).1.1.IsNil = true := by
      cases hb : (GlobalGetIC rt ic rt.GetFEnvGlobalObject k).1.1.IsNil <;> simp_all
    rw [GlobalGet_slow rt ic k fuel h1 h2]
    exact ⟨_, rfl, slowPathRun_no_ic_event rt k fuel _⟩

/-- The outcome of an execution depends on the site only through the pair `ic->Body`
delivers. -/
theorem GlobalGet_outcome_congr (rt : Runtime) (ic ic' : ICHandler) (k : HeapString)
    (fuel : Nat)
    (h : (GlobalGetIC rt ic rt.GetFEnvGlobalObject k).1 =
      (GlobalGetIC rt ic' rt.GetFEnvGlobalObject k).1) :
    (GlobalGet rt ic k fuel).outcome = (GlobalGet rt ic' k fuel).outcome := by
  by_cases hf : (GlobalGetIC rt ic rt.GetFEnvGlobalObject k).1.2 = false ∨
      (GlobalGetIC rt ic rt.GetFEnvGlobalObject k).1.1.IsNil = false
  · rw [GlobalGet_fast rt ic k fuel hf, GlobalGet_fast rt ic' k fuel (by rw [← h]; exact hf), h]
  · have h1 : (GlobalGetIC rt ic rt.GetFEnvGlobalObject k).1.2 = true := by
      cases hb : (GlobalGetIC rt ic rt.GetFEnvGlobalObject k).1.2 <;> simp_all
    have h2 : (GlobalGetIC rt ic rt.GetFEnvGlobalObject k).1.1.IsNil = true := by
      cases hb : (GlobalGetIC rt ic rt.GetFEnvGlobalObject k).1.1.IsNil <;> simp_all
    rw [GlobalGet_slow rt ic k fuel h1 h2,
      GlobalGet_slow rt ic' k fuel (by rw [← h]; exact h1) (by rw [← h]; exact h2)]

/-- On a miss with a key in storage the body installs the effect built from the probe and
runs it. -/
theorem GlobalGetIC_miss_stored (rt : Runtime) (ic : ICHandler) (base : TableRef)
    (index : HeapString) (h : ic.find (rt.m_hiddenClass base) = none)
    (hk : (rt.PrepareGetById base index).m_icKind ≠ ICKind.MustBeNilButUncacheable) :
    ∃ e : ICEffect, GlobalGetIC rt ic base index =
      (e.run rt base, ic.Effect (rt.m_hiddenClass base) e,
        [Event.ICBody base index, Event.PrepareGetById base index,
          Event.ICInstall (rt.m_hiddenClass base) e]) := by
  cases hkind : (rt.PrepareGetById base index).m_icKind with
  | InlinedStorage =>
    exact ⟨{ kind := ICEffectKind.InlinedStorage, c_slot := (rt.PrepareGetById base index).m_slot,
             c_mayHaveMt := (rt.PrepareGetById base index).m_mayHaveMetatable },
      by unfold GlobalGetIC; simp only [h, hkind]⟩
  | OutlinedStorage =>
    exact ⟨{ kind := ICEffectKind.OutlinedStorage, c_slot := (rt.PrepareGetById base index).m_slot,
             c_mayHaveMt := (rt.PrepareGetById base index).m_mayHaveMetatable },
      by unfold GlobalGetIC; simp only [h, hkind]⟩
  | MustBeNilButUncacheable => exact absurd hkind hk

end LuaJitRemake

namespace LuaJitRemake

/-! ## The test driver -/

/-- After the body of the loop the compiled code block enters baseline code, and so does
every code block that did before. -/
theorem compileToBaseline_enters (env : DriverEnv) (module : ScriptModule) (heap : VMHeap)
    (ucb : UnlinkedCodeBlockRef) (cb : CodeBlockRef)
    (h : cb = env.GetCodeBlock ucb module.m_defaultGlobalObject ∨ entersBaselineCode heap cb) :
    entersBaselineCode (compileToBaseline env module heap ucb) cb := by
  by_cases hcb : cb = env.GetCodeBlock ucb module.m_defaultGlobalObject
  · subst hcb
    exact ⟨(deegen_baseline_jit_do_codegen env heap
        (env.GetCodeBlock ucb module.m_defaultGlobalObject)).2,
      by simp [compileToBaseline, deegen_baseline_jit_do_codegen, VMHeap.setExecutable],
      by simp [compileToBaseline, deegen_baseline_jit_do_codegen, VMHeap.setExecutable]⟩
  · rcases h with h | h
    · exact absurd h hcb
    · obtain ⟨bcb, h1, h2⟩ := h
      exact ⟨bcb,
        by simpa [compileToBaseline, deegen_baseline_jit_do_codegen, VMHeap.setExecutable, hcb]
          using h1,
        by simpa [compileToBaseline, deegen_baseline_jit_do_codegen, VMHeap.setExecutable, hcb]
          using h2⟩

/-- After the loop of lines 64-69 every code block of the list enters baseline code, and so
does every code block that did before. -/
theorem foldl_compileToBaseline_enters (env : DriverEnv) (module : ScriptModule) :
    ∀ (ucbs : List UnlinkedCodeBlockRef) (heap : VMHeap) (cb : CodeBlockRef),
      (cb ∈ ucbs.map (fun ucb => env.GetCodeBlock ucb module.m_defaultGlobalObject) ∨
        entersBaselineCode heap cb) →
      entersBaselineCode (ucbs.foldl (compileToBaseline env module) heap) cb := by
  intro ucbs
  induction ucbs with
  | nil =>
    intro heap cb h
    rcases h with h | h
    · simp at h
    · exact h
  | cons u us ih =>
    intro heap cb h
    simp only [List.foldl_cons]
    apply ih
    rcases h with h | h
    · simp only [List.map_cons, List.mem_cons] at h
      rcases h with h | h
      · exact Or.inr (compileToBaseline_enters env module heap u cb (Or.inl h))
      · exact Or.inl h
    · exact Or.inr (compileToBaseline_enters env module heap u cb (Or.inr h))

/-- C10 (lines 45-82): let `ParseLuaScriptOrFail` return the module and the heap.
With `ForceBaselineJit`, every code block obtained from the unlinked code blocks of the
module against its default global object has `m_bestEntryPoint` equal to the
`m_jitCodeEntry` of its baseline code block; in particular the executable of the default
entry-point function is a bytecode function with that property.
With `ForceInterpreter` the heap is the one the parser left: no `m_bestEntryPoint` is
modified. -/
theorem parseLuaScriptOrFail_entry_points (env : DriverEnv) (heap : VMHeap)
    (filename : String) (testOption : LuaTestOption) (module : ScriptModule) (heap' : VMHeap)
    (h : ParseLuaScriptOrFail env heap filename testOption = Except.ok (module, heap')) :
    (testOption = LuaTestOption.ForceBaselineJit →
      (∀ cb ∈ module.codeBlocks env, entersBaselineCode heap' cb) ∧
      (heap'.executables (heap'.m_executable module.m_defaultEntryPoint)).isBytecodeFunction
        = true ∧
      entersBaselineCode heap' (heap'.m_executable module.m_defaultEntryPoint)) ∧
    (testOption = LuaTestOption.ForceInterpreter →
      ∃ content, env.LoadFile filename = some content ∧
        heap' = (env.ParseLuaScript heap content).2 ∧
        ∀ cb, (heap'.executables cb).m_bestEntryPoint =
          ((env.ParseLuaScript heap content).2.executables cb).m_bestEntryPoint) := by
  unfold ParseLuaScriptOrFail at h
  split at h
  · cases h
  · split at h
    · cases h
    · rename_i content hload
      split at h
      rename_i res heap1 hp
      split at h
      · cases h
      · rename_i m hmod
        constructor
        · intro hopt
          rw [if_pos hopt] at h
          dsimp only at h
          split at h
          · cases h
          · rename_i hbc
            split at h
            · cases h
            · rename_i bcb hbcb
              split at h
              · rename_i hbest
                simp only [Except.ok.injEq, Prod.mk.injEq] at h
                obtain ⟨rfl, rfl⟩ := h
                refine ⟨fun cb hcb => ?_, ?_, ⟨bcb, hbcb, hbest⟩⟩
                · exact foldl_compileToBaseline_enters env m _ _ cb (Or.inl hcb)
                · simpa using hbc
              · cases h
        · intro hopt
          rw [if_neg (by rw [hopt]; decide)] at h
          simp only [Except.ok.injEq, Prod.mk.injEq] at h
          obtain ⟨rfl, rfl⟩ := h
          exact ⟨content, hload, by rw [hp], fun _ => by rw [hp]⟩

/-- C10, witness: the example driver on `luatests/fib.lua` with `ForceBaselineJit`; the code
blocks 10 and 11 of the module are entered at 1010 and 1011, the entries of their baseline
code blocks. -/
theorem parseLuaScriptOrFail_entry_points_witness :
    ∃ module heap',
      ParseLuaScriptOrFail exampleEnv exampleVMHeap "luatests/fib.lua"
        LuaTestOption.ForceBaselineJit = Except.ok (module, heap') ∧
      module.codeBlocks exampleEnv = [10, 11] ∧
      (heap'.executables 10).m_bestEntryPoint = 1010 ∧
      (heap'.executables 11).m_bestEntryPoint = 1011 ∧
      ∀ cb ∈ module.codeBlocks exampleEnv, entersBaselineCode heap' cb :=
  ⟨{ m_unlinkedCodeBlocks := [0, 1], m_defaultGlobalObject := 1, m_defaultEntryPoint := 5 },
    [0, 1].foldl (compileToBaseline exampleEnv
      { m_unlinkedCodeBlocks := [0, 1], m_defaultGlobalObject := 1, m_defaultEntryPoint := 5 })
      exampleVMHeap,
    rfl, rfl, rfl, rfl,
    ((parseLuaScriptOrFail_entry_points exampleEnv exampleVMHeap "luatests/fib.lua"
      LuaTestOption.ForceBaselineJit _ _ rfl).1 rfl).1⟩

end LuaJitRemake

namespace LuaJitRemake

/-! ## Options and stencil constants -/

/-- C11 (`deegen_options.h`, lines 19-36): the tier-up multiplier equals 20, the product of
the chosen constant `C = 1` and the rent-to-buy ratio 20; hence a function whose bytecode is
`L` bytes long tiers up exactly when more than `20 * L` bytes of bytecode have been
executed. -/
theorem tier_up_multiplier_is_twenty :
    x_interpreter_tier_up_threshold_bytecode_length_multiplier = 20 ∧
      x_interpreter_tier_up_threshold_bytecode_length_multiplier =
        x_tierUpConstantC * x_rentToBuyRatio ∧
      ∀ L executed : Nat, tiersUp L executed = true ↔ 20 * L < executed := by
  refine ⟨rfl, rfl, fun L executed => ?_⟩
  simp [tiersUp, x_interpreter_tier_up_threshold_bytecode_length_multiplier]

/-- C14 (`deegen_stencil_creator.h`, lines 205-208): the four name constants of
`DeegenStencilCodegenResult` are `deegen_do_codegen_fastpath`, `deegen_do_codegen_slowpath`,
`deegen_do_codegen_icpath` and `deegen_do_codegen_datasec`; they are four and pairwise
distinct. -/
theorem codegen_func_names :
    x_fastPathCodegenFuncName = "deegen_do_codegen_fastpath" ∧
      x_slowPathCodegenFuncName = "deegen_do_codegen_slowpath" ∧
      x_icPathCodegenFuncName = "deegen_do_codegen_icpath" ∧
      x_dataSecCodegenFuncName = "deegen_do_codegen_datasec" ∧
      codegenFuncNames.length = 4 ∧ codegenFuncNames.Nodup := by
  refine ⟨rfl, rfl, rfl, rfl, rfl, ?_⟩
  decide

end LuaJitRemake

namespace LuaJitRemake

/-! ## Size of a shared constant data object -/

/-- The weight the loop adds for an element: 1 for a byte, 8 for a pointer. -/
theorem addElementSize_eq (res : Nat) (e : Element) :
    addElementSize res e =
      (res + ((if e.m_kind = ElementKind.ByteConstant then 1 else 0) +
        8 * (if e.m_kind = ElementKind.PointerWithAddend then 1 else 0))) % 2 ^ 64 := by
  unfold addElementSize
  cases e.m_kind <;> simp

/-- The loop computes the weighted count of the elements, in `size_t` arithmetic. -/
theorem foldl_addElementSize (es : List Element) :
    ∀ acc : Nat, acc < 2 ^ 64 →
      es.foldl addElementSize acc =
        (acc + (countKind ElementKind.ByteConstant es +
          8 * countKind ElementKind.PointerWithAddend es)) % 2 ^ 64 := by
  induction es with
  | nil =>
    intro acc hacc
    simp only [countKind, List.countP_nil, List.foldl_nil, Nat.mul_zero, Nat.add_zero]
    exact (Nat.mod_eq_of_lt hacc).symm
  | cons e es ih =>
    intro acc hacc
    rw [List.foldl_cons, ih _ (by rw [addElementSize_eq]; exact Nat.mod_lt _ (by norm_num))]
    rw [addElementSize_eq, Nat.mod_add_mod]
    simp only [countKind, List.countP_cons, decide_eq_true_eq]
    congr 1
    ring

/-- Every element is a byte or a pointer. -/
theorem countKind_add (es : List Element) :
    countKind ElementKind.ByteConstant es + countKind ElementKind.PointerWithAddend es =
      es.length := by
  induction es with
  | nil => rfl
  | cons e es ih =>
    simp only [countKind, List.countP_cons, decide_eq_true_eq, List.length_cons] at ih ⊢
    cases h : e.m_kind <;> simp <;> omega

/-- Without wrap-around the loop computes the weighted count. -/
theorem trueSize_of_bound (obj : StencilSharedConstantDataObject)
    (hlen : 8 * obj.m_valueDefs.length < 2 ^ 64) :
    obj.ComputeTrueSizeWithoutPadding =
      countKind ElementKind.ByteConstant obj.m_valueDefs +
        8 * countKind ElementKind.PointerWithAddend obj.m_valueDefs := by
  unfold StencilSharedConstantDataObject.ComputeTrueSizeWithoutPadding
  rw [foldl_addElementSize _ 0 (by norm_num), Nat.zero_add]
  apply Nat.mod_eq_of_lt
  have := countKind_add obj.m_valueDefs
  omega

/-- C20 (lines 14-61): for every `StencilSharedConstantDataObject`, whose element vector is
small enough for eight times its length to be a `size_t` (as every vector in memory is),
`ComputeTrueSizeWithoutPadding` equals the number of `ByteConstant` elements plus 8 times
the number of `PointerWithAddend` elements of `m_valueDefs`; it is 0 for an empty element
list and additive over the concatenation of element lists. Without the bound the same
holds modulo `2 ^ 64`. -/
theorem computeTrueSizeWithoutPadding_counts (obj : StencilSharedConstantDataObject)
    (hlen : 8 * obj.m_valueDefs.length < 2 ^ 64) :
    obj.ComputeTrueSizeWithoutPadding =
        countKind ElementKind.ByteConstant obj.m_valueDefs +
          8 * countKind ElementKind.PointerWithAddend obj.m_valueDefs ∧
      (obj.m_valueDefs = [] → obj.ComputeTrueSizeWithoutPadding = 0) ∧
      (∀ xs ys : List Element, obj.m_valueDefs = xs ++ ys →
        obj.ComputeTrueSizeWithoutPadding =
          ({ obj with m_valueDefs := xs }).ComputeTrueSizeWithoutPadding +
            ({ obj with m_valueDefs := ys }).ComputeTrueSizeWithoutPadding) ∧
      (∀ other : StencilSharedConstantDataObject,
        other.ComputeTrueSizeWithoutPadding =
          (countKind ElementKind.ByteConstant other.m_valueDefs +
            8 * countKind ElementKind.PointerWithAddend other.m_valueDefs) % 2 ^ 64) := by
  refine ⟨trueSize_of_bound obj hlen, ?_, ?_, ?_⟩
  · intro h
    simp [StencilSharedConstantDataObject.ComputeTrueSizeWithoutPadding, h]
  · intro xs ys h
    have hx : 8 * xs.length < 2 ^ 64 := by
      rw [h, List.length_append] at hlen; omega
    have hy : 8 * ys.length < 2 ^ 64 := by
      rw [h, List.length_append] at hlen; omega
    rw [trueSize_of_bound obj hlen, trueSize_of_bound { obj with m_valueDefs := xs } hx,
      trueSize_of_bound { obj with m_valueDefs := ys } hy, h]
    simp only [countKind, List.countP_append]
    ring
  · intro other
    unfold StencilSharedConstantDataObject.ComputeTrueSizeWithoutPadding
    rw [foldl_addElementSize _ 0 (by norm_num), Nat.zero_add]

/-- C20, witness: an object of two bytes and one pointer has true size `2 + 8 * 1`. -/
theorem computeTrueSizeWithoutPadding_counts_witness :
    ({ StencilSharedConstantDataObject.new with
        m_valueDefs := [byteElement 7, pointerElement 100 4, byteElement 9] }
      ).ComputeTrueSizeWithoutPadding = 2 + 8 * 1 :=
  (computeTrueSizeWithoutPadding_counts
    { StencilSharedConstantDataObject.new with
      m_valueDefs := [byteElement 7, pointerElement 100 4, byteElement 9] }
    (by decide)).1

end LuaJitRemake

namespace LuaJitRemake

/-! ## Walking the chain, link by link -/

/-- A label reached after `n` passes, followed by a pass that goes on, gives the label
reached after `n + 1` passes. -/
theorem labelAfter_succ_of_step (rt : Runtime) (index : HeapString) :
    ∀ (n : Nat) (l0 l l' : Label) (ev : List Event), labelAfter rt index n l0 = some l →
      slowPathStep rt index l = (ev, Sum.inl l') → labelAfter rt index (n + 1) l0 = some l' := by
  intro n
  induction n with
  | zero =>
    intro l0 l l' ev h hs
    simp only [labelAfter, Option.some.injEq] at h
    subst h
    simp [labelAfter, hs]
  | succ n ih =>
    intro l0 l l' ev h hs
    rcases hs0 : slowPathStep rt index l0 with ⟨ev0, l1 | o⟩
    · simp only [labelAfter, hs0] at h
      have := ih l1 l l' ev h hs
      simp only [labelAfter, hs0]
      exact this
    · simp [labelAfter, hs0] at h

/-- The chain goes on from a reached label to the label its pass leads to. -/
theorem ChainReaches_step (rt : Runtime) (ic : ICHandler) (k : HeapString) (l l' : Label)
    (ev : List Event) (h : ChainReaches rt ic k l)
    (hs : slowPathStep rt k l = (ev, Sum.inl l')) : ChainReaches rt ic k l' := by
  obtain ⟨he, n, hn⟩ := h
  exact ⟨he, n + 1, labelAfter_succ_of_step rt k n _ l l' ev hn hs⟩

/-- When the chain reaches a label from which the slow path ends with `out` within `m`
passes, the bytecode ends with `out` for every sufficient budget. -/
theorem GlobalGet_outcome_of_reaches_end (rt : Runtime) (ic : ICHandler) (k : HeapString)
    (l : Label) (m : Nat) (out : Outcome) (h : ChainReaches rt ic k l)
    (hrun : (slowPathRun rt k m l).1 = some out) :
    ∃ N, ∀ fuel, N ≤ fuel → (GlobalGet rt ic k fuel).outcome = some out := by
  obtain ⟨he, n, hn⟩ := h
  refine ⟨n + m, fun fuel hle => ?_⟩
  apply GlobalGet_outcome_mono rt ic k (n + m) fuel _ _ hle
  rw [GlobalGet_outcome_of_reaches rt ic k l n m he hn]
  exact hrun

/-- The events of the pass from `check_metatable`: the metatable of `base` is asked for,
and, when there is one, its `Index` field. -/
theorem step_check_metatable_events (rt : Runtime) (index : HeapString) (base : TableRef) :
    (slowPathStep rt index (Label.check_metatable base)).1 =
      if rt.GetMetatable base ≠ 0 then
        [Event.GetMetatable base,
          Event.GetMetamethodFromMetatable (rt.GetMetatable base) LuaMetamethodKind.Index]
      else [Event.GetMetatable base] := by
  simp only [slowPathStep]
  split_ifs <;> rfl

/-- C15 (lines 83-94 and 55-70): when the `Index` metamethod reached by `GlobalGet(k)` is a
table `T`, the pass makes a fresh raw lookup of `k` in `T` and nothing else. If the value is
not nil or the structure of `T` has `mayHaveMetatable` clear, that value is the result.
Otherwise the chain is re-entered at `check_metatable` with `T` as base: the next pass asks
for the metatable of `T` and its `Index` field (not those of the global table), and goes on
to `handle_metamethod` with `metamethodBase = T` and the `Index` metamethod of `T`, or
returns nil when `T` has none. -/
theorem index_table_continues (rt : Runtime) (ic : ICHandler) (k : HeapString)
    (base : TableRef) (metamethodBase : TValue) (T : TableRef)
    (hreach : ChainReaches rt ic k
      (Label.handle_metamethod base metamethodBase (TValue.Table T))) :
    (slowPathStep rt k (Label.handle_metamethod base metamethodBase (TValue.Table T))).1 =
        [Event.PrepareGetById T k] ∧
    (((rawLookup rt T k).2 = false ∨ (rawLookup rt T k).1.IsNil = false) →
      ∃ N, ∀ fuel, N ≤ fuel →
        (GlobalGet rt ic k fuel).outcome = some (Outcome.Return (rawLookup rt T k).1)) ∧
    ((rawLookup rt T k).2 = true → (rawLookup rt T k).1.IsNil = true →
      ChainReaches rt ic k (Label.check_metatable T) ∧
      (slowPathStep rt k (Label.check_metatable T)).1 =
        (if rt.GetMetatable T ≠ 0 then
          [Event.GetMetatable T,
            Event.GetMetamethodFromMetatable (rt.GetMetatable T) LuaMetamethodKind.Index]
        else [Event.GetMetatable T]) ∧
      ((tableIndexMetamethod rt T).IsNil = false →
        ChainReaches rt ic k
          (Label.handle_metamethod T (TValue.Table T) (tableIndexMetamethod rt T))) ∧
      ((tableIndexMetamethod rt T).IsNil = true →
        ∃ N, ∀ fuel, N ≤ fuel →
          (GlobalGet rt ic k fuel).outcome = some (Outcome.Return TValue.Nil))) := by
  refine ⟨?_, ?_, ?_⟩
  · by_cases hc : (rawLookup rt T k).2 = false ∨ (rawLookup rt T k).1.IsNil = false
    · rw [step_handle_table_return rt k base metamethodBase T hc]
    · have h1 : (rawLookup rt T k).2 = true := by
        cases hb : (rawLookup rt T k).2 <;> simp_all
      have h2 : (rawLookup rt T k).1.IsNil = true := by
        cases hb : (rawLookup rt T k).1.IsNil <;> simp_all
      rw [step_handle_table_goto rt k base metamethodBase T h1 h2]
  · intro hc
    apply GlobalGet_outcome_of_reaches_end rt ic k _ 1 _ hreach
    rw [slowPathRun_succ_end rt k 0 _ _ _
      (step_handle_table_return rt k base metamethodBase T hc)]
  · intro h1 h2
    have hcheck : ChainReaches rt ic k (Label.check_metatable T) :=
      ChainReaches_step rt ic k _ _ _ hreach
        (step_handle_table_goto rt k base metamethodBase T h1 h2)
    refine ⟨hcheck, step_check_metatable_events rt k T, ?_, ?_⟩
    · intro h3
      exact ChainReaches_step rt ic k _ _ _ hcheck (step_check_metatable_goto rt k T h3)
    · intro h3
      exact GlobalGet_outcome_of_reaches_end rt ic k _ 1 _ hcheck
        (slowPathRun_check_nil rt k 0 T h3)

/-- C15, witness: on the heap of `globalget_metatable.lua` the `Index` metamethod of the
global table is the table at address 3, whose fresh raw lookup of `x` gives 42, the
result. -/
theorem index_table_continues_witness :
    ∃ N, ∀ fuel, N ≤ fuel →
      (GlobalGet heapIndexTable.toRuntime emptyIC "x" fuel).outcome =
        some (Outcome.Return (TValue.Double 42)) :=
  (index_table_continues heapIndexTable.toRuntime emptyIC "x" 1 (TValue.Table 1) 3
    ⟨by decide, 1, by decide⟩).2.1 (Or.inr (by decide))

/-- C16 (lines 55-70): for every table `base` reached by `GlobalGet(k)` at
`check_metatable`, that is a table whose raw lookup of `k` was nil with `mayHaveMetatable`
set, if the table has no metatable (`GetMetatable` yields a zero result) or its metatable
has a nil `Index` field, `GlobalGet(k)` returns nil and raises no error. -/
theorem table_without_index_returns_nil (rt : Runtime) (ic : ICHandler) (k : HeapString)
    (base : TableRef) (hreach : ChainReaches rt ic k (Label.check_metatable base))
    (hno : rt.GetMetatable base = 0 ∨
      rt.GetMetamethodFromMetatable (rt.GetMetatable base) LuaMetamethodKind.Index =
        TValue.Nil) :
    (∃ N, ∀ fuel, N ≤ fuel →
      (GlobalGet rt ic k fuel).outcome = some (Outcome.Return TValue.Nil)) ∧
    ∀ fuel msg, (GlobalGet rt ic k fuel).outcome ≠ some (Outcome.ThrowError msg) := by
  have hnil : (tableIndexMetamethod rt base).IsNil = true := by
    unfold tableIndexMetamethod
    rcases hno with h | h
    · simp [h, TValue.IsNil]
    · by_cases hm : rt.GetMetatable base = 0
      · simp [hm, TValue.IsNil]
      · simp [hm, h, TValue.IsNil]
  have hend := GlobalGet_outcome_of_reaches_end rt ic k _ 1 _ hreach
    (slowPathRun_check_nil rt k 0 base hnil)
  refine ⟨hend, fun fuel msg hmsg => ?_⟩
  obtain ⟨N, hN⟩ := hend
  rcases Nat.le_total fuel N with hle | hle
  · have := GlobalGet_outcome_mono rt ic k fuel N _ hmsg hle
    rw [hN N le_rfl] at this
    cases this
  · rw [hN fuel hle] at hmsg
    cases hmsg

/-- C16, witness: the metatable of the global table defines no `__index`; reading the
absent global `x` returns nil. -/
theorem table_without_index_returns_nil_witness :
    ∃ N, ∀ fuel, N ≤ fuel →
      (GlobalGet heapNoIndex.toRuntime emptyIC "x" fuel).outcome =
        some (Outcome.Return TValue.Nil) :=
  (table_without_index_returns_nil heapNoIndex.toRuntime emptyIC "x" 1
    ⟨by decide, 0, rfl⟩ (Or.inr (by decide))).1

end LuaJitRemake

namespace LuaJitRemake

/-! ## The arguments of the metamethod call -/

/-- The label reached after `n + 1` passes is one pass away from the label reached after
`n` passes. -/
theorem labelAfter_succ_inv (rt : Runtime) (index : HeapString) :
    ∀ (n : Nat) (l0 l : Label), labelAfter rt index (n + 1) l0 = some l →
      ∃ l' ev, labelAfter rt index n l0 = some l' ∧
        slowPathStep rt index l' = (ev, Sum.inl l) := by
  intro n
  induction n with
  | zero =>
    intro l0 l h
    rcases hs : slowPathStep rt index l0 with ⟨ev, l1 | o⟩
    · simp only [labelAfter, hs, Option.some.injEq] at h
      subst h
      exact ⟨l0, ev, rfl, hs⟩
    · simp [labelAfter, hs] at h
  | succ n ih =>
    intro l0 l h
    rcases hs : slowPathStep rt index l0 with ⟨ev, l1 | o⟩
    · have h' : labelAfter rt index (n + 1) l1 = some l := by
        simpa [labelAfter, hs] using h
      obtain ⟨l', ev', hl', hs'⟩ := ih l1 l h'
      refine ⟨l', ev', ?_, hs'⟩
      simp only [labelAfter, hs]
      exact hl'
    · simp [labelAfter, hs] at h

/-- A pass that leads to `handle_metamethod`: the new `metamethodBase` is the object of the
label left, the new metamethod is the `Index` metamethod of that object, and the label left
is `check_metatable` or `handle_metamethod` on a value that is neither a table nor a
function. -/
theorem step_to_handle_metamethod (rt : Runtime) (index : HeapString) (l : Label)
    (ev : List Event) (base : TableRef) (mb m : TValue)
    (hs : slowPathStep rt index l = (ev, Sum.inl (Label.handle_metamethod base mb m))) :
    mb = l.object ∧ m = metatableIndex rt mb ∧
      ((∃ b, l = Label.check_metatable b) ∨
        (∃ b mb' v, l = Label.handle_metamethod b mb' v ∧ (∀ t, v ≠ TValue.Table t) ∧
          ∀ f, v ≠ TValue.Function f)) := by
  cases l with
  | check_metatable b =>
    simp only [slowPathStep] at hs
    split_ifs at hs with h1 h2 <;>
      simp only [Prod.mk.injEq, Sum.inl.injEq, Label.handle_metamethod.injEq, reduceCtorEq,
        and_false] at hs
    obtain ⟨-, -, rfl, rfl⟩ := hs
    refine ⟨rfl, ?_, Or.inl ⟨b, rfl⟩⟩
    simp [metatableIndex, tableIndexMetamethod, h1]
  | handle_metamethod b mb' v =>
    cases v <;> simp only [slowPathStep] at hs <;> (try split_ifs at hs) <;>
      simp only [Prod.mk.injEq, Sum.inl.injEq, Label.handle_metamethod.injEq,
        reduceCtorEq, and_false, false_and] at hs <;>
      (obtain ⟨-, -, rfl, rfl⟩ := hs
       exact ⟨rfl, rfl, Or.inr ⟨_, _, _, rfl, (fun _ hc => by cases hc),
         (fun _ hc => by cases hc)⟩⟩)

/-- A call made by the slow path is made at a label `handle_metamethod` whose metamethod
is the callee, with the arguments `(metamethodBase, index)`. -/
theorem slowPathRun_call (rt : Runtime) (index : HeapString) :
    ∀ (fuel : Nat) (l : Label) (f : FunctionRef) (args : List TValue)
      (c : ReturnContinuation),
      (slowPathRun rt index fuel l).1 = some (Outcome.MakeCall f args c) →
      ∃ n base mb,
        labelAfter rt index n l = some (Label.handle_metamethod base mb (TValue.Function f)) ∧
        args = [mb, TValue.String index] ∧
        c = ReturnContinuation.GlobalGetMetamethodCallContinuation := by
  intro fuel
  induction fuel with
  | zero => intro l f args c h; simp [slowPathRun] at h
  | succ n ih =>
    intro l f args c h
    rcases hs : slowPathStep rt index l with ⟨ev, l' | o⟩
    · rw [slowPathRun_succ_goto rt index n l l' ev hs] at h
      obtain ⟨m, base, mb, hl, hv⟩ := ih l' f args c h
      refine ⟨m + 1, base, mb, ?_, hv⟩
      simp [labelAfter, hs, hl]
    · rw [slowPathRun_succ_end rt index n l ev o hs] at h
      simp only [Option.some.injEq] at h
      subst h
      cases l with
      | check_metatable base =>
        have := step_check_metatable_end rt index base ev _ hs
        cases this
      | handle_metamethod base mb m =>
        cases m <;> simp only [slowPathStep] at hs <;> (try split_ifs at hs) <;>
          simp only [Prod.mk.injEq, Sum.inr.injEq, Outcome.MakeCall.injEq, reduceCtorEq,
            and_false, false_and] at hs
        obtain ⟨-, rfl, rfl, -⟩ := hs
        exact ⟨0, base, mb, rfl, rfl, by cases c; rfl⟩

/-- C17 (lines 59-82 and 97-108): when `GlobalGet(k)` ends by calling a function metamethod
`f`, the arguments are exactly `(metamethodBase, k)`: the second is the original string
key `k`, and the first is the object whose metatable supplied `f` as `Index` metamethod at
that point of the chain. That object is the object of a label the chain reached: a table at
`check_metatable` (the global table at depth 0, or a table `T` entered through an `__index`
table), or a value that is neither a table nor a function, whose own `Index` metamethod was
consulted. -/
theorem metamethod_call_arguments (rt : Runtime) (ic : ICHandler) (k : HeapString)
    (fuel : Nat) (f : FunctionRef) (args : List TValue) (c : ReturnContinuation)
    (h : (GlobalGet rt ic k fuel).outcome = some (Outcome.MakeCall f args c)) :
    ∃ mb, args = [mb, TValue.String k] ∧
      c = ReturnContinuation.GlobalGetMetamethodCallContinuation ∧
      metatableIndex rt mb = TValue.Function f ∧
      ∃ l, ChainReaches rt ic k l ∧ l.object = mb ∧
        ((∃ b, l = Label.check_metatable b) ∨
          (∃ b mb' v, l = Label.handle_metamethod b mb' v ∧ (∀ t, v ≠ TValue.Table t) ∧
            ∀ g, v ≠ TValue.Function g)) := by
  by_cases hf : (GlobalGetIC rt ic rt.GetFEnvGlobalObject k).1.2 = false ∨
      (GlobalGetIC rt ic rt.GetFEnvGlobalObject k).1.1.IsNil = false
  · rw [GlobalGet_fast rt ic k fuel hf] at h
    simp at h
  · have h1 : (GlobalGetIC rt ic rt.GetFEnvGlobalObject k).1.2 = true := by
      cases hb : (GlobalGetIC rt ic rt.GetFEnvGlobalObject k).1.2 <;> simp_all
    have h2 : (GlobalGetIC rt ic rt.GetFEnvGlobalObject k).1.1.IsNil = true := by
      cases hb : (GlobalGetIC rt ic rt.GetFEnvGlobalObject k).1.1.IsNil <;> simp_all
    have he : entersSlowPath rt ic k = true := by simp [entersSlowPath, h1, h2]
    rw [GlobalGet_slow rt ic k fuel h1 h2] at h
    obtain ⟨n, base, mb, hl, hargs, hc⟩ := slowPathRun_call rt k fuel _ f args c h
    cases n with
    | zero => simp [labelAfter] at hl
    | succ n =>
      obtain ⟨l', ev, hl', hs⟩ := labelAfter_succ_inv rt k n _ _ hl
      obtain ⟨hmb, hm, hkind⟩ := step_to_handle_metamethod rt k l' ev base mb _ hs
      exact ⟨mb, hargs, hc, hm.symm, l', ⟨he, n, hl'⟩, hmb.symm, hkind⟩

/-- C17, witness: the global table has no `x`, its `__index` is the table at address 3,
which has no `x` either and whose metatable has the function at address 9 as `__index`:
the function is called with the table at address 3, not the global table, and `"x"`. -/
theorem metamethod_call_arguments_witness :
    (GlobalGet heapIndexTableFunction.toRuntime emptyIC "x" 4).outcome =
        some (Outcome.MakeCall 9 [TValue.Table 3, TValue.String "x"]
          ReturnContinuation.GlobalGetMetamethodCallContinuation) ∧
      ∃ mb, [TValue.Table 3, TValue.String "x"] = [mb, TValue.String "x"] ∧
        ReturnContinuation.GlobalGetMetamethodCallContinuation =
          ReturnContinuation.GlobalGetMetamethodCallContinuation ∧
        metatableIndex heapIndexTableFunction.toRuntime mb = TValue.Function 9 ∧
        ∃ l, ChainReaches heapIndexTableFunction.toRuntime emptyIC "x" l ∧ l.object = mb ∧
          ((∃ b, l = Label.check_metatable b) ∨
            (∃ b mb' v, l = Label.handle_metamethod b mb' v ∧ (∀ t, v ≠ TValue.Table t) ∧
              ∀ g, v ≠ TValue.Function g)) :=
  ⟨by decide,
    metamethod_call_arguments heapIndexTableFunction.toRuntime emptyIC "x" 4 9
      [TValue.Table 3, TValue.String "x"]
      ReturnContinuation.GlobalGetMetamethodCallContinuation (by decide)⟩

end LuaJitRemake

namespace LuaJitRemake

/-! ## Soundness of the recorded effects -/

/-- An effect installed for the outcome of a probe reads what the probe describes and
delivers the bit of the probe. -/
theorem effectOfInfo_run (rt : Runtime) (base : TableRef) (index : HeapString)
    (info : GetByIdICInfo) (e : ICEffect) (h : effectOfInfo info = some e) :
    e.run rt base = (GetById rt base index info, info.m_mayHaveMetatable) := by
  unfold effectOfInfo at h
  cases hk : info.m_icKind <;> simp only [hk, Option.some.injEq, reduceCtorEq] at h
  · subst h
    simp [ICEffect.run, GetById, hk]
  · subst h
    simp [ICEffect.run, GetById, hk]

/-- The site left by `ic->Body`: unchanged, or extended by the effect installed for the
probe of `base`. -/
theorem GlobalGetIC_site (rt : Runtime) (ic : ICHandler) (base : TableRef)
    (index : HeapString) :
    (GlobalGetIC rt ic base index).2.1 = ic ∨
      ∃ e, effectOfInfo (rt.PrepareGetById base index) = some e ∧
        (GlobalGetIC rt ic base index).2.1 = ic.Effect (rt.m_hiddenClass base) e := by
  cases hfind : ic.find (rt.m_hiddenClass base) with
  | some e => left; rw [GlobalGetIC_hit rt ic base index e hfind]
  | none =>
    unfold GlobalGetIC
    cases hk : (rt.PrepareGetById base index).m_icKind with
    | InlinedStorage =>
      right
      refine ⟨⟨ICEffectKind.InlinedStorage, (rt.PrepareGetById base index).m_slot,
        (rt.PrepareGetById base index).m_mayHaveMetatable⟩, ?_, ?_⟩
      · simp only [effectOfInfo, hk]
      · simp only [hfind, hk]
    | OutlinedStorage =>
      right
      refine ⟨⟨ICEffectKind.OutlinedStorage, (rt.PrepareGetById base index).m_slot,
        (rt.PrepareGetById base index).m_mayHaveMetatable⟩, ?_, ?_⟩
      · simp only [effectOfInfo, hk]
      · simp only [hfind, hk]
    | MustBeNilButUncacheable => left; simp only [hfind, hk]

/-- A site whose entries were recorded by the IC body is sound on every heap whose probes
depend only on the structure. -/
theorem ICSound_of_recorded (rt : Runtime) (k : HeapString) (probe : Nat → GetByIdICInfo)
    (ic : ICHandler) (hobey : ObeysProbe rt k probe) (hrec : ICRecordedFrom probe ic) :
    ICSound rt k ic := by
  intro e he base hkey
  have h := hrec e he
  rw [← hkey, ← hobey base] at h
  rw [effectOfInfo_run rt base k _ _ h]
  rfl

/-- An execution of the IC body keeps the entries of the site recorded by the body. -/
theorem ICRecordedFrom_GlobalGetIC (rt : Runtime) (k : HeapString)
    (probe : Nat → GetByIdICInfo) (ic : ICHandler) (base : TableRef)
    (hobey : ObeysProbe rt k probe) (hrec : ICRecordedFrom probe ic) :
    ICRecordedFrom probe (GlobalGetIC rt ic base k).2.1 := by
  rcases GlobalGetIC_site rt ic base k with h | ⟨e, he, h⟩
  · rw [h]; exact hrec
  · rw [h]
    unfold ICHandler.Effect
    split_ifs
    · intro x hx
      simp only [List.mem_append, List.mem_singleton] at hx
      rcases hx with hx | rfl
      · exact hrec x hx
      · simp only
        rw [← hobey base]
        exact he
    · exact hrec

/-- C18 (lines 19-46): assume the outcome of `PrepareGetById` (kind, slot,
`mayHaveMetatable`) depends only on the structure of the table and the key, and let the
entries of a `GlobalGet` site be recorded by the IC body. Then for every table whose
structure equals a recorded key, the pair delivered by the recorded effect (inline slot
`c_slot` of the table, or named property `c_slot` of its butterfly, together with the
captured bit) equals the pair the IC body computes by a full probe on that table; the site
stays so after an execution; and the outcome of `GlobalGet` is the one obtained at a site
with no entry, where the IC misses. -/
theorem recorded_effect_equals_probe (rt : Runtime) (k : HeapString)
    (probe : Nat → GetByIdICInfo) (ic : ICHandler) (hobey : ObeysProbe rt k probe)
    (hrec : ICRecordedFrom probe ic) :
    (∀ e ∈ ic.entries, ∀ base : TableRef, rt.m_hiddenClass base = e.key →
      e.effect.run rt base = rawLookup rt base k ∧
      e.effect.run rt base =
        (GlobalGetIC rt { entries := [], capacity := 0 } base k).1) ∧
    (∀ fuel, ICRecordedFrom probe (GlobalGet rt ic k fuel).ic) ∧
    (∀ fuel, (GlobalGet rt ic k fuel).outcome =
      (GlobalGet rt { entries := [], capacity := ic.capacity } k fuel).outcome) := by
  have hsound := ICSound_of_recorded rt k probe ic hobey hrec
  have hempty : ∀ cap, ICSound rt k { entries := [], capacity := cap } := by
    intro cap e he
    simp at he
  refine ⟨fun e he base hkey => ⟨hsound e he base hkey, ?_⟩, fun fuel => ?_, fun fuel => ?_⟩
  · rw [GlobalGetIC_result_of_sound rt _ base k (hempty 0)]
    exact hsound e he base hkey
  · rw [GlobalGet_ic]
    exact ICRecordedFrom_GlobalGetIC rt k probe ic _ hobey hrec
  · apply GlobalGet_outcome_congr
    rw [GlobalGetIC_result_of_sound rt ic _ k hsound,
      GlobalGetIC_result_of_sound rt _ _ k (hempty ic.capacity)]

/-- The probes of `heapGlobalPresent` depend only on the structure. -/
theorem heapGlobalPresent_obeys :
    ObeysProbe heapGlobalPresent.toRuntime "x" heapGlobalPresentProbe := by
  intro base
  by_cases hb : base = 1
  · subst hb; rfl
  · have h1 : ¬ (1 = base) := fun h => hb h.symm
    simp [ExampleHeap.toRuntime, ExampleHeap.PrepareGetById, ExampleHeap.tableAt,
      heapGlobalPresent, heapGlobalPresentProbe, h1]

/-- The site left by the first execution on `heapGlobalPresent` holds the entry recorded by
the body. -/
theorem heapGlobalPresent_recorded :
    ICRecordedFrom heapGlobalPresentProbe
      (GlobalGet heapGlobalPresent.toRuntime emptyIC "x" 1).ic := by
  intro e he
  have hs : (GlobalGet heapGlobalPresent.toRuntime emptyIC "x" 1).ic.entries =
      [heapGlobalPresentEntry] := by decide
  rw [hs] at he
  simp only [List.mem_singleton] at he
  subst he
  rfl

/-- C18, witness: the global table holds `x = 42` in inline slot 1; the probe of its
structure (identity 101) is `(InlinedStorage, 1, false)`, and the site holds the effect the
first execution recorded. The effect delivers `(42, false)`, the pair of the probe. -/
theorem recorded_effect_equals_probe_witness :
    heapGlobalPresentEntry.effect.run heapGlobalPresent.toRuntime 1 =
        rawLookup heapGlobalPresent.toRuntime 1 "x" ∧
      rawLookup heapGlobalPresent.toRuntime 1 "x" = (TValue.Double 42, false) :=
  ⟨((recorded_effect_equals_probe heapGlobalPresent.toRuntime "x" heapGlobalPresentProbe
      (GlobalGet heapGlobalPresent.toRuntime emptyIC "x" 1).ic
      heapGlobalPresent_obeys heapGlobalPresent_recorded).1
      heapGlobalPresentEntry (by decide) 1 rfl).1,
    by decide⟩

end LuaJitRemake

namespace LuaJitRemake

/-! ## What the IC body installs -/

/-- A site that an execution leaves unchanged is left unchanged by any number of
executions. -/
theorem siteAfter_fixed (rt : Runtime) (k : HeapString) (fuel : Nat) (ic : ICHandler)
    (h : (GlobalGet rt ic k fuel).ic = ic) : ∀ n, siteAfter rt k fuel n ic = ic := by
  intro n
  induction n with
  | zero => rfl
  | succ n ih =>
    simp only [siteAfter]
    rw [h]
    exact ih

/-- C19 (lines 21-46): let the IC body of `GlobalGet(k)` run, the site having no entry for
the structure of the global table. The body calls `ic->Effect` exactly when
`PrepareGetById` reports `InlinedStorage` or `OutlinedStorage`, and the site is then the
old one extended by that effect. When it reports `MustBeNilButUncacheable` the body returns
`(nil, mayHaveMetatable as observed)` and leaves the recorded entries of the site
unchanged; so after any number of executions the site is still the same, and each of them
runs the body again: an absent global never becomes cached by this site. -/
theorem ic_body_installs_iff (rt : Runtime) (ic : ICHandler) (k : HeapString)
    (hmiss : ic.find (rt.m_hiddenClass rt.GetFEnvGlobalObject) = none) :
    ((∃ e, Event.ICInstall (rt.m_hiddenClass rt.GetFEnvGlobalObject) e ∈
        (GlobalGetIC rt ic rt.GetFEnvGlobalObject k).2.2) ↔
      ((rt.PrepareGetById rt.GetFEnvGlobalObject k).m_icKind = ICKind.InlinedStorage ∨
        (rt.PrepareGetById rt.GetFEnvGlobalObject k).m_icKind = ICKind.OutlinedStorage)) ∧
    ((rt.PrepareGetById rt.GetFEnvGlobalObject k).m_icKind ≠ ICKind.MustBeNilButUncacheable →
      ∃ e, effectOfInfo (rt.PrepareGetById rt.GetFEnvGlobalObject k) = some e ∧
        (GlobalGetIC rt ic rt.GetFEnvGlobalObject k).2.1 =
          ic.Effect (rt.m_hiddenClass rt.GetFEnvGlobalObject) e) ∧
    ((rt.PrepareGetById rt.GetFEnvGlobalObject k).m_icKind = ICKind.MustBeNilButUncacheable →
      (GlobalGetIC rt ic rt.GetFEnvGlobalObject k).1 =
        (TValue.Nil, (rt.PrepareGetById rt.GetFEnvGlobalObject k).m_mayHaveMetatable) ∧
      (GlobalGetIC rt ic rt.GetFEnvGlobalObject k).2.1 = ic ∧
      ∀ fuel n, siteAfter rt k fuel n ic = ic ∧
        Event.ICBody rt.GetFEnvGlobalObject k ∈
          (GlobalGet rt (siteAfter rt k fuel n ic) k fuel).trace) := by
  refine ⟨?_, ?_, ?_⟩
  · cases hk : (rt.PrepareGetById rt.GetFEnvGlobalObject k).m_icKind with
    | InlinedStorage =>
      obtain ⟨e, he⟩ := GlobalGetIC_miss_stored rt ic _ k hmiss (by rw [hk]; decide)
      constructor
      · intro _; exact Or.inl rfl
      · intro _; exact ⟨e, by rw [he]; simp⟩
    | OutlinedStorage =>
      obtain ⟨e, he⟩ := GlobalGetIC_miss_stored rt ic _ k hmiss (by rw [hk]; decide)
      constructor
      · intro _; exact Or.inr rfl
      · intro _; exact ⟨e, by rw [he]; simp⟩
    | MustBeNilButUncacheable =>
      rw [GlobalGetIC_miss_uncacheable rt ic _ k hmiss hk]
      simp
  · intro hk
    unfold GlobalGetIC
    cases hkind : (rt.PrepareGetById rt.GetFEnvGlobalObject k).m_icKind with
    | InlinedStorage =>
      exact ⟨⟨ICEffectKind.InlinedStorage,
        (rt.PrepareGetById rt.GetFEnvGlobalObject k).m_slot,
        (rt.PrepareGetById rt.GetFEnvGlobalObject k).m_mayHaveMetatable⟩,
        by simp only [effectOfInfo, hkind], by simp only [hmiss, hkind]⟩
    | OutlinedStorage =>
      exact ⟨⟨ICEffectKind.OutlinedStorage,
        (rt.PrepareGetById rt.GetFEnvGlobalObject k).m_slot,
        (rt.PrepareGetById rt.GetFEnvGlobalObject k).m_mayHaveMetatable⟩,
        by simp only [effectOfInfo, hkind], by simp only [hmiss, hkind]⟩
    | MustBeNilButUncacheable => exact absurd hkind hk
  · intro hk
    have hIC := GlobalGetIC_miss_uncacheable rt ic rt.GetFEnvGlobalObject k hmiss hk
    refine ⟨by rw [hIC], by rw [hIC], fun fuel n => ?_⟩
    have hfix : (GlobalGet rt ic k fuel).ic = ic := by rw [GlobalGet_ic, hIC]
    have hsite := siteAfter_fixed rt k fuel ic hfix n
    refine ⟨hsite, ?_⟩
    rw [hsite]
    obtain ⟨tr, htr, -⟩ := GlobalGet_trace rt ic k fuel
    rw [htr, hIC]
    simp

/-- C19, witness: on the heap of `globalget_metatable.lua` the global table has no `x`;
after three executions at a fresh site the site is still empty, and the fourth execution
runs the body again. -/
theorem ic_body_installs_iff_witness :
    siteAfter heapIndexTable.toRuntime "x" 2 3 emptyIC = emptyIC ∧
      Event.ICBody heapIndexTable.toRuntime.GetFEnvGlobalObject "x" ∈
        (GlobalGet heapIndexTable.toRuntime
          (siteAfter heapIndexTable.toRuntime "x" 2 3 emptyIC) "x" 2).trace :=
  ((ic_body_installs_iff heapIndexTable.toRuntime emptyIC "x" (by decide)).2.2
    (by decide)).2.2 2 3

end LuaJitRemake

namespace LuaJitRemake

/-! ## Table literals -/

/-- Adding a property keeps the inline capacity. -/
theorem addProperty_capacity (s : Structure) (k : HeapString) :
    (s.addProperty k).m_inlineNamedStorageCapacity = s.m_inlineNamedStorageCapacity := by
  unfold Structure.addProperty
  split_ifs <;> rfl

/-- Adding a property lists it and keeps the keys listed before. -/
theorem addProperty_keys (s : Structure) (k k' : HeapString) :
    k' ∈ (s.addProperty k).keys ↔ k' = k ∨ k' ∈ s.keys := by
  unfold Structure.addProperty
  split_ifs with h
  · constructor
    · exact Or.inr
    · rintro (rfl | h')
      · exact h
      · exact h'
  · simp only [List.mem_append, List.mem_singleton]
    tauto

/-- Adding the fields of a literal one by one keeps the inline capacity of the seed and
lists every field. -/
theorem foldl_addProperty (fields : List (HeapString × TValue)) :
    ∀ s : Structure,
      (fields.foldl (fun s f => s.addProperty f.1) s).m_inlineNamedStorageCapacity =
          s.m_inlineNamedStorageCapacity ∧
        ∀ k, k ∈ (fields.foldl (fun s f => s.addProperty f.1) s).keys ↔
          (k ∈ s.keys ∨ ∃ f ∈ fields, f.1 = k) := by
  induction fields with
  | nil => intro s; simp
  | cons f fs ih =>
    intro s
    simp only [List.foldl_cons]
    obtain ⟨h1, h2⟩ := ih (s.addProperty f.1)
    refine ⟨by rw [h1, addProperty_capacity], fun k => ?_⟩
    rw [h2 k, addProperty_keys]
    simp only [List.mem_cons, exists_eq_or_imp]
    constructor
    · rintro ((rfl | h) | h)
      · exact Or.inr (Or.inl rfl)
      · exact Or.inl h
      · exact Or.inr (Or.inr h)
    · rintro (h | h | h)
      · exact Or.inl (Or.inr h)
      · exact Or.inl (Or.inl h.symm)
      · exact Or.inr h

/-- C12 (test `TestTableSizeHint`, lines 167-196): for every table literal with `k` named
fields, `k` within the range of the optimal-inline-capacity array, the table created at
that allocation site has a structure whose `m_inlineNamedStorageCapacity` equals
`x_optimalInlineCapacityArray[k]`, and whose keys are the names of the fields. -/
theorem table_literal_inline_capacity (x_optimalInlineCapacityArray : List Nat)
    (fields : List (HeapString × TValue))
    (hk : fields.length < x_optimalInlineCapacityArray.length) :
    ∃ s, tableLiteralStructure x_optimalInlineCapacityArray fields = some s ∧
      s.m_inlineNamedStorageCapacity = x_optimalInlineCapacityArray[fields.length] ∧
      ∀ k, k ∈ s.keys ↔ ∃ f ∈ fields, f.1 = k := by
  unfold tableLiteralStructure
  rw [List.get?_eq_get hk]
  refine ⟨_, rfl, ?_, ?_⟩
  · rw [(foldl_addProperty fields _).1]
    rfl
  · intro k
    rw [(foldl_addProperty fields _).2 k]
    simp [Structure.initial]

/-- C12, witness: `t = {a=1, b=2, c=3, d=4}` has the capacity of entry 4 of the array and
`t2 = {a=1, b=2, c=3}` that of entry 3. -/
theorem table_literal_inline_capacity_witness :
    (∃ s, tableLiteralStructure exampleOptimalInlineCapacityArray
        [("a", TValue.Double 1), ("b", TValue.Double 2), ("c", TValue.Double 3),
          ("d", TValue.Double 4)] = some s ∧
      s.m_inlineNamedStorageCapacity = exampleOptimalInlineCapacityArray[4] ∧
      ∀ k, k ∈ s.keys ↔ ∃ f ∈ [("a", TValue.Double 1), ("b", TValue.Double 2),
        ("c", TValue.Double 3), ("d", TValue.Double 4)], f.1 = k) ∧
    (∃ s, tableLiteralStructure exampleOptimalInlineCapacityArray
        [("a", TValue.Double 1), ("b", TValue.Double 2), ("c", TValue.Double 3)] = some s ∧
      s.m_inlineNamedStorageCapacity = exampleOptimalInlineCapacityArray[3] ∧
      ∀ k, k ∈ s.keys ↔ ∃ f ∈ [("a", TValue.Double 1), ("b", TValue.Double 2),
        ("c", TValue.Double 3)], f.1 = k) :=
  ⟨table_literal_inline_capacity exampleOptimalInlineCapacityArray
      [("a", TValue.Double 1), ("b", TValue.Double 2), ("c", TValue.Double 3),
        ("d", TValue.Double 4)] (by decide),
    table_literal_inline_capacity exampleOptimalInlineCapacityArray
      [("a", TValue.Double 1), ("b", TValue.Double 2), ("c", TValue.Double 3)] (by decide)⟩

end LuaJitRemake

namespace LuaJitRemake

/-! ## Tail calls -/

/-- By contrast, nested ordinary calls use up the stack: twenty nested calls of a function
with a frame of 10 slots, each placed 10 slots above its caller, overflow 200 slots. -/
theorem ordinary_calls_overflow :
    (testStack exampleFixedProto).run (callChain exampleFixedProto 2 10 20) =
      Except.error CallError.StackOverflow := rfl

end LuaJitRemake

namespace LuaJitRemake

/-! ## Alignment and labels -/

theorem getAlignment_ok (obj : StencilSharedConstantDataObject)
    (h : obj.m_alignment ≠ x_sizeMax ∧ obj.m_alignment > 0) :
    obj.GetAlignment = Except.ok obj.m_alignment := by
  unfold StencilSharedConstantDataObject.GetAlignment
  rw [if_pos h]

theorem getAlignment_error (obj : StencilSharedConstantDataObject)
    (h : ¬ (obj.m_alignment ≠ x_sizeMax ∧ obj.m_alignment > 0)) :
    obj.GetAlignment = Except.error StencilFailure.ReleaseAssert := by
  unfold StencilSharedConstantDataObject.GetAlignment
  rw [if_neg h]

/-- With an accepted alignment `ComputeSizeWithPadding` returns the rounded size. -/
theorem computeSizeWithPadding_ok (obj : StencilSharedConstantDataObject)
    (h : obj.m_alignment ≠ x_sizeMax ∧ obj.m_alignment > 0) :
    obj.ComputeSizeWithPadding =
      Except.ok (sizeMul (sizeSub (sizeAdd obj.ComputeTrueSizeWithoutPadding
        obj.m_alignment) 1 / obj.m_alignment) obj.m_alignment) := by
  have h0 : obj.m_alignment ≠ 0 := by omega
  simp only [StencilSharedConstantDataObject.ComputeSizeWithPadding, getAlignment_ok obj h,
    sizeDiv, h0, if_false]

/-- With a rejected alignment `ComputeSizeWithPadding` fails the assertion. -/
theorem computeSizeWithPadding_error (obj : StencilSharedConstantDataObject)
    (h : ¬ (obj.m_alignment ≠ x_sizeMax ∧ obj.m_alignment > 0)) :
    obj.ComputeSizeWithPadding = Except.error StencilFailure.ReleaseAssert := by
  simp only [StencilSharedConstantDataObject.ComputeSizeWithPadding, getAlignment_error obj h]

/-- C23 (lines 40-46 and 63-70): `GetAlignment` returns `m_alignment` unchanged if and only
if `m_alignment` is neither the unset sentinel `2 ^ 64 - 1` nor 0, and fails its release
assertion otherwise. Consequently `ComputeSizeWithPadding` and `ComputeNumPaddingBytes`
fail the assertion on a default-constructed object, and on no object do they divide by
zero. -/
theorem getAlignment_iff (obj : StencilSharedConstantDataObject) :
    (obj.GetAlignment = Except.ok obj.m_alignment ↔
      (obj.m_alignment ≠ 2 ^ 64 - 1 ∧ obj.m_alignment ≠ 0)) ∧
    (obj.GetAlignment = Except.error StencilFailure.ReleaseAssert ↔
      ¬ (obj.m_alignment ≠ 2 ^ 64 - 1 ∧ obj.m_alignment ≠ 0)) ∧
    StencilSharedConstantDataObject.new.ComputeSizeWithPadding =
      Except.error StencilFailure.ReleaseAssert ∧
    StencilSharedConstantDataObject.new.ComputeNumPaddingBytes =
      Except.error StencilFailure.ReleaseAssert ∧
    obj.ComputeSizeWithPadding ≠ Except.error StencilFailure.DivisionByZero ∧
    obj.ComputeNumPaddingBytes ≠ Except.error StencilFailure.DivisionByZero := by
  have hx : x_sizeMax = 2 ^ 64 - 1 := rfl
  have hcond : (obj.m_alignment ≠ x_sizeMax ∧ obj.m_alignment > 0) ↔
      (obj.m_alignment ≠ 2 ^ 64 - 1 ∧ obj.m_alignment ≠ 0) := by
    rw [hx]
    constructor
    · rintro ⟨h1, h2⟩; exact ⟨h1, by omega⟩
    · rintro ⟨h1, h2⟩; exact ⟨h1, by omega⟩
  have hdiv : obj.ComputeSizeWithPadding ≠ Except.error StencilFailure.DivisionByZero := by
    by_cases h : obj.m_alignment ≠ x_sizeMax ∧ obj.m_alignment > 0
    · rw [computeSizeWithPadding_ok obj h]
      intro hc; cases hc
    · rw [computeSizeWithPadding_error obj h]
      intro hc; cases hc
  refine ⟨?_, ?_, rfl, rfl, hdiv, ?_⟩
  · rw [← hcond]
    by_cases h : obj.m_alignment ≠ x_sizeMax ∧ obj.m_alignment > 0
    · exact ⟨fun _ => h, fun _ => getAlignment_ok obj h⟩
    · rw [getAlignment_error obj h]
      exact ⟨(fun hc => by cases hc), (fun hc => absurd hc h)⟩
  · rw [← hcond]
    by_cases h : obj.m_alignment ≠ x_sizeMax ∧ obj.m_alignment > 0
    · rw [getAlignment_ok obj h]
      exact ⟨(fun hc => by cases hc), (fun hc => absurd h hc)⟩
    · exact ⟨fun _ => h, fun _ => getAlignment_error obj h⟩
  · unfold StencilSharedConstantDataObject.ComputeNumPaddingBytes
    intro hc
    split at hc
    · rename_i err herr
      simp only [Except.error.injEq] at hc
      subst hc
      exact hdiv herr
    · cases hc

/-- C28 (lines 40-47): `GetUniqueLabel` returns `m_uniqueLabel` unchanged if and only if it
differs from the unset sentinel `2 ^ 64 - 1`, and fails its release assertion otherwise. A
default-constructed object has the unset label, the unset alignment,
`m_shouldForwardDeclare = false` and an empty element list, so `GetUniqueLabel` fails on
it. -/
theorem getUniqueLabel_iff (obj : StencilSharedConstantDataObject) :
    (obj.GetUniqueLabel = Except.ok obj.m_uniqueLabel ↔ obj.m_uniqueLabel ≠ 2 ^ 64 - 1) ∧
    (obj.GetUniqueLabel = Except.error StencilFailure.ReleaseAssert ↔
      obj.m_uniqueLabel = 2 ^ 64 - 1) ∧
    StencilSharedConstantDataObject.new.m_uniqueLabel = 2 ^ 64 - 1 ∧
    StencilSharedConstantDataObject.new.m_alignment = 2 ^ 64 - 1 ∧
    StencilSharedConstantDataObject.new.m_shouldForwardDeclare = false ∧
    StencilSharedConstantDataObject.new.m_valueDefs = [] ∧
    StencilSharedConstantDataObject.new.GetUniqueLabel =
      Except.error StencilFailure.ReleaseAssert := by
  have hx : x_sizeMax = 2 ^ 64 - 1 := rfl
  refine ⟨?_, ?_, rfl, rfl, rfl, rfl, rfl⟩
  · unfold StencilSharedConstantDataObject.GetUniqueLabel
    rw [← hx]
    by_cases h : obj.m_uniqueLabel ≠ x_sizeMax
    · rw [if_pos h]
      exact ⟨fun _ => h, fun _ => rfl⟩
    · rw [if_neg h]
      exact ⟨(fun hc => by cases hc), (fun hc => absurd hc h)⟩
  · unfold StencilSharedConstantDataObject.GetUniqueLabel
    rw [← hx]
    by_cases h : obj.m_uniqueLabel ≠ x_sizeMax
    · rw [if_pos h]
      exact ⟨(fun hc => by cases hc), (fun hc => absurd hc h)⟩
    · rw [if_neg h]
      exact ⟨fun _ => not_not.mp h, fun _ => rfl⟩

end LuaJitRemake

namespace LuaJitRemake

/-! ## Padding -/

/-- Without wrap-around the rounding expression is the plain one over the naturals. -/
theorem padded_nowrap (s a : Nat) (ha : 0 < a) (hs : s + a - 1 < 2 ^ 64) :
    sizeMul (sizeSub (sizeAdd s a) 1 / a) a = (s + a - 1) / a * a := by
  have h1 : sizeSub (sizeAdd s a) 1 = s + a - 1 := by
    unfold sizeSub sizeAdd
    have hpow : (2 : Nat) ^ 64 = 18446744073709551616 := by norm_num
    rw [hpow] at hs ⊢
    omega
  rw [h1]
  unfold sizeMul
  apply Nat.mod_eq_of_lt
  exact lt_of_le_of_lt (Nat.div_mul_le_self _ _) hs

/-- The plain rounding expression is the least multiple of `a` that is at least `s`. -/
theorem roundUp_least (s a : Nat) (ha : 0 < a) :
    a ∣ (s + a - 1) / a * a ∧ s ≤ (s + a - 1) / a * a ∧
    (s + a - 1) / a * a < s + a ∧
    ∀ m, a ∣ m → s ≤ m → (s + a - 1) / a * a ≤ m := by
  have hdm := Nat.div_add_mod (s + a - 1) a
  have hml := Nat.mod_lt (s + a - 1) ha
  have hcomm : (s + a - 1) / a * a = a * ((s + a - 1) / a) := Nat.mul_comm _ _
  refine ⟨Dvd.intro_left _ rfl, by omega, by omega, ?_⟩
  rintro m ⟨k, rfl⟩ hsm
  rw [Nat.mul_comm a k]
  apply Nat.mul_le_mul_right
  apply (Nat.div_le_iff_le_mul_add_pred ha).mpr
  rw [Nat.mul_comm a k] at hsm
  have : k * a = a * k := Nat.mul_comm _ _
  omega

/-- The true size is a `size_t`. -/
theorem trueSize_lt (obj : StencilSharedConstantDataObject) :
    obj.ComputeTrueSizeWithoutPadding < 2 ^ 64 := by
  unfold StencilSharedConstantDataObject.ComputeTrueSizeWithoutPadding
  rw [foldl_addElementSize _ 0 (by norm_num)]
  exact Nat.mod_lt _ (by norm_num)

/-- When the rounding sum overflows, the rounded size is zero. -/
theorem padded_wrap (s a : Nat) (hs : s < 2 ^ 64) (ha : a < 2 ^ 64)
    (hw : 2 ^ 64 ≤ s + a - 1) :
    sizeMul (sizeSub (sizeAdd s a) 1 / a) a = 0 := by
  have h1 : sizeSub (sizeAdd s a) 1 < a := by
    unfold sizeSub sizeAdd
    have hpow : (2 : Nat) ^ 64 = 18446744073709551616 := by norm_num
    rw [hpow] at hs ha hw ⊢
    omega
  rw [Nat.div_eq_of_lt h1]
  unfold sizeMul
  simp

/-- C21 (lines 63-68): for every object with a set alignment `a > 0` and true size `s` such
that `s + a - 1 < 2 ^ 64`, `ComputeSizeWithPadding` returns the least multiple of `a` that
is greater than or equal to `s`. -/
theorem computeSizeWithPadding_least (obj : StencilSharedConstantDataObject)
    (hset : obj.m_alignment ≠ 2 ^ 64 - 1) (ha : 0 < obj.m_alignment)
    (hs : obj.ComputeTrueSizeWithoutPadding + obj.m_alignment - 1 < 2 ^ 64) :
    ∃ r, obj.ComputeSizeWithPadding = Except.ok r ∧
      obj.m_alignment ∣ r ∧ obj.ComputeTrueSizeWithoutPadding ≤ r ∧
      ∀ m, obj.m_alignment ∣ m → obj.ComputeTrueSizeWithoutPadding ≤ m → r ≤ m := by
  have hacc : obj.m_alignment ≠ x_sizeMax ∧ obj.m_alignment > 0 := ⟨hset, ha⟩
  refine ⟨_, computeSizeWithPadding_ok obj hacc, ?_⟩
  rw [padded_nowrap _ _ ha hs]
  have h := roundUp_least obj.ComputeTrueSizeWithoutPadding obj.m_alignment ha
  exact ⟨h.1, h.2.1, h.2.2.2⟩

/-- Instance of C21: three bytes at alignment 8 are padded to 8. -/
theorem computeSizeWithPadding_least_witness :
    (bytesObject 3 8).ComputeTrueSizeWithoutPadding = 3 ∧
    (bytesObject 3 8).ComputeSizeWithPadding = Except.ok 8 ∧
    ∃ r, (bytesObject 3 8).ComputeSizeWithPadding = Except.ok r ∧
      (bytesObject 3 8).m_alignment ∣ r ∧ (bytesObject 3 8).ComputeTrueSizeWithoutPadding ≤ r ∧
      ∀ m, (bytesObject 3 8).m_alignment ∣ m →
        (bytesObject 3 8).ComputeTrueSizeWithoutPadding ≤ m → r ≤ m :=
  ⟨rfl, rfl, computeSizeWithPadding_least (bytesObject 3 8) (by decide) (by decide)
    (by decide)⟩

/-- C22 (lines 63-70): for every object with a set alignment `a > 0` and true size `s` such
that `s + a - 1 < 2 ^ 64`, `ComputeNumPaddingBytes` returns `p` with `0 ≤ p < a`,
`s + p = ComputeSizeWithPadding`, and `p = 0` exactly when `a` divides `s`. -/
theorem computeNumPaddingBytes_spec (obj : StencilSharedConstantDataObject)
    (hset : obj.m_alignment ≠ 2 ^ 64 - 1) (ha : 0 < obj.m_alignment)
    (hs : obj.ComputeTrueSizeWithoutPadding + obj.m_alignment - 1 < 2 ^ 64) :
    ∃ p, obj.ComputeNumPaddingBytes = Except.ok p ∧ 0 ≤ p ∧ p < obj.m_alignment ∧
      obj.ComputeSizeWithPadding = Except.ok (obj.ComputeTrueSizeWithoutPadding + p) ∧
      (p = 0 ↔ obj.m_alignment ∣ obj.ComputeTrueSizeWithoutPadding) := by
  have hacc : obj.m_alignment ≠ x_sizeMax ∧ obj.m_alignment > 0 := ⟨hset, ha⟩
  have hok := computeSizeWithPadding_ok obj hacc
  rw [padded_nowrap _ _ ha hs] at hok
  obtain ⟨hdvd, hle, hlt, hleast⟩ :=
    roundUp_least obj.ComputeTrueSizeWithoutPadding obj.m_alignment ha
  have hsub : sizeSub ((obj.ComputeTrueSizeWithoutPadding + obj.m_alignment - 1) /
      obj.m_alignment * obj.m_alignment) obj.ComputeTrueSizeWithoutPadding =
      (obj.ComputeTrueSizeWithoutPadding + obj.m_alignment - 1) /
        obj.m_alignment * obj.m_alignment - obj.ComputeTrueSizeWithoutPadding := by
    have hr : (obj.ComputeTrueSizeWithoutPadding + obj.m_alignment - 1) /
        obj.m_alignment * obj.m_alignment < 2 ^ 64 :=
      lt_of_le_of_lt (Nat.div_mul_le_self _ _) hs
    have hlt64 := trueSize_lt obj
    unfold sizeSub
    have hpow : (2 : Nat) ^ 64 = 18446744073709551616 := by norm_num
    rw [hpow] at hr hlt64 ⊢
    omega
  refine ⟨(obj.ComputeTrueSizeWithoutPadding + obj.m_alignment - 1) /
      obj.m_alignment * obj.m_alignment - obj.ComputeTrueSizeWithoutPadding, ?_,
    Nat.zero_le _, by omega, ?_, ?_⟩
  · simp only [StencilSharedConstantDataObject.ComputeNumPaddingBytes, hok, hsub]
  · rw [hok, Nat.add_sub_cancel' hle]
  · constructor
    · intro hp
      have heq : (obj.ComputeTrueSizeWithoutPadding + obj.m_alignment - 1) /
          obj.m_alignment * obj.m_alignment = obj.ComputeTrueSizeWithoutPadding := by omega
      rw [← heq]
      exact hdvd
    · intro hd
      have := hleast _ hd (Nat.le_refl _)
      omega

/-- Instance of C22: three bytes at alignment 8 take five padding bytes, and eight bytes
take none. -/
theorem computeNumPaddingBytes_spec_witness :
    (bytesObject 3 8).ComputeNumPaddingBytes = Except.ok 5 ∧
    (bytesObject 8 8).ComputeNumPaddingBytes = Except.ok 0 ∧
    ∃ p, (bytesObject 3 8).ComputeNumPaddingBytes = Except.ok p ∧ 0 ≤ p ∧
      p < (bytesObject 3 8).m_alignment ∧
      (bytesObject 3 8).ComputeSizeWithPadding =
        Except.ok ((bytesObject 3 8).ComputeTrueSizeWithoutPadding + p) ∧
      (p = 0 ↔ (bytesObject 3 8).m_alignment ∣
        (bytesObject 3 8).ComputeTrueSizeWithoutPadding) :=
  ⟨rfl, rfl, computeNumPaddingBytes_spec (bytesObject 3 8) (by decide) (by decide)
    (by decide)⟩

end LuaJitRemake

namespace LuaJitRemake

/-- A `size_t` subtraction whose subtrahend is not larger does not wrap. -/
theorem sizeSub_of_le (x y : Nat) (hx : x < 2 ^ 64) (hle : y ≤ x) : sizeSub x y = x - y := by
  unfold sizeSub
  have hpow : (2 : Nat) ^ 64 = 18446744073709551616 := by norm_num
  rw [hpow] at hx ⊢
  omega

/-- A `size_t` subtraction from zero wraps around. -/
theorem sizeSub_zero_left (y : Nat) (hy : y < 2 ^ 64) (hpos : 0 < y) :
    sizeSub 0 y = 2 ^ 64 - y := by
  unfold sizeSub
  have hpow : (2 : Nat) ^ 64 = 18446744073709551616 := by norm_num
  rw [hpow] at hy ⊢
  omega

/-- Refutation of C27 as stated: three byte elements at the accepted alignment
`2 ^ 64 - 2` have true size 3, the rounding sum `3 + (2 ^ 64 - 2)` wraps to 1, so
`ComputeSizeWithPadding` is 0, smaller than the true size, and the subtraction in
`ComputeNumPaddingBytes` wraps around to `2 ^ 64 - 3`. -/
theorem padding_wraps_counterexample :
    (bytesObject 3 (2 ^ 64 - 2)).GetAlignment = Except.ok (2 ^ 64 - 2) ∧
    (bytesObject 3 (2 ^ 64 - 2)).ComputeTrueSizeWithoutPadding = 3 ∧
    (bytesObject 3 (2 ^ 64 - 2)).ComputeSizeWithPadding = Except.ok 0 ∧
    (bytesObject 3 (2 ^ 64 - 2)).ComputeNumPaddingBytes = Except.ok (2 ^ 64 - 3) ∧
    (bytesObject 3 (2 ^ 64 - 2)).paddingWraps ∧
    ¬ (∀ obj : StencilSharedConstantDataObject,
        obj.m_alignment ≠ 0 → obj.m_alignment ≠ 2 ^ 64 - 1 → obj.m_alignment < 2 ^ 64 →
        ∃ r, obj.ComputeSizeWithPadding = Except.ok r ∧
          obj.ComputeTrueSizeWithoutPadding ≤ r) := by
  refine ⟨rfl, rfl, rfl, rfl, ⟨0, rfl, by decide⟩, ?_⟩
  intro hall
  obtain ⟨r, hr, hle⟩ := hall (bytesObject 3 (2 ^ 64 - 2)) (by decide) (by decide) (by decide)
  have h0 : (bytesObject 3 (2 ^ 64 - 2)).ComputeSizeWithPadding = Except.ok 0 := rfl
  rw [h0] at hr
  have hr0 : 0 = r := by injection hr
  subst hr0
  exact absurd hle (by decide)

/-- C27, amended (lines 46-70): for every alignment `a` accepted by `GetAlignment` and every
element list of true size `s`: if `s + a - 1 < 2 ^ 64` then `ComputeSizeWithPadding` is
greater than or equal to `s` and the subtraction in `ComputeNumPaddingBytes` does not
wrap around; otherwise `ComputeSizeWithPadding` is 0, smaller than `s`, and the
subtraction wraps around to `2 ^ 64 - s`. -/
theorem padding_no_wrap_iff (obj : StencilSharedConstantDataObject)
    (hne0 : obj.m_alignment ≠ 0) (hset : obj.m_alignment ≠ 2 ^ 64 - 1)
    (hsz : obj.m_alignment < 2 ^ 64) :
    (obj.ComputeTrueSizeWithoutPadding + obj.m_alignment - 1 < 2 ^ 64 →
      ∃ r, obj.ComputeSizeWithPadding = Except.ok r ∧
        obj.ComputeTrueSizeWithoutPadding ≤ r ∧
        obj.ComputeNumPaddingBytes = Except.ok (r - obj.ComputeTrueSizeWithoutPadding)) ∧
    (2 ^ 64 ≤ obj.ComputeTrueSizeWithoutPadding + obj.m_alignment - 1 →
      obj.ComputeSizeWithPadding = Except.ok 0 ∧ 0 < obj.ComputeTrueSizeWithoutPadding ∧
      obj.ComputeNumPaddingBytes =
        Except.ok (2 ^ 64 - obj.ComputeTrueSizeWithoutPadding)) ∧
    ((∃ r, obj.ComputeSizeWithPadding = Except.ok r ∧
        obj.ComputeTrueSizeWithoutPadding ≤ r) ↔
      obj.ComputeTrueSizeWithoutPadding + obj.m_alignment - 1 < 2 ^ 64) := by
  have ha : 0 < obj.m_alignment := Nat.pos_of_ne_zero hne0
  have hacc : obj.m_alignment ≠ x_sizeMax ∧ obj.m_alignment > 0 := ⟨hset, ha⟩
  have hok := computeSizeWithPadding_ok obj hacc
  have hlt64 := trueSize_lt obj
  have hno : obj.ComputeTrueSizeWithoutPadding + obj.m_alignment - 1 < 2 ^ 64 →
      ∃ r, obj.ComputeSizeWithPadding = Except.ok r ∧
        obj.ComputeTrueSizeWithoutPadding ≤ r ∧
        obj.ComputeNumPaddingBytes = Except.ok (r - obj.ComputeTrueSizeWithoutPadding) := by
    intro hs
    rw [padded_nowrap _ _ ha hs] at hok
    obtain ⟨-, hle, -, -⟩ := roundUp_least obj.ComputeTrueSizeWithoutPadding obj.m_alignment ha
    refine ⟨_, hok, hle, ?_⟩
    simp only [StencilSharedConstantDataObject.ComputeNumPaddingBytes, hok]
    rw [sizeSub_of_le _ _ (lt_of_le_of_lt (Nat.div_mul_le_self _ _) hs) hle]
  have hwrap : 2 ^ 64 ≤ obj.ComputeTrueSizeWithoutPadding + obj.m_alignment - 1 →
      obj.ComputeSizeWithPadding = Except.ok 0 ∧ 0 < obj.ComputeTrueSizeWithoutPadding ∧
      obj.ComputeNumPaddingBytes =
        Except.ok (2 ^ 64 - obj.ComputeTrueSizeWithoutPadding) := by
    intro hw
    rw [padded_wrap _ _ hlt64 hsz hw] at hok
    have hpos : 0 < obj.ComputeTrueSizeWithoutPadding := by omega
    refine ⟨hok, hpos, ?_⟩
    simp only [StencilSharedConstantDataObject.ComputeNumPaddingBytes, hok]
    rw [sizeSub_zero_left _ hlt64 hpos]
  refine ⟨hno, hwrap, ?_, ?_⟩
  · rintro ⟨r, hr, hle⟩
    by_contra hs
    obtain ⟨h0, hpos, -⟩ := hwrap (Nat.le_of_not_lt hs)
    rw [h0] at hr
    have hr0 : 0 = r := by injection hr
    omega
  · intro hs
    obtain ⟨r, hr, hle, -⟩ := hno hs
    exact ⟨r, hr, hle⟩

/-- Instance of the amended C27: three bytes at alignment 8 satisfy the bound and are padded
without wrap-around. -/
theorem padding_no_wrap_iff_witness :
    (bytesObject 3 8).ComputeTrueSizeWithoutPadding + (bytesObject 3 8).m_alignment - 1
      < 2 ^ 64 ∧
    ((bytesObject 3 8).ComputeTrueSizeWithoutPadding + (bytesObject 3 8).m_alignment - 1
        < 2 ^ 64 →
      ∃ r, (bytesObject 3 8).ComputeSizeWithPadding = Except.ok r ∧
        (bytesObject 3 8).ComputeTrueSizeWithoutPadding ≤ r ∧
        (bytesObject 3 8).ComputeNumPaddingBytes =
          Except.ok (r - (bytesObject 3 8).ComputeTrueSizeWithoutPadding)) :=
  ⟨by decide, (padding_no_wrap_iff (bytesObject 3 8) (by decide) (by decide) (by decide)).1⟩

end LuaJitRemake

namespace LuaJitRemake

/-! ## Label distances -/

/-- A name is a key of the association list exactly when the lookup finds a value. -/
theorem lookup_isSome_iff_key (m : List (String × Nat)) (varName : String) :
    (m.lookup varName).isSome = true ↔ varName ∈ m.map Prod.fst := by
  induction m with
  | nil => simp
  | cons p m ih =>
    obtain ⟨k, v⟩ := p
    by_cases hk : varName = k
    · subst hk
      simp [List.lookup_cons]
    · have hb : (varName == k) = false := by simpa using hk
      simp only [List.lookup_cons, hb, List.map_cons, List.mem_cons, hk, false_or]
      exact ih

/-- C24 (lines 280-284): `RetrieveLabelDistanceComputationResult(name)` returns the value
that `m_labelDistanceComputations` maps `name` to when `name` is a key of the map, fails
its release assertion if and only if `name` is not a key, and never modifies the map (nor
any other member). -/
theorem retrieveLabelDistanceComputationResult_spec (self : DeegenStencil)
    (varName : String) :
    (∀ v, self.m_labelDistanceComputations.lookup varName = some v →
      (self.RetrieveLabelDistanceComputationResult varName).1 = Except.ok v) ∧
    (varName ∈ self.m_labelDistanceComputations.map Prod.fst ↔
      ∃ v, self.m_labelDistanceComputations.lookup varName = some v ∧
        (self.RetrieveLabelDistanceComputationResult varName).1 = Except.ok v) ∧
    ((self.RetrieveLabelDistanceComputationResult varName).1 =
        Except.error StencilFailure.ReleaseAssert ↔
      varName ∉ self.m_labelDistanceComputations.map Prod.fst) ∧
    (self.RetrieveLabelDistanceComputationResult varName).1 ≠
      Except.error StencilFailure.InvalidIterator ∧
    (self.RetrieveLabelDistanceComputationResult varName).2 = self := by
  have hkey := lookup_isSome_iff_key self.m_labelDistanceComputations varName
  cases hl : self.m_labelDistanceComputations.lookup varName with
  | none =>
    have hnk : varName ∉ self.m_labelDistanceComputations.map Prod.fst := by
      rw [← hkey, hl]; simp
    have hres : self.RetrieveLabelDistanceComputationResult varName =
        (Except.error StencilFailure.ReleaseAssert, self) := by
      simp [DeegenStencil.RetrieveLabelDistanceComputationResult, labelCount, hl]
    rw [hres]
    refine ⟨?_, ?_, ?_, ?_, rfl⟩
    · intro v hv; cases hv
    · exact ⟨(fun h => absurd h hnk), (fun ⟨v, hv, _⟩ => by cases hv)⟩
    · exact ⟨(fun _ => hnk), (fun _ => rfl)⟩
    · intro hc; cases hc
  | some w =>
    have hk : varName ∈ self.m_labelDistanceComputations.map Prod.fst := by
      rw [← hkey, hl]; rfl
    have hres : self.RetrieveLabelDistanceComputationResult varName =
        (Except.ok w, self) := by
      simp [DeegenStencil.RetrieveLabelDistanceComputationResult, labelCount, hl]
    rw [hres]
    refine ⟨?_, ?_, ?_, ?_, rfl⟩
    · intro v hv
      cases hv
      rfl
    · exact ⟨(fun _ => ⟨w, rfl, rfl⟩), (fun _ => hk)⟩
    · exact ⟨(fun hc => by cases hc), (fun hc => absurd hk hc)⟩
    · intro hc; cases hc

end LuaJitRemake

namespace LuaJitRemake

/-! ## The for-pairs output check -/

/-- A section loop ends at the terminator with nothing left expected exactly when the lines
before the first terminator are a permutation of the expected set. -/
theorem checkSectionLoop_iff (terminator : String) (rest : List String) :
    ∀ (lines expected : List String),
      checkSectionLoop terminator lines expected = some (rest, []) ↔
        ∃ p, lines = p ++ terminator :: rest ∧ terminator ∉ p ∧ p.Perm expected := by
  intro lines
  induction lines with
  | nil =>
    intro expected
    simp [checkSectionLoop]
  | cons l ls ih =>
    intro expected
    by_cases hl : l = terminator
    · subst hl
      simp only [checkSectionLoop, if_true, Option.some.injEq, Prod.mk.injEq]
      constructor
      · rintro ⟨rfl, rfl⟩
        exact ⟨[], rfl, by simp, List.Perm.refl _⟩
      · rintro ⟨p, hp, hnot, hperm⟩
        cases p with
        | nil =>
          simp only [List.nil_append, List.cons.injEq, true_and] at hp
          exact ⟨hp, (List.nil_perm.mp hperm)⟩
        | cons x xs =>
          simp only [List.cons_append, List.cons.injEq] at hp
          exact absurd (List.mem_cons.mpr (Or.inl hp.1)) hnot
    · by_cases hm : l ∈ expected
      · simp only [checkSectionLoop, hl, if_false, hm, if_true]
        rw [ih (expected.erase l)]
        constructor
        · rintro ⟨p, hp, hnot, hperm⟩
          refine ⟨l :: p, by rw [hp]; rfl, ?_, ?_⟩
          · intro hc
            rcases List.mem_cons.mp hc with h | h
            · exact hl h.symm
            · exact hnot h
          · exact List.cons_perm_iff_perm_erase.mpr ⟨hm, hperm⟩
        · rintro ⟨p, hp, hnot, hperm⟩
          cases p with
          | nil =>
            simp only [List.nil_append, List.cons.injEq] at hp
            exact absurd hp.1 hl
          | cons x xs =>
            simp only [List.cons_append, List.cons.injEq] at hp
            obtain ⟨rfl, rfl⟩ := hp
            exact ⟨xs, rfl, (fun hc => hnot (List.mem_cons_of_mem _ hc)),
              (List.cons_perm_iff_perm_erase.mp hperm).2⟩
      · simp only [checkSectionLoop, hl, if_false, hm]
        constructor
        · intro hc; cases hc
        · rintro ⟨p, hp, hnot, hperm⟩
          cases p with
          | nil =>
            simp only [List.nil_append, List.cons.injEq] at hp
            exact absurd hp.1 hl
          | cons x xs =>
            simp only [List.cons_append, List.cons.injEq] at hp
            obtain ⟨rfl, rfl⟩ := hp
            exact absurd (hperm.subset (List.mem_cons_self _ _)) hm

/-- The last loop ends with nothing left expected exactly when the remaining lines are a
permutation of the expected set. -/
theorem checkLastLoop_iff :
    ∀ (lines expected : List String),
      checkLastLoop lines expected = some [] ↔ lines.Perm expected := by
  intro lines
  induction lines with
  | nil =>
    intro expected
    simp only [checkLastLoop, Option.some.injEq]
    exact ⟨(fun h => by rw [h]), (fun h => List.nil_perm.mp h)⟩
  | cons l ls ih =>
    intro expected
    by_cases hm : l ∈ expected
    · simp only [checkLastLoop, hm, if_true]
      rw [ih (expected.erase l)]
      exact ⟨(fun h => List.cons_perm_iff_perm_erase.mpr ⟨hm, h⟩),
        (fun h => (List.cons_perm_iff_perm_erase.mp h).2)⟩
    · simp only [checkLastLoop, hm, if_false]
      exact ⟨(fun hc => by cases hc),
        (fun h => absurd (h.subset (List.mem_cons_self _ _)) hm)⟩

end LuaJitRemake

namespace LuaJitRemake

/-- The function returns exactly when the header is read and the three loops end with their
sets empty. -/
theorem checkForPairs_loops (ss : List String) :
    CheckForPairsThreeTestOutput ss = true ↔
      ∃ rest rest1 rest2, ss = "-- test 1 --" :: rest ∧
        checkSectionLoop "-- test 2 --" rest expectedAnswerForTest1 = some (rest1, []) ∧
        checkSectionLoop "-- test 3 --" rest1 expectedAnswerForTest2 = some (rest2, []) ∧
        checkLastLoop rest2 expectedAnswerForTest3 = some [] := by
  cases ss with
  | nil => simp [CheckForPairsThreeTestOutput]
  | cons line rest =>
    by_cases hline : line = "-- test 1 --"
    swap
    · simp [CheckForPairsThreeTestOutput, hline]
    subst hline
    rcases h1 : checkSectionLoop "-- test 2 --" rest expectedAnswerForTest1 with
      _ | ⟨rest1, rem1⟩
    · simp [CheckForPairsThreeTestOutput, h1]
    cases rem1 with
    | cons x xs => simp [CheckForPairsThreeTestOutput, h1]
    | nil =>
      rcases h2 : checkSectionLoop "-- test 3 --" rest1 expectedAnswerForTest2 with
        _ | ⟨rest2, rem2⟩
      · simp [CheckForPairsThreeTestOutput, h1, h2]
      cases rem2 with
      | cons x xs => simp [CheckForPairsThreeTestOutput, h1, h2]
      | nil =>
        rcases h3 : checkLastLoop rest2 expectedAnswerForTest3 with _ | rem3
        · simp [CheckForPairsThreeTestOutput, h1, h2, h3]
        · cases rem3 with
          | nil => simp [CheckForPairsThreeTestOutput, h1, h2, h3]
          | cons x xs => simp [CheckForPairsThreeTestOutput, h1, h2, h3]

/-- C25 (lines 355-438): `CheckForPairsThreeTestOutput` succeeds on a sequence of output
lines if and only if the sequence is the line "-- test 1 --", then some permutation of the
6 expected lines of test 1, then "-- test 2 --", then some permutation of the 9 expected
lines of test 2, then "-- test 3 --", then some permutation of the 26 expected lines of
test 3, with nothing following. The expected lines of a test are pairwise different, so a
permutation holds every entry exactly once, and a missing, duplicated or unexpected line
makes the check fail. -/
theorem checkForPairsThreeTestOutput_iff (ss : List String) :
    (CheckForPairsThreeTestOutput ss = true ↔
      ∃ p1 p2 p3,
        ss = "-- test 1 --" :: (p1 ++ "-- test 2 --" :: (p2 ++ "-- test 3 --" :: p3)) ∧
        p1.Perm expectedAnswerForTest1 ∧ p2.Perm expectedAnswerForTest2 ∧
        p3.Perm expectedAnswerForTest3) ∧
    expectedAnswerForTest1.length = 6 ∧ expectedAnswerForTest2.length = 9 ∧
    expectedAnswerForTest3.length = 26 ∧
    expectedAnswerForTest1.Nodup ∧ expectedAnswerForTest2.Nodup ∧
    expectedAnswerForTest3.Nodup ∧
    CheckForPairsThreeTestOutput exampleForPairsOutput = true ∧
    CheckForPairsThreeTestOutput (exampleForPairsOutput ++ ["1\t1"]) = false ∧
    CheckForPairsThreeTestOutput (exampleForPairsOutput.erase "a\t1") = false := by
  have ht2 : "-- test 2 --" ∉ expectedAnswerForTest1 := by decide
  have ht3 : "-- test 3 --" ∉ expectedAnswerForTest2 := by decide
  refine ⟨?_, rfl, rfl, rfl, by decide, by decide, by decide, by decide, by decide,
    by decide⟩
  rw [checkForPairs_loops]
  constructor
  · rintro ⟨rest, rest1, rest2, rfl, h1, h2, h3⟩
    obtain ⟨p1, rfl, -, hp1⟩ := (checkSectionLoop_iff _ _ _ _).mp h1
    obtain ⟨p2, rfl, -, hp2⟩ := (checkSectionLoop_iff _ _ _ _).mp h2
    exact ⟨p1, p2, rest2, rfl, hp1, hp2, (checkLastLoop_iff _ _).mp h3⟩
  · rintro ⟨p1, p2, p3, rfl, hp1, hp2, hp3⟩
    refine ⟨p1 ++ "-- test 2 --" :: (p2 ++ "-- test 3 --" :: p3), p2 ++ "-- test 3 --" :: p3,
      p3, rfl, ?_, ?_, (checkLastLoop_iff _ _).mpr hp3⟩
    · exact (checkSectionLoop_iff _ _ _ _).mpr
        ⟨p1, rfl, (fun hc => ht2 (hp1.subset hc)), hp1⟩
    · exact (checkSectionLoop_iff _ _ _ _).mpr
        ⟨p2, rfl, (fun hc => ht3 (hp2.subset hc)), hp2⟩

end LuaJitRemake

namespace LuaJitRemake

/-! ## The key of a `GlobalGet` -/

/-- Every call of one pass of the slow path that takes a key takes `index`. -/
theorem slowPathStep_usesKey (rt : Runtime) (index : HeapString) (l : Label) :
    ∀ e ∈ (slowPathStep rt index l).1, e.usesKey index = true := by
  intro e he
  cases l with
  | check_metatable base =>
    simp only [slowPathStep] at he
    split_ifs at he <;> simp at he <;> rcases he with rfl | rfl <;> simp [Event.usesKey]
  | handle_metamethod base mb m =>
    cases m <;> simp only [slowPathStep] at he <;> (try split_ifs at he) <;> simp at he <;>
      subst he <;> simp [Event.usesKey]

/-- Every call of the slow path that takes a key takes `index`. -/
theorem slowPathRun_usesKey (rt : Runtime) (index : HeapString) :
    ∀ (fuel : Nat) (l : Label), ∀ e ∈ (slowPathRun rt index fuel l).2,
      e.usesKey index = true := by
  intro fuel
  induction fuel with
  | zero => intro l e he; simp [slowPathRun] at he
  | succ n ih =>
    intro l e he
    have hstep := slowPathStep_usesKey rt index l
    rcases hs : slowPathStep rt index l with ⟨ev, l' | o⟩
    · rw [slowPathRun_succ_goto rt index n l l' ev hs] at he
      rw [hs] at hstep
      rcases List.mem_append.mp he with h | h
      · exact hstep e h
      · exact ih l' e h
    · rw [slowPathRun_succ_end rt index n l ev o hs] at he
      rw [hs] at hstep
      exact hstep e he

/-- No pass of the slow path ends in an assertion failure. -/
theorem slowPathStep_no_assertion (rt : Runtime) (index : HeapString) (l : Label) :
    (slowPathStep rt index l).2 ≠ Sum.inr Outcome.AssertionFailure := by
  cases l with
  | check_metatable base =>
    simp only [slowPathStep]
    split_ifs <;> simp
  | handle_metamethod base mb m =>
    cases m <;> simp only [slowPathStep] <;> (try split_ifs) <;> simp

/-- The slow path never ends in an assertion failure. -/
theorem slowPathRun_no_assertion (rt : Runtime) (index : HeapString) :
    ∀ (fuel : Nat) (l : Label),
      (slowPathRun rt index fuel l).1 ≠ some Outcome.AssertionFailure := by
  intro fuel
  induction fuel with
  | zero => intro l h; simp [slowPathRun] at h
  | succ n ih =>
    intro l h
    have hstep := slowPathStep_no_assertion rt index l
    rcases hs : slowPathStep rt index l with ⟨ev, l' | o⟩
    · rw [slowPathRun_succ_goto rt index n l l' ev hs] at h
      exact ih l' h
    · rw [slowPathRun_succ_end rt index n l ev o hs] at h
      rw [hs] at hstep
      simp only [Option.some.injEq] at h
      subst h
      exact hstep rfl

/-- Every call of `ic->Body` that takes a key takes `index`. -/
theorem GlobalGetIC_usesKey (rt : Runtime) (ic : ICHandler) (base : TableRef)
    (index : HeapString) :
    ∀ e ∈ (GlobalGetIC rt ic base index).2.2, e.usesKey index = true := by
  intro e he
  unfold GlobalGetIC at he
  dsimp only at he
  split at he
  · simp at he
    subst he
    rfl
  · split at he <;> simp at he <;> rcases he with rfl | rfl | rfl <;> simp [Event.usesKey]

end LuaJitRemake

namespace LuaJitRemake

/-- The only variant of `GlobalGet` admits exactly the string values of `index`. -/
theorem globalGetDefinition_admits (tv : TValue) :
    GlobalGetDefinition.admits "index" tv = true ↔ ∃ k, tv = TValue.String k := by
  cases tv <;> simp [GlobalGetDefinition, BytecodeDefinition.admits, TValue.Is, TValue.IsString]

/-- C26 (lines 12-16 and 112-122): `GlobalGet` declares exactly one variant, under which the
operand `index` is a constant of string type. Under it the entry assertion
`tvIndex.Is<tString>()` of `GlobalGetImpl` never fails, whatever the heap, the IC site and
the length of the chain, and the same string key is used unchanged for every raw lookup
(the `PrepareGetById` calls of the IC body and of the slow path) and every metamethod call
(whose second argument is `tvIndex`) along the chain. -/
theorem globalGet_variant_key_unchanged (rt : Runtime) (ic : ICHandler) (tvIndex : TValue)
    (fuel : Nat) (hv : GlobalGetDefinition.admits "index" tvIndex = true) :
    GlobalGetDefinition.variants.length = 1 ∧
    tvIndex.Is TypeMask.tString = true ∧
    (GlobalGetImpl rt ic tvIndex fuel).outcome ≠ some Outcome.AssertionFailure ∧
    ∃ k, tvIndex = TValue.String k ∧
      (∀ e ∈ (GlobalGetImpl rt ic tvIndex fuel).trace, e.usesKey k = true) ∧
      (∀ base index, Event.PrepareGetById base index ∈
        (GlobalGetImpl rt ic tvIndex fuel).trace → index = k) ∧
      (∀ f args c, (GlobalGetImpl rt ic tvIndex fuel).outcome =
          some (Outcome.MakeCall f args c) →
        ∃ metamethodBase, args = [metamethodBase, tvIndex]) := by
  obtain ⟨k, rfl⟩ := (globalGetDefinition_admits tvIndex).mp hv
  have htrace : ∀ e ∈ (GlobalGetImpl rt ic (TValue.String k) fuel).trace,
      e.usesKey k = true := by
    intro e he
    change e ∈ (GlobalGet rt ic k fuel).trace at he
    by_cases hf : (GlobalGetIC rt ic rt.GetFEnvGlobalObject k).1.2 = false ∨
        (GlobalGetIC rt ic rt.GetFEnvGlobalObject k).1.1.IsNil = false
    · rw [GlobalGet_fast rt ic k fuel hf] at he
      exact GlobalGetIC_usesKey rt ic _ k e he
    · have h1 : (GlobalGetIC rt ic rt.GetFEnvGlobalObject k).1.2 = true := by
        cases hb : (GlobalGetIC rt ic rt.GetFEnvGlobalObject k).1.2 <;> simp_all
      have h2 : (GlobalGetIC rt ic rt.GetFEnvGlobalObject k).1.1.IsNil = true := by
        cases hb : (GlobalGetIC rt ic rt.GetFEnvGlobalObject k).1.1.IsNil <;> simp_all
      rw [GlobalGet_slow rt ic k fuel h1 h2] at he
      rcases List.mem_append.mp he with h | h
      · exact GlobalGetIC_usesKey rt ic _ k e h
      · exact slowPathRun_usesKey rt k fuel _ e h
  have hout : ∀ o, (GlobalGetImpl rt ic (TValue.String k) fuel).outcome = some o →
      (∃ v, o = Outcome.Return v) ∨
        (slowPathRun rt k fuel (Label.check_metatable rt.GetFEnvGlobalObject)).1 =
          some o := by
    intro o ho
    change (GlobalGet rt ic k fuel).outcome = some o at ho
    by_cases hf : (GlobalGetIC rt ic rt.GetFEnvGlobalObject k).1.2 = false ∨
        (GlobalGetIC rt ic rt.GetFEnvGlobalObject k).1.1.IsNil = false
    · rw [GlobalGet_fast rt ic k fuel hf] at ho
      simp only [Option.some.injEq] at ho
      exact Or.inl ⟨_, ho.symm⟩
    · have h1 : (GlobalGetIC rt ic rt.GetFEnvGlobalObject k).1.2 = true := by
        cases hb : (GlobalGetIC rt ic rt.GetFEnvGlobalObject k).1.2 <;> simp_all
      have h2 : (GlobalGetIC rt ic rt.GetFEnvGlobalObject k).1.1.IsNil = true := by
        cases hb : (GlobalGetIC rt ic rt.GetFEnvGlobalObject k).1.1.IsNil <;> simp_all
      rw [GlobalGet_slow rt ic k fuel h1 h2] at ho
      exact Or.inr ho
  refine ⟨rfl, rfl, ?_, k, rfl, htrace, ?_, ?_⟩
  · intro hc
    rcases hout _ hc with ⟨v, hv⟩ | hs
    · cases hv
    · exact slowPathRun_no_assertion rt k fuel _ hs
  · intro base index he
    have := htrace _ he
    simpa [Event.usesKey] using this
  · intro f args c hc
    rcases hout _ hc with ⟨v, hv⟩ | hs
    · cases hv
    · obtain ⟨n, base, mb, -, hargs, -⟩ := slowPathRun_call rt k fuel _ f args c hs
      exact ⟨mb, hargs⟩

/-- Instance of C26: with `__index` a function, the global `x` is absent, the metamethod is
called with the global table and the key `x`, and every lookup on the way used `x`. -/
theorem globalGet_variant_key_unchanged_witness :
    GlobalGetDefinition.admits "index" (TValue.String "x") = true ∧
    (GlobalGetImpl heapIndexFunction.toRuntime emptyIC (TValue.String "x") 5).outcome =
      some (Outcome.MakeCall 9 [TValue.Table 1, TValue.String "x"]
        ReturnContinuation.GlobalGetMetamethodCallContinuation) ∧
    (GlobalGetImpl heapIndexFunction.toRuntime emptyIC (TValue.String "x") 5).outcome ≠
      some Outcome.AssertionFailure ∧
    GlobalGetDefinition.admits "index" (TValue.Double 1) = false ∧
    (GlobalGetImpl heapIndexFunction.toRuntime emptyIC (TValue.Double 1) 5).outcome =
      some Outcome.AssertionFailure :=
  ⟨by decide, by decide,
    (globalGet_variant_key_unchanged heapIndexFunction.toRuntime emptyIC (TValue.String "x") 5
      (by decide)).2.2.1, by decide, by decide⟩

end LuaJitRemake

namespace LuaJitRemake

/-! ## The error and the chain of the heap -/

/-- The value after one more link: the link from the value reached so far. -/
theorem chainAt_snoc (rt : Runtime) (index : HeapString) :
    ∀ (n : Nat) (v w : TValue), chainAt rt index (n + 1) v = some w ↔
      ∃ u, chainAt rt index n v = some u ∧ chainNext rt index u = some w := by
  intro n
  induction n with
  | zero =>
    intro v w
    cases h : chainNext rt index v with
    | none => simp [chainAt, h]
    | some x => simp [chainAt, h]
  | succ n ih =>
    intro v w
    cases h : chainNext rt index v with
    | none => simp [chainAt, h]
    | some x =>
      have h1 : chainAt rt index (n + 1 + 1) v = chainAt rt index (n + 1) x := by
        simp [chainAt, h]
      have h2 : chainAt rt index (n + 1) v = chainAt rt index n x := by
        simp [chainAt, h]
      rw [h1, h2]
      exact ih x w

/-- A link from a table: its raw lookup is nil with the bit set and the next value is its
`Index` metamethod, which is not nil. -/
theorem chainNext_table_inv (rt : Runtime) (index : HeapString) (t : TableRef) (w : TValue)
    (h : chainNext rt index (TValue.Table t) = some w) :
    (rawLookup rt t index).2 = true ∧ (rawLookup rt t index).1.IsNil = true ∧
      w = tableIndexMetamethod rt t ∧ (tableIndexMetamethod rt t).IsNil = false := by
  simp only [chainNext] at h
  split_ifs at h with h1 h2
  · simp only [Option.some.injEq] at h
    refine ⟨h1.1, h1.2, h.symm, ?_⟩
    simpa using h2

/-- A link from a value that is neither a table nor a function: the next value is its own
`Index` metamethod, which is not nil. -/
theorem chainNext_other_inv (rt : Runtime) (index : HeapString) (v w : TValue)
    (hf : ∀ f, v ≠ TValue.Function f) (ht : ∀ t, v ≠ TValue.Table t)
    (h : chainNext rt index v = some w) :
    w = rt.GetMetamethodForValue v LuaMetamethodKind.Index ∧
      (rt.GetMetamethodForValue v LuaMetamethodKind.Index).IsNil = false := by
  cases hn : (rt.GetMetamethodForValue v LuaMetamethodKind.Index).IsNil with
  | false =>
    rw [chainNext_other rt index v hf ht hn] at h
    simp only [Option.some.injEq] at h
    exact ⟨h.symm, rfl⟩
  | true =>
    exfalso
    cases v <;> first | exact absurd rfl (hf _) | exact absurd rfl (ht _) |
      simp [chainNext, hn] at h

end LuaJitRemake

namespace LuaJitRemake

/-- One pass of the slow path follows the chain of the heap: from a label whose object is a
table already found without the key, a pass that goes on either stays at the same table
(a table metamethod was looked up, the key was absent, and `check_metatable` is next) or
moves one link along the chain to `handle_metamethod`. -/
theorem step_follows_chain (rt : Runtime) (index : HeapString) (l l' : Label)
    (ev : List Event) (hs : slowPathStep rt index l = (ev, Sum.inl l'))
    (hl : ∀ t, l = Label.check_metatable t →
      (rawLookup rt t index).2 = true ∧ (rawLookup rt t index).1.IsNil = true) :
    (l'.object = l.object ∧ ∃ t, l' = Label.check_metatable t ∧
        (rawLookup rt t index).2 = true ∧ (rawLookup rt t index).1.IsNil = true) ∨
      (chainNext rt index l.object = some l'.object ∧
        ∃ b mb m, l' = Label.handle_metamethod b mb m) := by
  cases l with
  | check_metatable b =>
    obtain ⟨h1, h2⟩ := hl b rfl
    cases h3 : (tableIndexMetamethod rt b).IsNil with
    | true =>
      have := step_check_metatable_nil rt index b h3
      rw [hs] at this
      cases this
    | false =>
      rw [step_check_metatable_goto rt index b h3] at hs
      simp only [Prod.mk.injEq, Sum.inl.injEq] at hs
      obtain ⟨-, rfl⟩ := hs
      exact Or.inr ⟨chainNext_table rt index b h1 h2 h3, _, _, _, rfl⟩
  | handle_metamethod b mb m =>
    by_cases hfun : ∃ f, m = TValue.Function f
    · obtain ⟨f, rfl⟩ := hfun
      rw [step_handle_function] at hs
      cases hs
    by_cases htab : ∃ t, m = TValue.Table t
    · obtain ⟨t, rfl⟩ := htab
      by_cases hc : (rawLookup rt t index).2 = true ∧ (rawLookup rt t index).1.IsNil = true
      · rw [step_handle_table_goto rt index b mb t hc.1 hc.2] at hs
        simp only [Prod.mk.injEq, Sum.inl.injEq] at hs
        obtain ⟨-, rfl⟩ := hs
        exact Or.inl ⟨rfl, t, rfl, hc.1, hc.2⟩
      · have hc' : (rawLookup rt t index).2 = false ∨
            (rawLookup rt t index).1.IsNil = false := by
          by_cases h1 : (rawLookup rt t index).2 = true
          · right
            cases h2 : (rawLookup rt t index).1.IsNil
            · rfl
            · exact absurd ⟨h1, h2⟩ hc
          · left
            simpa using h1
        rw [step_handle_table_return rt index b mb t hc'] at hs
        cases hs
    · have hf : ∀ f, m ≠ TValue.Function f := fun f h => hfun ⟨f, h⟩
      have ht : ∀ t, m ≠ TValue.Table t := fun t h => htab ⟨t, h⟩
      cases hn : (rt.GetMetamethodForValue m LuaMetamethodKind.Index).IsNil with
      | true =>
        rw [step_handle_other_error rt index b mb m hf ht hn] at hs
        cases hs
      | false =>
        rw [step_handle_other_goto rt index b mb m hf ht hn] at hs
        simp only [Prod.mk.injEq, Sum.inl.injEq] at hs
        obtain ⟨-, rfl⟩ := hs
        exact Or.inr ⟨chainNext_other rt index m hf ht hn, _, _, _, rfl⟩

/-- Every label the slow path reaches from `check_metatable` of a table found without the key
has as object a value of the chain of the heap from that table. -/
theorem labelAfter_on_chain (rt : Runtime) (index : HeapString) (g : TableRef)
    (hg : (rawLookup rt g index).2 = true ∧ (rawLookup rt g index).1.IsNil = true) :
    ∀ (n : Nat) (l : Label), labelAfter rt index n (Label.check_metatable g) = some l →
      (∃ m, chainAt rt index m (TValue.Table g) = some l.object) ∧
      ∀ t, l = Label.check_metatable t →
        (rawLookup rt t index).2 = true ∧ (rawLookup rt t index).1.IsNil = true := by
  intro n
  induction n with
  | zero =>
    intro l h
    simp only [labelAfter, Option.some.injEq] at h
    subst h
    refine ⟨⟨0, rfl⟩, ?_⟩
    intro t ht
    cases ht
    exact hg
  | succ n ih =>
    intro l h
    obtain ⟨l0, ev, h0, hs⟩ := labelAfter_succ_inv rt index n _ l h
    obtain ⟨⟨m, hm⟩, hl0⟩ := ih l0 h0
    rcases step_follows_chain rt index l0 l ev hs hl0 with ⟨hobj, t, rfl, hc⟩ | ⟨hnext, b, mb, v, rfl⟩
    · refine ⟨⟨m, by rw [hobj]; exact hm⟩, ?_⟩
      intro t' ht'
      cases ht'
      exact hc
    · refine ⟨⟨m + 1, (chainAt_snoc rt index m _ _).mpr ⟨_, hm, hnext⟩⟩, ?_⟩
      intro t' ht'
      cases ht'

/-- Every value of the chain of the heap from a table is the object of a label the slow
path reaches from `check_metatable` of that table, and after at least one link the label is
`handle_metamethod`. -/
theorem chainAt_reached (rt : Runtime) (index : HeapString) (g : TableRef) :
    ∀ (m : Nat) (v : TValue), chainAt rt index m (TValue.Table g) = some v →
      ∃ n l, labelAfter rt index n (Label.check_metatable g) = some l ∧ l.object = v ∧
        (0 < m → ∃ b mb, l = Label.handle_metamethod b mb v) := by
  intro m
  induction m with
  | zero =>
    intro v h
    simp only [chainAt, Option.some.injEq] at h
    subst h
    exact ⟨0, _, rfl, rfl, (fun hc => absurd hc (by decide))⟩
  | succ m ih =>
    intro w h
    obtain ⟨u, hu, hnext⟩ := (chainAt_snoc rt index m _ _).mp h
    obtain ⟨n, l, hn, hobj, -⟩ := ih u hu
    cases l with
    | check_metatable t =>
      simp only [Label.object] at hobj
      subst hobj
      obtain ⟨-, -, rfl, h3⟩ := chainNext_table_inv rt index t w hnext
      exact ⟨n + 1, _, labelAfter_succ_of_step rt index n _ _ _ _ hn
        (step_check_metatable_goto rt index t h3), rfl, (fun _ => ⟨_, _, rfl⟩)⟩
    | handle_metamethod b mb x =>
      simp only [Label.object] at hobj
      subst hobj
      by_cases hfun : ∃ f, x = TValue.Function f
      · obtain ⟨f, rfl⟩ := hfun
        simp [chainNext] at hnext
      by_cases htab : ∃ t, x = TValue.Table t
      · obtain ⟨t, rfl⟩ := htab
        obtain ⟨h1, h2, rfl, h3⟩ := chainNext_table_inv rt index t w hnext
        have hn1 := labelAfter_succ_of_step rt index n _ _ _ _ hn
          (step_handle_table_goto rt index b mb t h1 h2)
        exact ⟨n + 1 + 1, _, labelAfter_succ_of_step rt index (n + 1) _ _ _ _ hn1
          (step_check_metatable_goto rt index t h3), rfl, (fun _ => ⟨_, _, rfl⟩)⟩
      · have hf : ∀ f, x ≠ TValue.Function f := fun f h => hfun ⟨f, h⟩
        have ht : ∀ t, x ≠ TValue.Table t := fun t h => htab ⟨t, h⟩
        obtain ⟨rfl, hnn⟩ := chainNext_other_inv rt index x w hf ht hnext
        exact ⟨n + 1, _, labelAfter_succ_of_step rt index n _ _ _ _ hn
          (step_handle_other_goto rt index b mb x hf ht hnn), rfl, (fun _ => ⟨_, _, rfl⟩)⟩

end LuaJitRemake

namespace LuaJitRemake

/-- At a sound site the slow path is entered exactly when the raw lookup of the key in the
global table is nil with the `mayHaveMetatable` bit set. -/
theorem entersSlowPath_iff_rawLookup (rt : Runtime) (ic : ICHandler) (k : HeapString)
    (hic : ICSound rt k ic) :
    entersSlowPath rt ic k = true ↔
      ((rawLookup rt rt.GetFEnvGlobalObject k).2 = true ∧
        (rawLookup rt rt.GetFEnvGlobalObject k).1.IsNil = true) := by
  simp only [entersSlowPath, Bool.and_eq_true,
    GlobalGetIC_result_of_sound rt ic rt.GetFEnvGlobalObject k hic]

/-- At a sound site, the slow path of `GlobalGet(k)` reaches `handle_metamethod` with the
metamethod `v`, a value that is not a table, exactly when the chain of the heap from the
global table reaches `v`. -/
theorem reaches_handle_iff_chainAt (rt : Runtime) (ic : ICHandler) (k : HeapString)
    (hic : ICSound rt k ic) (v : TValue) (ht : ∀ t, v ≠ TValue.Table t) :
    (∃ base metamethodBase,
        ChainReaches rt ic k (Label.handle_metamethod base metamethodBase v)) ↔
      ∃ n, chainAt rt k n (TValue.Table rt.GetFEnvGlobalObject) = some v := by
  constructor
  · rintro ⟨base, mb, hs, n, hn⟩
    have hg := (entersSlowPath_iff_rawLookup rt ic k hic).mp hs
    exact (labelAfter_on_chain rt k _ hg n _ hn).1
  · rintro ⟨m, hm⟩
    cases m with
    | zero =>
      simp only [chainAt, Option.some.injEq] at hm
      exact absurd hm.symm (ht _)
    | succ m =>
      have hg : (rawLookup rt rt.GetFEnvGlobalObject k).2 = true ∧
          (rawLookup rt rt.GetFEnvGlobalObject k).1.IsNil = true := by
        cases hnext : chainNext rt k (TValue.Table rt.GetFEnvGlobalObject) with
        | none => simp [chainAt, hnext] at hm
        | some w =>
          obtain ⟨h1, h2, -, -⟩ := chainNext_table_inv rt k _ w hnext
          exact ⟨h1, h2⟩
      obtain ⟨n, l, hn, -, hl⟩ := chainAt_reached rt k _ (m + 1) v hm
      obtain ⟨b, mb, rfl⟩ := hl (Nat.succ_pos m)
      exact ⟨b, mb, (entersSlowPath_iff_rawLookup rt ic k hic).mpr hg, n, hn⟩

/-- C5 (lines 97-108): at a sound site, `GlobalGet(k)` raises an error if and only if the
`Index` chain of the heap, which starts at the global table and goes from a table without
the key to its `Index` metamethod and from any other value to that value's own `Index`
metamethod, reaches a value that is neither a function nor a table and has no `Index`
metamethod of its own (`GetMetamethodForValue` returns nil). The error is then
"bad type for GlobalGet", it is raised for every sufficient budget, and no value is
returned. -/
theorem globalGet_error_iff (rt : Runtime) (ic : ICHandler) (k : HeapString)
    (hic : ICSound rt k ic) :
    ((∃ fuel msg, (GlobalGet rt ic k fuel).outcome = some (Outcome.ThrowError msg)) ↔
      ∃ n v, chainAt rt k n (TValue.Table rt.GetFEnvGlobalObject) = some v ∧
        (∀ f, v ≠ TValue.Function f) ∧ (∀ t, v ≠ TValue.Table t) ∧
        rt.GetMetamethodForValue v LuaMetamethodKind.Index = TValue.Nil) ∧
    (∀ fuel msg, (GlobalGet rt ic k fuel).outcome = some (Outcome.ThrowError msg) →
      msg = "bad type for GlobalGet") ∧
    ((∃ n v, chainAt rt k n (TValue.Table rt.GetFEnvGlobalObject) = some v ∧
        (∀ f, v ≠ TValue.Function f) ∧ (∀ t, v ≠ TValue.Table t) ∧
        rt.GetMetamethodForValue v LuaMetamethodKind.Index = TValue.Nil) →
      (∃ N, ∀ fuel, N ≤ fuel → (GlobalGet rt ic k fuel).outcome =
        some (Outcome.ThrowError "bad type for GlobalGet")) ∧
      ∀ fuel val, (GlobalGet rt ic k fuel).outcome ≠ some (Outcome.Return val)) := by
  have hlab := error_iff_reaches_label rt ic k
  have hiff : (∃ base metamethodBase v,
        ChainReaches rt ic k (Label.handle_metamethod base metamethodBase v) ∧
        (∀ f, v ≠ TValue.Function f) ∧ (∀ t, v ≠ TValue.Table t) ∧
        rt.GetMetamethodForValue v LuaMetamethodKind.Index = TValue.Nil) ↔
      ∃ n v, chainAt rt k n (TValue.Table rt.GetFEnvGlobalObject) = some v ∧
        (∀ f, v ≠ TValue.Function f) ∧ (∀ t, v ≠ TValue.Table t) ∧
        rt.GetMetamethodForValue v LuaMetamethodKind.Index = TValue.Nil := by
    constructor
    · rintro ⟨base, mb, v, hr, hf, ht, hnil⟩
      obtain ⟨n, hn⟩ := (reaches_handle_iff_chainAt rt ic k hic v ht).mp ⟨base, mb, hr⟩
      exact ⟨n, v, hn, hf, ht, hnil⟩
    · rintro ⟨n, v, hn, hf, ht, hnil⟩
      obtain ⟨base, mb, hr⟩ := (reaches_handle_iff_chainAt rt ic k hic v ht).mpr ⟨n, hn⟩
      exact ⟨base, mb, v, hr, hf, ht, hnil⟩
  exact ⟨hlab.1.trans hiff, hlab.2.1, (fun h => hlab.2.2 (hiff.mpr h))⟩

/-- C5, witness: on the heap after `setmetatable(_G, {__index = 5})`, at a fresh site, the
chain from the global table reaches the number 5 after one link; 5 has no `Index`
metamethod, and `GlobalGet("x")` raises the error. -/
theorem globalGet_error_iff_witness :
    ICSound heapIndexNumber.toRuntime "x" emptyIC ∧
    chainAt heapIndexNumber.toRuntime "x" 1
      (TValue.Table heapIndexNumber.toRuntime.GetFEnvGlobalObject) = some (TValue.Double 5) ∧
    heapIndexNumber.toRuntime.GetMetamethodForValue (TValue.Double 5) LuaMetamethodKind.Index
      = TValue.Nil ∧
    (GlobalGet heapIndexNumber.toRuntime emptyIC "x" 2).outcome =
      some (Outcome.ThrowError "bad type for GlobalGet") ∧
    ((∃ fuel msg, (GlobalGet heapIndexNumber.toRuntime emptyIC "x" fuel).outcome =
        some (Outcome.ThrowError msg)) ↔
      ∃ n v, chainAt heapIndexNumber.toRuntime "x" n
          (TValue.Table heapIndexNumber.toRuntime.GetFEnvGlobalObject) = some v ∧
        (∀ f, v ≠ TValue.Function f) ∧ (∀ t, v ≠ TValue.Table t) ∧
        heapIndexNumber.toRuntime.GetMetamethodForValue v LuaMetamethodKind.Index =
          TValue.Nil) :=
  ⟨emptyIC_sound _ _, by decide, by decide, by decide,
    (globalGet_error_iff heapIndexNumber.toRuntime emptyIC "x" (emptyIC_sound _ _)).1⟩

end LuaJitRemake
